import Mathlib

/-! ## 9cc: tokenizer, recursive-descent parser and code generator

A shallow embedding of `9cc.c` and theorems about it.

Conventions of the embedding.

* A C string is the list of its characters before the terminating NUL.
  A `char *` into `user_input` is the suffix of `user_input` that starts
  at the pointed character, so `p++` is `List.tail`, `*p` is the head
  (NUL for the empty suffix) and `loc - user_input` is the difference of
  the two lengths.
* The linked list of tokens is a `List Token`; the global `token` is the
  list that starts at the current token, the empty list is `NULL`.
* `error` and `error_at` end the process with status 1; functions that
  can call them return `Except Abort _`.
* The loops and the mutual recursion of the parser are driven by a fuel
  counter; `tokenize`, `expr`, `mul` and `primary` supply enough fuel.
-/

namespace NineCC

/-! ## Tokens -/

/-- The C enum `TokenKind`. -/
inductive TokenKind
  | TK_RESERVED
  | TK_NUM
  | TK_EOF
  deriving DecidableEq, Repr

/-- The C struct `Token` without its `next` field, which is the tail of the
token list. `str` is the suffix of `user_input` the token starts at. -/
structure Token where
  kind : TokenKind
  val : Int
  str : List Char
  deriving DecidableEq, Repr

/-- Ways in which a run stops without a value. `error_at pos msg` and
`error msg` are the two diagnostic routines of the program, both followed
by `exit(1)`. `null_deref` is a read through the `NULL` token pointer,
`out_of_fuel` is the embedding's bound on loops being reached. -/
inductive Abort
  | error_at (pos : Nat) (msg : String)
  | error (msg : String)
  | null_deref
  | out_of_fuel
  deriving DecidableEq, Repr

/-- The routine `error_at(loc, fmt, ...)`: `pos = loc - user_input`. -/
def error_at {α : Type} (user_input loc : List Char) (msg : String) : Except Abort α :=
  .error (.error_at (user_input.length - loc.length) msg)

/-- The two lines `error_at` writes to stderr: the whole input, then `pos`
blanks, a caret, a blank and the message. -/
def error_at_lines (user_input : List Char) (pos : Nat) (msg : String) : List String :=
  [String.mk user_input, String.mk (List.replicate pos ' ') ++ "^ " ++ msg]

/-- The character `p[0]` of a C string given by its suffix `p`. -/
def deref (p : List Char) : Char := p.headD '\x00'

/-- The predicate `isspace` in the C locale. -/
def isspace (c : Char) : Bool :=
  c = ' ' || c = '\t' || c = '\n' || c = '\x0b' || c = '\x0c' || c = '\r'

/-- The predicate `isdigit`. -/
def isdigit (c : Char) : Bool := '0' ≤ c && c ≤ '9'

/-- Largest value of the C type `long` (64 bits). -/
def LONG_MAX : Int := 2 ^ 63 - 1

/-- Conversion of a `long` to the C type `int` (32 bits, two's complement). -/
def to_int (x : Int) : Int := (x + 2 ^ 31) % 2 ^ 32 - 2 ^ 31

/-- The digit loop of `strtol` in base 10: the value read so far and the
rest of the string after the maximal run of digits. -/
def strtol_digits : Nat → List Char → Nat × List Char
  | acc, [] => (acc, [])
  | acc, c :: rest =>
    if isdigit c then strtol_digits (acc * 10 + (c.toNat - '0'.toNat)) rest
    else (acc, c :: rest)

/-- The call `strtol(p, &p, 10)` at a `p` that starts with a digit: the
value, clamped to `LONG_MAX`, and the new `p`. -/
def strtol (p : List Char) : Int × List Char :=
  let r := strtol_digits 0 p
  (min (r.1 : Int) LONG_MAX, r.2)

/-- The loop of `tokenize`, one iteration per unit of fuel. The tokens are
returned in list order; the last one is the `TK_EOF` token made after the
loop. -/
def tokenize_loop (user_input : List Char) : Nat → List Char → Except Abort (List Token)
  | 0, _ => .error .out_of_fuel
  | _ + 1, [] => .ok [⟨.TK_EOF, 0, []⟩]
  | fuel + 1, c :: rest =>
    if isspace c then
      tokenize_loop user_input fuel rest
    else if c = '+' || c = '-' then
      (tokenize_loop user_input fuel rest).map (fun ts => ⟨.TK_RESERVED, 0, c :: rest⟩ :: ts)
    else if isdigit c then
      (tokenize_loop user_input fuel (strtol (c :: rest)).2).map
        (fun ts => ⟨.TK_NUM, to_int (strtol (c :: rest)).1, c :: rest⟩ :: ts)
    else
      error_at user_input (c :: rest) "expected a number"

/-- The function `tokenize`, which scans the global `user_input`. -/
def tokenize (user_input : List Char) : Except Abort (List Token) :=
  tokenize_loop user_input (user_input.length + 1) user_input

/-! ## Parser -/

/-- The parser's `consume(op)`: the answer and the new value of `token`. -/
def consume (op : Char) (token : List Token) : Except Abort (Bool × List Token) :=
  match token with
  | [] => .error .null_deref
  | t :: next =>
    if t.kind ≠ .TK_RESERVED || deref t.str ≠ op then .ok (false, t :: next)
    else .ok (true, next)

/-- The parser's `expect(op)`: the new value of `token`. -/
def expect (user_input : List Char) (op : Char) (token : List Token) :
    Except Abort (List Token) :=
  match token with
  | [] => .error .null_deref
  | t :: next =>
    if t.kind ≠ .TK_RESERVED || deref t.str ≠ op then
      error_at user_input t.str ("expected '" ++ String.singleton op ++ "'")
    else .ok next

/-- The parser's `expect_number()`: the value and the new value of `token`. -/
def expect_number (user_input : List Char) (token : List Token) :
    Except Abort (Int × List Token) :=
  match token with
  | [] => .error .null_deref
  | t :: next =>
    if t.kind ≠ .TK_NUM then error_at user_input t.str "expected a number"
    else .ok (t.val, next)

/-- The parser's `at_eof()`. -/
def at_eof (token : List Token) : Except Abort Bool :=
  match token with
  | [] => .error .null_deref
  | t :: _ => .ok (decide (t.kind = .TK_EOF))

/-- The C struct `Node`: a binary node of one of the four kinds with its
`lhs` and `rhs`, or an `ND_NUM` leaf with its `val`. -/
inductive Node
  | ND_ADD (lhs rhs : Node)
  | ND_SUB (lhs rhs : Node)
  | ND_MUL (lhs rhs : Node)
  | ND_DIV (lhs rhs : Node)
  | ND_NUM (val : Int)
  deriving DecidableEq, Repr

mutual
/-- The function `expr` with a fuel bound. -/
def expr_fuel (user_input : List Char) : Nat → List Token → Except Abort (Node × List Token)
  | 0, _ => .error .out_of_fuel
  | fuel + 1, token =>
    match mul_fuel user_input fuel token with
    | .error e => .error e
    | .ok (node, token) => expr_loop user_input fuel node token
/-- The `for (;;)` loop of `expr`, entered with the current `node`. -/
def expr_loop (user_input : List Char) : Nat → Node → List Token → Except Abort (Node × List Token)
  | 0, _, _ => .error .out_of_fuel
  | fuel + 1, node, token =>
    match consume '+' token with
    | .error e => .error e
    | .ok (true, token) =>
      match mul_fuel user_input fuel token with
      | .error e => .error e
      | .ok (rhs, token) => expr_loop user_input fuel (.ND_ADD node rhs) token
    | .ok (false, token) =>
      match consume '-' token with
      | .error e => .error e
      | .ok (true, token) =>
        match mul_fuel user_input fuel token with
        | .error e => .error e
        | .ok (rhs, token) => expr_loop user_input fuel (.ND_SUB node rhs) token
      | .ok (false, token) => .ok (node, token)
/-- The function `mul` with a fuel bound. -/
def mul_fuel (user_input : List Char) : Nat → List Token → Except Abort (Node × List Token)
  | 0, _ => .error .out_of_fuel
  | fuel + 1, token =>
    match primary_fuel user_input fuel token with
    | .error e => .error e
    | .ok (node, token) => mul_loop user_input fuel node token
/-- The `for (;;)` loop of `mul`, entered with the current `node`. -/
def mul_loop (user_input : List Char) : Nat → Node → List Token → Except Abort (Node × List Token)
  | 0, _, _ => .error .out_of_fuel
  | fuel + 1, node, token =>
    match consume '*' token with
    | .error e => .error e
    | .ok (true, token) =>
      match primary_fuel user_input fuel token with
      | .error e => .error e
      | .ok (rhs, token) => mul_loop user_input fuel (.ND_MUL node rhs) token
    | .ok (false, token) =>
      match consume '/' token with
      | .error e => .error e
      | .ok (true, token) =>
        match primary_fuel user_input fuel token with
        | .error e => .error e
        | .ok (rhs, token) => mul_loop user_input fuel (.ND_DIV node rhs) token
      | .ok (false, token) => .ok (node, token)
/-- The function `primary` with a fuel bound. -/
def primary_fuel (user_input : List Char) : Nat → List Token → Except Abort (Node × List Token)
  | 0, _ => .error .out_of_fuel
  | fuel + 1, token =>
    match consume '(' token with
    | .error e => .error e
    | .ok (true, token) =>
      match expr_fuel user_input fuel token with
      | .error e => .error e
      | .ok (node, token) =>
        match expect user_input ')' token with
        | .error e => .error e
        | .ok token => .ok (node, token)
    | .ok (false, token) =>
      match expect_number user_input token with
      | .error e => .error e
      | .ok (val, token) => .ok (.ND_NUM val, token)
end

/-- Fuel that lets the parser run to its end on a token list. -/
def parse_fuel (token : List Token) : Nat := 3 * token.length + 3

/-- The function `expr`: the node it returns and the final `token`. -/
def expr (user_input : List Char) (token : List Token) : Except Abort (Node × List Token) :=
  expr_fuel user_input (parse_fuel token) token

/-- The function `mul`. -/
def mul (user_input : List Char) (token : List Token) : Except Abort (Node × List Token) :=
  mul_fuel user_input (parse_fuel token) token

/-- The function `primary`. -/
def primary (user_input : List Char) (token : List Token) : Except Abort (Node × List Token) :=
  primary_fuel user_input (parse_fuel token) token

/-! ## Code generator -/

/-- The function `gen`: the lines it prints, in order, without their
newline characters. -/
def gen : Node → List String
  | .ND_NUM val => ["  push " ++ toString val]
  | .ND_ADD lhs rhs =>
    gen lhs ++ gen rhs ++ ["  pop rdi", "  pop rax"] ++ ["  add rax, rdi"] ++ ["  push rax"]
  | .ND_SUB lhs rhs =>
    gen lhs ++ gen rhs ++ ["  pop rdi", "  pop rax"] ++ ["  sub rax, rdi"] ++ ["  push rax"]
  | .ND_MUL lhs rhs =>
    gen lhs ++ gen rhs ++ ["  pop rdi", "  pop rax"] ++ ["  imul rax, rdi"] ++ ["  push rax"]
  | .ND_DIV lhs rhs =>
    gen lhs ++ gen rhs ++ ["  pop rdi", "  pop rax"] ++ ["  cqo", "  idiv rdi"] ++ ["  push rax"]

/-- How a run of the program ends: `exit status stdout stderr` is a normal
end with the lines written to the two streams, `abnormal` is a run the
program does not end by itself. -/
inductive Outcome
  | exit (status : Nat) (stdout stderr : List String)
  | abnormal (a : Abort)
  deriving DecidableEq, Repr

/-- What the process leaves behind when a stage stops with `a`. -/
def report (user_input : List Char) : Abort → Outcome
  | .error_at pos msg => .exit 1 [] (error_at_lines user_input pos msg)
  | .error msg => .exit 1 [] [msg]
  | a => .abnormal a

/-- The function `main` on the argument vector `argv` (program name
included): nothing is printed before `tokenize` and `expr` have returned. -/
def main (argv : List (List Char)) : Outcome :=
  match argv with
  | [_, user_input] =>
    match tokenize user_input with
    | .error a => report user_input a
    | .ok token =>
      match expr user_input token with
      | .error a => report user_input a
      | .ok (node, _) =>
        .exit 0
          ([".intel_syntax noprefix", ".globl main", "main:"] ++ gen node ++
            ["  pop rax", "  ret"]) []
  | _ => report [] (.error "引数の個数が正しくありません")

/-- Tokenizing and parsing as `main` chains them: the node and the final
`token`. -/
def parse (user_input : List Char) : Except Abort (Node × List Token) :=
  match tokenize user_input with
  | .error a => .error a
  | .ok token => expr user_input token

/-! ## The target machine

The part of x86-64 the emitted lines use. Register and stack contents are
64-bit words, kept as the integers they stand for in two's complement. -/

/-- The two registers named in the emitted text. -/
inductive Reg
  | rax
  | rdi
  deriving DecidableEq, Repr

/-- The instructions `gen` emits. -/
inductive Instr
  | push_imm (val : Int)
  | push (r : Reg)
  | pop (r : Reg)
  | add (dst src : Reg)
  | sub (dst src : Reg)
  | imul (dst src : Reg)
  | cqo
  | idiv (r : Reg)
  deriving DecidableEq, Repr

/-- Name of a register as it is written in the emitted text. -/
def Reg.name : Reg → String
  | .rax => "rax"
  | .rdi => "rdi"

/-- The line of assembly text of an instruction. -/
def Instr.line : Instr → String
  | .push_imm val => "  push " ++ toString val
  | .push r => "  push " ++ r.name
  | .pop r => "  pop " ++ r.name
  | .add dst src => "  add " ++ dst.name ++ ", " ++ src.name
  | .sub dst src => "  sub " ++ dst.name ++ ", " ++ src.name
  | .imul dst src => "  imul " ++ dst.name ++ ", " ++ src.name
  | .cqo => "  cqo"
  | .idiv r => "  idiv " ++ r.name

/-- The instructions whose text `gen` prints: one per line. -/
def gen_instrs : Node → List Instr
  | .ND_NUM val => [.push_imm val]
  | .ND_ADD lhs rhs =>
    gen_instrs lhs ++ gen_instrs rhs ++ [.pop .rdi, .pop .rax] ++ [.add .rax .rdi] ++ [.push .rax]
  | .ND_SUB lhs rhs =>
    gen_instrs lhs ++ gen_instrs rhs ++ [.pop .rdi, .pop .rax] ++ [.sub .rax .rdi] ++ [.push .rax]
  | .ND_MUL lhs rhs =>
    gen_instrs lhs ++ gen_instrs rhs ++ [.pop .rdi, .pop .rax] ++ [.imul .rax .rdi] ++ [.push .rax]
  | .ND_DIV lhs rhs =>
    gen_instrs lhs ++ gen_instrs rhs ++ [.pop .rdi, .pop .rax] ++ [.cqo, .idiv .rdi] ++ [.push .rax]

/-- The signed 64-bit integer with the same low 64 bits as `x`. -/
def wrap64 (x : Int) : Int := (x + 2 ^ 63) % 2 ^ 64 - 2 ^ 63

/-- Whether `x` is a signed 64-bit integer. -/
def in_range64 (x : Int) : Prop := -2 ^ 63 ≤ x ∧ x < 2 ^ 63

instance (x : Int) : Decidable (in_range64 x) := by
  unfold in_range64
  infer_instance

/-- Machine state: three registers and the stack, top first. -/
structure Machine where
  rax : Int
  rdi : Int
  rdx : Int
  stack : List Int
  deriving DecidableEq, Repr

/-- Read a register. -/
def Machine.get (m : Machine) : Reg → Int
  | .rax => m.rax
  | .rdi => m.rdi

/-- Write a register. -/
def Machine.set (m : Machine) (r : Reg) (v : Int) : Machine :=
  match r with
  | .rax => { m with rax := v }
  | .rdi => { m with rdi := v }

/-- One instruction. `none` is a fault: a pop from the empty stack, or the
divide error of `idiv` (zero divisor, or a quotient that does not fit in
64 bits). `push` of an immediate stores its sign extension; `add`, `sub`
and `imul` keep the low 64 bits; `cqo` fills `rdx` with the sign of `rax`;
`idiv` divides the 128-bit `rdx:rax`, truncating toward zero, quotient to
`rax` and remainder to `rdx`. -/
def step (i : Instr) (m : Machine) : Option Machine :=
  match i with
  | .push_imm val => some { m with stack := wrap64 val :: m.stack }
  | .push r => some { m with stack := m.get r :: m.stack }
  | .pop r =>
    match m.stack with
    | [] => none
    | v :: rest => some ({ m with stack := rest }.set r v)
  | .add dst src => some (m.set dst (wrap64 (m.get dst + m.get src)))
  | .sub dst src => some (m.set dst (wrap64 (m.get dst - m.get src)))
  | .imul dst src => some (m.set dst (wrap64 (m.get dst * m.get src)))
  | .cqo => some { m with rdx := if m.rax < 0 then -1 else 0 }
  | .idiv r =>
    let dividend := m.rdx * 2 ^ 64 + m.rax % 2 ^ 64
    let divisor := m.get r
    if divisor = 0 then none
    else if in_range64 (dividend.tdiv divisor) then
      some { m with rax := dividend.tdiv divisor, rdx := dividend.tmod divisor }
    else none

/-- Run a sequence of instructions. -/
def exec : List Instr → Machine → Option Machine
  | [], m => some m
  | i :: rest, m =>
    match step i m with
    | none => none
    | some m1 => exec rest m1

/-! ## Reference evaluation -/

/-- Signed 64-bit division truncating toward zero; undefined for a zero
divisor and for the one quotient that does not fit, `-2^63 / -1`. -/
def sdiv64 (a b : Int) : Option Int :=
  if b = 0 then none
  else if a = -2 ^ 63 ∧ b = -1 then none
  else some (a.tdiv b)

/-- Value of a tree: left operand, operator, right operand, in 64-bit
two's-complement arithmetic. -/
def eval : Node → Option Int
  | .ND_NUM val => some (wrap64 val)
  | .ND_ADD lhs rhs =>
    match eval lhs, eval rhs with
    | some a, some b => some (wrap64 (a + b))
    | _, _ => none
  | .ND_SUB lhs rhs =>
    match eval lhs, eval rhs with
    | some a, some b => some (wrap64 (a - b))
    | _, _ => none
  | .ND_MUL lhs rhs =>
    match eval lhs, eval rhs with
    | some a, some b => some (wrap64 (a * b))
    | _, _ => none
  | .ND_DIV lhs rhs =>
    match eval lhs, eval rhs with
    | some a, some b => sdiv64 a b
    | _, _ => none

/-- No `ND_DIV` node of the tree has a right operand of value zero. -/
def divisors_nonzero : Node → Prop
  | .ND_NUM _ => True
  | .ND_ADD lhs rhs => divisors_nonzero lhs ∧ divisors_nonzero rhs
  | .ND_SUB lhs rhs => divisors_nonzero lhs ∧ divisors_nonzero rhs
  | .ND_MUL lhs rhs => divisors_nonzero lhs ∧ divisors_nonzero rhs
  | .ND_DIV lhs rhs => divisors_nonzero lhs ∧ divisors_nonzero rhs ∧ eval rhs ≠ some 0

/-- No `ND_DIV` node of the tree divides `-2^63` by `-1`. -/
def quotients_fit : Node → Prop
  | .ND_NUM _ => True
  | .ND_ADD lhs rhs => quotients_fit lhs ∧ quotients_fit rhs
  | .ND_SUB lhs rhs => quotients_fit lhs ∧ quotients_fit rhs
  | .ND_MUL lhs rhs => quotients_fit lhs ∧ quotients_fit rhs
  | .ND_DIV lhs rhs =>
    quotients_fit lhs ∧ quotients_fit rhs ∧ ¬(eval lhs = some (-2 ^ 63) ∧ eval rhs = some (-1))

/-- The characters the loop of `tokenize` has a case for. -/
def recognised (c : Char) : Bool :=
  isspace c || decide (c = '+') || decide (c = '-') || isdigit c

/-! ## Inputs made of literals and additive operators -/

/-- A literal: a non-empty run of decimal digits. -/
def is_literal (d : List Char) : Prop := d ≠ [] ∧ ∀ c ∈ d, isdigit c = true

instance (d : List Char) : Decidable (is_literal d) := by
  unfold is_literal
  infer_instance

/-- Base-10 value of a run of digits. -/
def decimal_value (d : List Char) : Nat :=
  d.foldl (fun acc c => acc * 10 + (c.toNat - '0'.toNat)) 0

/-- The `int` that `tokenize` stores for the literal `d`: the result of
`strtol` converted to `int`. -/
def int_of_literal (d : List Char) : Int := to_int (min (decimal_value d : Int) LONG_MAX)

/-- The text `op1 d1 op2 d2 ...` of a list of operator and literal pairs. -/
def additive_text : List (Char × List Char) → List Char
  | [] => []
  | (op, d) :: rest => op :: (d ++ additive_text rest)

/-- The tokens of `additive_text`, each with the suffix it starts at. -/
def additive_tokens : List (Char × List Char) → List Token
  | [] => [⟨.TK_EOF, 0, []⟩]
  | (op, d) :: rest =>
    ⟨.TK_RESERVED, 0, op :: (d ++ additive_text rest)⟩ ::
      ⟨.TK_NUM, int_of_literal d, d ++ additive_text rest⟩ :: additive_tokens rest

/-- The left-nested tree `((node op1 d1) op2 d2) ...`. -/
def left_nest : Node → List (Char × List Char) → Node
  | node, [] => node
  | node, (op, d) :: rest =>
    left_nest
      (if op = '+' then .ND_ADD node (.ND_NUM (int_of_literal d))
       else .ND_SUB node (.ND_NUM (int_of_literal d))) rest

/-- The left-nested tree `((node op1 n1) op2 n2) ...` whose leaves hold the
base-10 values of the literals. -/
def left_nest_values : Node → List (Char × List Char) → Node
  | node, [] => node
  | node, (op, d) :: rest =>
    left_nest_values
      (if op = '+' then .ND_ADD node (.ND_NUM (decimal_value d))
       else .ND_SUB node (.ND_NUM (decimal_value d))) rest

/-! ## Statements about runs of the parser and of `main` -/

/-- The property of a result of a parsing function started on `A ++ [eof]`:
a returned `token` is `B ++ [eof]` for a suffix `B` of `A`, and a stop is
one of the two diagnostics of the parser or the fuel bound, never a read
through `NULL`. -/
def cursor_safe (A : List Token) (eof : Token) : Except Abort (Node × List Token) → Prop
  | .ok (_, R) => ∃ pre B, A = pre ++ B ∧ R = B ++ [eof]
  | .error (.error_at _ msg) => msg = "expected a number" ∨ msg = "expected ')'"
  | .error .out_of_fuel => True
  | .error _ => False

/-- The text `main` prints for a node: header, label, the lines of `gen`,
the final pop and the return. -/
def assembly (node : Node) : List String :=
  [".intel_syntax noprefix", ".globl main", "main:"] ++ gen node ++ ["  pop rax", "  ret"]

/-- The loop of `tokenize` entered with `p`, with the fuel that lets it
reach the end of `p`. -/
def scan (user_input p : List Char) : Except Abort (List Token) :=
  tokenize_loop user_input (p.length + 1) p

/-- The offset of a token in the input: `t.str - user_input`. -/
def token_offset (user_input : List Char) (t : Token) : Nat :=
  user_input.length - t.str.length

/-! ## Runs of digits, token signatures, canonical token lists -/

/-- What the parser can read of a token: its kind, the character it starts
with when it is a `TK_RESERVED` token, and its value. -/
def token_sig (t : Token) : TokenKind × Char × Int :=
  (t.kind, if t.kind = .TK_RESERVED then deref t.str else '\x00', t.val)

/-- The signatures of the tokens of a successful run of the tokenizer. -/
def sigs_of (r : Except Abort (List Token)) : Option (List (TokenKind × Char × Int)) :=
  match r with
  | .ok ts => some (ts.map token_sig)
  | .error _ => none

/-- The node of a successful run of the parser. -/
def node_of (r : Except Abort (Node × List Token)) : Option Node :=
  match r with
  | .ok (node, _) => some node
  | .error _ => none

/-- The place between `pre` and `post` is between two decimal digits. -/
def splits_number (pre post : List Char) : Prop :=
  (∃ a, pre.getLast? = some a ∧ isdigit a = true) ∧ (∃ b, post.head? = some b ∧ isdigit b = true)

/-- Texts obtained from one another by inserting or deleting whitespace
characters at places that are not between two decimal digits. -/
inductive ws_related : List Char → List Char → Prop
  | refl (s : List Char) : ws_related s s
  | insert (pre post : List Char) (c : Char) :
      isspace c = true → ¬splits_number pre post → ws_related (pre ++ post) (pre ++ c :: post)
  | delete (pre post : List Char) (c : Char) :
      isspace c = true → ¬splits_number pre post → ws_related (pre ++ c :: post) (pre ++ post)
  | trans (a b c : List Char) : ws_related a b → ws_related b c → ws_related a c

/-- The token is one of the operators a loop of the parser goes on with. -/
def continues (t : Token) : Prop :=
  t.kind = .TK_RESERVED ∧
    (deref t.str = '+' ∨ deref t.str = '-' ∨ deref t.str = '*' ∨ deref t.str = '/')

instance (t : Token) : Decidable (continues t) := by
  unfold continues
  infer_instance

/-- The mnemonics of the lines `main` prints after the label. -/
def mnemonics : List String := ["push", "pop", "add", "sub", "imul", "cqo", "idiv", "ret"]

/-- An instruction line: two blanks, a mnemonic that starts right after
them, and then nothing or a blank and the operands. -/
def is_instr_line (line : String) : Prop :=
  ∃ m ∈ mnemonics, ∃ args : List Char,
    line.data = ' ' :: ' ' :: (m.data ++ args) ∧ (args = [] ∨ args.head? = some ' ') ∧
      line.data.get? 2 ≠ some ' '

/-- An operator token as the parser reads it: kind and first character. -/
def op_token (c : Char) : Token := ⟨.TK_RESERVED, 0, [c]⟩

/-- A number token as the parser reads it: kind and value. -/
def num_token (val : Int) : Token := ⟨.TK_NUM, val, []⟩

/-- The end-of-input token. -/
def eof_token : Token := ⟨.TK_EOF, 0, []⟩

/-- The tokens `ts`, between parentheses when `b` holds. -/
def paren_if (b : Bool) (ts : List Token) : List Token :=
  if b then op_token '(' :: (ts ++ [op_token ')']) else ts

/-- Canonical tokens of a tree printed where level `lvl` is required:
0 for an additive operand position, 1 for a multiplicative one, 2 for a
primary one. A sum or difference has level 0, a product or quotient
level 1, a number level 2; a tree gets parentheses when its level is
below `lvl`. -/
def render : Nat → Node → List Token
  | _, .ND_NUM val => [num_token val]
  | lvl, .ND_ADD lhs rhs =>
    paren_if (decide (0 < lvl)) (render 0 lhs ++ op_token '+' :: render 1 rhs)
  | lvl, .ND_SUB lhs rhs =>
    paren_if (decide (0 < lvl)) (render 0 lhs ++ op_token '-' :: render 1 rhs)
  | lvl, .ND_MUL lhs rhs =>
    paren_if (decide (1 < lvl)) (render 1 lhs ++ op_token '*' :: render 2 rhs)
  | lvl, .ND_DIV lhs rhs =>
    paren_if (decide (1 < lvl)) (render 1 lhs ++ op_token '/' :: render 2 rhs)

/-- The tokens `toks` are read by `primary` as the tree `t`, whatever follows. -/
def parses_primary (ui : List Char) (toks : List Token) (t : Node) : Prop :=
  ∀ rest, ∃ f, primary_fuel ui f (toks ++ rest) = .ok (t, rest)

/-- The function `mul` on `toks` and then `rest` does what its loop does
when entered with the tree `t` at `rest`. -/
def parses_mul (ui : List Char) (toks : List Token) (t : Node) : Prop :=
  ∀ rest res, (∃ f, mul_loop ui f t rest = .ok res) →
    ∃ f, mul_fuel ui f (toks ++ rest) = .ok res

/-- The function `expr` on `toks` and then `rest` does what its loop does
when entered with the tree `t` at `rest`, when `rest` does not start with
`*` or `/`. -/
def parses_add (ui : List Char) (toks : List Token) (t : Node) : Prop :=
  ∀ rest res, consume '*' rest = .ok (false, rest) → consume '/' rest = .ok (false, rest) →
    (∃ f, expr_loop ui f t rest = .ok res) →
    ∃ f, expr_fuel ui f (toks ++ rest) = .ok res

/-! ## The code generator and the machine -/

theorem wrap64_in_range (x : Int) : in_range64 (wrap64 x) := by
  unfold in_range64 wrap64
  omega

theorem wrap64_of_in_range {x : Int} (h : in_range64 x) : wrap64 x = x := by
  unfold in_range64 at h
  unfold wrap64
  omega

theorem tdiv_in_range {a b : Int} (ha : in_range64 a) (hb0 : b ≠ 0)
    (hov : ¬(a = -2 ^ 63 ∧ b = -1)) : in_range64 (a.tdiv b) := by
  unfold in_range64 at *
  have hq : (a.tdiv b).natAbs = a.natAbs / b.natAbs := Int.natAbs_tdiv a b
  by_cases h1 : b = 1
  · subst h1
    simpa using ha
  by_cases h2 : b = -1
  · subst h2
    have hneg : a.tdiv (-1) = -a := by
      rw [Int.tdiv_neg, Int.tdiv_one]
    rw [hneg]
    omega
  · have hb2 : 2 ≤ b.natAbs := by omega
    have hle : a.natAbs / b.natAbs ≤ a.natAbs / 2 :=
      Nat.div_le_div_left hb2 (by decide)
    omega

theorem sdiv64_in_range {a b q : Int} (ha : in_range64 a) (h : sdiv64 a b = some q) :
    in_range64 q := by
  unfold sdiv64 at h
  split at h
  · cases h
  · split at h
    · cases h
    · cases h
      exact tdiv_in_range ha (by assumption) (by assumption)

theorem eval_in_range : ∀ (node : Node) (v : Int), eval node = some v → in_range64 v := by
  intro node
  induction node with
  | ND_NUM val =>
    intro v h
    simp only [eval, Option.some.injEq] at h
    subst h
    exact wrap64_in_range val
  | ND_ADD lhs rhs ihl ihr =>
    intro v h
    simp only [eval] at h
    cases hl : eval lhs <;> cases hr : eval rhs <;> simp [hl, hr] at h
    subst h
    exact wrap64_in_range _
  | ND_SUB lhs rhs ihl ihr =>
    intro v h
    simp only [eval] at h
    cases hl : eval lhs <;> cases hr : eval rhs <;> simp [hl, hr] at h
    subst h
    exact wrap64_in_range _
  | ND_MUL lhs rhs ihl ihr =>
    intro v h
    simp only [eval] at h
    cases hl : eval lhs <;> cases hr : eval rhs <;> simp [hl, hr] at h
    subst h
    exact wrap64_in_range _
  | ND_DIV lhs rhs ihl ihr =>
    intro v h
    simp only [eval] at h
    cases hl : eval lhs <;> cases hr : eval rhs <;> simp [hl, hr] at h
    exact sdiv64_in_range (ihl _ hl) h

theorem exec_append (is1 is2 : List Instr) (m : Machine) :
    exec (is1 ++ is2) m = (exec is1 m).bind (exec is2) := by
  induction is1 generalizing m with
  | nil => rfl
  | cons i rest ih =>
    simp only [List.cons_append, exec]
    cases step i m with
    | none => rfl
    | some m1 => exact ih m1

/-- After `cqo` the 128-bit dividend `rdx:rax` is the signed value of `rax`. -/
theorem cqo_dividend {a : Int} (ha : in_range64 a) :
    (if a < 0 then (-1 : Int) else 0) * 2 ^ 64 + a % 2 ^ 64 = a := by
  unfold in_range64 at ha
  split <;> omega

/-- The five instructions that end the code of an `ND_DIV` node. -/
theorem exec_div_tail (m : Machine) (a b : Int) (s : List Int) (hs : m.stack = b :: a :: s)
    (ha : in_range64 a) (hb0 : b ≠ 0) (hq : in_range64 (a.tdiv b)) :
    exec [.pop .rdi, .pop .rax, .cqo, .idiv .rdi, .push .rax] m =
      some { rax := a.tdiv b, rdi := b, rdx := a.tmod b, stack := a.tdiv b :: s } := by
  simp only [exec, step, hs, Machine.set, Machine.get]
  rw [cqo_dividend ha]
  simp only [hb0, hq, if_true, if_false]

/-- The text of the instructions of `gen_instrs` is what `gen` prints. -/
theorem gen_instrs_line (node : Node) : (gen_instrs node).map Instr.line = gen node := by
  induction node with
  | ND_NUM val => rfl
  | ND_ADD lhs rhs ihl ihr =>
    simp only [gen_instrs, gen, List.map_append, ihl, ihr]
    rfl
  | ND_SUB lhs rhs ihl ihr =>
    simp only [gen_instrs, gen, List.map_append, ihl, ihr]
    rfl
  | ND_MUL lhs rhs ihl ihr =>
    simp only [gen_instrs, gen, List.map_append, ihl, ihr]
    rfl
  | ND_DIV lhs rhs ihl ihr =>
    simp only [gen_instrs, gen, List.map_append, ihl, ihr]
    rfl

/-- The code of a tree whose value is defined pushes that value and leaves
the stack below it as it was. -/
theorem exec_gen_instrs : ∀ (node : Node) (v : Int), eval node = some v →
    ∀ m : Machine, ∃ m1, exec (gen_instrs node) m = some m1 ∧ m1.stack = v :: m.stack := by
  intro node
  induction node with
  | ND_NUM val =>
    intro v h m
    simp only [eval, Option.some.injEq] at h
    subst h
    exact ⟨_, rfl, rfl⟩
  | ND_ADD lhs rhs ihl ihr =>
    intro v h m
    simp only [eval] at h
    cases hl : eval lhs <;> cases hr : eval rhs <;> simp [hl, hr] at h
    rename_i a b
    obtain ⟨m1, h1, s1⟩ := ihl a hl m
    obtain ⟨m2, h2, s2⟩ := ihr b hr m1
    subst h
    simp only [gen_instrs, List.append_assoc, exec_append, h1, h2, Option.bind]
    simp [exec, step, s2, s1, Machine.set, Machine.get]
  | ND_SUB lhs rhs ihl ihr =>
    intro v h m
    simp only [eval] at h
    cases hl : eval lhs <;> cases hr : eval rhs <;> simp [hl, hr] at h
    rename_i a b
    obtain ⟨m1, h1, s1⟩ := ihl a hl m
    obtain ⟨m2, h2, s2⟩ := ihr b hr m1
    subst h
    simp only [gen_instrs, List.append_assoc, exec_append, h1, h2, Option.bind]
    simp [exec, step, s2, s1, Machine.set, Machine.get]
  | ND_MUL lhs rhs ihl ihr =>
    intro v h m
    simp only [eval] at h
    cases hl : eval lhs <;> cases hr : eval rhs <;> simp [hl, hr] at h
    rename_i a b
    obtain ⟨m1, h1, s1⟩ := ihl a hl m
    obtain ⟨m2, h2, s2⟩ := ihr b hr m1
    subst h
    simp only [gen_instrs, List.append_assoc, exec_append, h1, h2, Option.bind]
    simp [exec, step, s2, s1, Machine.set, Machine.get]
  | ND_DIV lhs rhs ihl ihr =>
    intro v h m
    simp only [eval] at h
    cases hl : eval lhs <;> cases hr : eval rhs <;> simp [hl, hr] at h
    rename_i a b
    obtain ⟨m1, h1, s1⟩ := ihl a hl m
    obtain ⟨m2, h2, s2⟩ := ihr b hr m1
    have ha : in_range64 a := eval_in_range lhs a hl
    have hv : in_range64 v := sdiv64_in_range ha h
    unfold sdiv64 at h
    split at h
    · cases h
    · split at h
      · cases h
      · rename_i hb0 hov
        simp only [Option.some.injEq] at h
        subst h
        simp only [gen_instrs, List.append_assoc, exec_append, h1, h2, Option.bind,
          List.cons_append, List.nil_append]
        rw [exec_div_tail m2 a b m.stack (by rw [s2, s1]) ha hb0 hv]
        exact ⟨_, rfl, rfl⟩

/-- The value of a tree is defined when no divisor is zero and no quotient
overflows. -/
theorem eval_defined : ∀ node : Node, divisors_nonzero node → quotients_fit node →
    ∃ v, eval node = some v := by
  intro node
  induction node with
  | ND_NUM val => intro _ _; exact ⟨_, rfl⟩
  | ND_ADD lhs rhs ihl ihr =>
    intro h1 h2
    obtain ⟨a, ha⟩ := ihl h1.1 h2.1
    obtain ⟨b, hb⟩ := ihr h1.2 h2.2
    exact ⟨wrap64 (a + b), by simp only [eval, ha, hb]⟩
  | ND_SUB lhs rhs ihl ihr =>
    intro h1 h2
    obtain ⟨a, ha⟩ := ihl h1.1 h2.1
    obtain ⟨b, hb⟩ := ihr h1.2 h2.2
    exact ⟨wrap64 (a - b), by simp only [eval, ha, hb]⟩
  | ND_MUL lhs rhs ihl ihr =>
    intro h1 h2
    obtain ⟨a, ha⟩ := ihl h1.1 h2.1
    obtain ⟨b, hb⟩ := ihr h1.2 h2.2
    exact ⟨wrap64 (a * b), by simp only [eval, ha, hb]⟩
  | ND_DIV lhs rhs ihl ihr =>
    intro h1 h2
    obtain ⟨hl1, hr1, hz⟩ := h1
    obtain ⟨hl2, hr2, hov⟩ := h2
    obtain ⟨a, ha⟩ := ihl hl1 hl2
    obtain ⟨b, hb⟩ := ihr hr1 hr2
    have hb0 : b ≠ 0 := by
      rintro rfl
      exact hz hb
    have hab : ¬(a = -2 ^ 63 ∧ b = -1) := by
      rintro ⟨rfl, rfl⟩
      exact hov ⟨ha, hb⟩
    exact ⟨a.tdiv b, by simp only [eval, ha, hb, sdiv64, hb0, hab, if_false]⟩

/-- The five instructions that end the code of an `ND_DIV` node fault when
the value of the division is undefined. -/
theorem exec_div_tail_fault (m : Machine) (a b : Int) (s : List Int)
    (hs : m.stack = b :: a :: s) (ha : in_range64 a) (h : sdiv64 a b = none) :
    exec [.pop .rdi, .pop .rax, .cqo, .idiv .rdi, .push .rax] m = none := by
  simp only [exec, step, hs, Machine.set, Machine.get]
  rw [cqo_dividend ha]
  unfold sdiv64 at h
  split at h
  · rename_i hb0
    simp only [hb0, if_true]
  · rename_i hb0
    split at h
    · rename_i hov
      obtain ⟨rfl, rfl⟩ := hov
      have hq : ¬in_range64 ((-2 ^ 63 : Int).tdiv (-1)) := by decide
      simp only [hb0, hq, if_false]
    · cases h

/-- The stack after the code of a tree, for every tree: the value of the
tree on top of the initial stack when that value is defined, a fault when
it is not. -/
theorem exec_gen_instrs_stack : ∀ (node : Node) (m : Machine),
    (exec (gen_instrs node) m).map Machine.stack = (eval node).map (fun v => v :: m.stack) := by
  intro node
  induction node with
  | ND_NUM val => intro m; rfl
  | ND_ADD lhs rhs ihl ihr =>
    intro m
    have hl := ihl m
    cases h1 : exec (gen_instrs lhs) m with
    | none =>
      cases ha : eval lhs with
      | none => simp [gen_instrs, exec_append, h1, eval, ha]
      | some a => simp [h1, ha] at hl
    | some m1 =>
      cases ha : eval lhs with
      | none => simp [h1, ha] at hl
      | some a =>
        have s1 : m1.stack = a :: m.stack := by simpa [h1, ha] using hl
        have hr := ihr m1
        cases h2 : exec (gen_instrs rhs) m1 with
        | none =>
          cases hb : eval rhs with
          | none => simp [gen_instrs, exec_append, h1, h2, eval, ha, hb]
          | some b => simp [h2, hb] at hr
        | some m2 =>
          cases hb : eval rhs with
          | none => simp [h2, hb] at hr
          | some b =>
            have s2 : m2.stack = b :: m1.stack := by simpa [h2, hb] using hr
            simp [gen_instrs, exec_append, h1, h2, eval, ha, hb, exec, step, s2, s1,
              Machine.set, Machine.get]
  | ND_SUB lhs rhs ihl ihr =>
    intro m
    have hl := ihl m
    cases h1 : exec (gen_instrs lhs) m with
    | none =>
      cases ha : eval lhs with
      | none => simp [gen_instrs, exec_append, h1, eval, ha]
      | some a => simp [h1, ha] at hl
    | some m1 =>
      cases ha : eval lhs with
      | none => simp [h1, ha] at hl
      | some a =>
        have s1 : m1.stack = a :: m.stack := by simpa [h1, ha] using hl
        have hr := ihr m1
        cases h2 : exec (gen_instrs rhs) m1 with
        | none =>
          cases hb : eval rhs with
          | none => simp [gen_instrs, exec_append, h1, h2, eval, ha, hb]
          | some b => simp [h2, hb] at hr
        | some m2 =>
          cases hb : eval rhs with
          | none => simp [h2, hb] at hr
          | some b =>
            have s2 : m2.stack = b :: m1.stack := by simpa [h2, hb] using hr
            simp [gen_instrs, exec_append, h1, h2, eval, ha, hb, exec, step, s2, s1,
              Machine.set, Machine.get]
  | ND_MUL lhs rhs ihl ihr =>
    intro m
    have hl := ihl m
    cases h1 : exec (gen_instrs lhs) m with
    | none =>
      cases ha : eval lhs with
      | none => simp [gen_instrs, exec_append, h1, eval, ha]
      | some a => simp [h1, ha] at hl
    | some m1 =>
      cases ha : eval lhs with
      | none => simp [h1, ha] at hl
      | some a =>
        have s1 : m1.stack = a :: m.stack := by simpa [h1, ha] using hl
        have hr := ihr m1
        cases h2 : exec (gen_instrs rhs) m1 with
        | none =>
          cases hb : eval rhs with
          | none => simp [gen_instrs, exec_append, h1, h2, eval, ha, hb]
          | some b => simp [h2, hb] at hr
        | some m2 =>
          cases hb : eval rhs with
          | none => simp [h2, hb] at hr
          | some b =>
            have s2 : m2.stack = b :: m1.stack := by simpa [h2, hb] using hr
            simp [gen_instrs, exec_append, h1, h2, eval, ha, hb, exec, step, s2, s1,
              Machine.set, Machine.get]
  | ND_DIV lhs rhs ihl ihr =>
    intro m
    have hl := ihl m
    cases h1 : exec (gen_instrs lhs) m with
    | none =>
      cases ha : eval lhs with
      | none => simp [gen_instrs, exec_append, h1, eval, ha]
      | some a => simp [h1, ha] at hl
    | some m1 =>
      cases ha : eval lhs with
      | none => simp [h1, ha] at hl
      | some a =>
        have s1 : m1.stack = a :: m.stack := by simpa [h1, ha] using hl
        have hr := ihr m1
        cases h2 : exec (gen_instrs rhs) m1 with
        | none =>
          cases hb : eval rhs with
          | none => simp [gen_instrs, exec_append, h1, h2, eval, ha, hb]
          | some b => simp [h2, hb] at hr
        | some m2 =>
          cases hb : eval rhs with
          | none => simp [h2, hb] at hr
          | some b =>
            have s2 : m2.stack = b :: m1.stack := by simpa [h2, hb] using hr
            have hra : in_range64 a := eval_in_range lhs a ha
            simp only [gen_instrs, List.append_assoc, exec_append, h1, h2, Option.bind,
              List.cons_append, List.nil_append, eval, ha, hb]
            cases hq : sdiv64 a b with
            | none =>
              rw [exec_div_tail_fault m2 a b m.stack (by rw [s2, s1]) hra hq]
              rfl
            | some q =>
              have hqr : in_range64 q := sdiv64_in_range hra hq
              have hq2 := hq
              unfold sdiv64 at hq2
              split at hq2
              · cases hq2
              · split at hq2
                · cases hq2
                · rename_i hb0 hov
                  simp only [Option.some.injEq] at hq2
                  subst hq2
                  rw [exec_div_tail m2 a b m.stack (by rw [s2, s1]) hra hb0 hqr]
                  rfl

/-! ## Tokenizer facts -/

theorem isdigit_not_isspace {c : Char} (h : isdigit c = true) : isspace c = false := by
  cases hs : isspace c with
  | false => rfl
  | true =>
    exfalso
    simp only [isspace, Bool.or_eq_true, decide_eq_true_eq] at hs
    rcases hs with ((((rfl | rfl) | rfl) | rfl) | rfl) | rfl <;> revert h <;> decide

theorem isdigit_ne_plus {c : Char} (h : isdigit c = true) : c ≠ '+' := by
  rintro rfl
  revert h
  decide

theorem isdigit_ne_minus {c : Char} (h : isdigit c = true) : c ≠ '-' := by
  rintro rfl
  revert h
  decide

/-- The digit loop of `strtol` reads a run of digits to its end when the
text after the run is empty or starts with a character that is not a digit. -/
theorem strtol_digits_run (d tail : List Char) (hd : ∀ c ∈ d, isdigit c = true)
    (ht : ∀ c ∈ tail.head?, isdigit c = false) (acc : Nat) :
    strtol_digits acc (d ++ tail) =
      (d.foldl (fun a c => a * 10 + (c.toNat - '0'.toNat)) acc, tail) := by
  induction d generalizing acc with
  | nil =>
    cases tail with
    | nil => rfl
    | cons c rest =>
      have hc : isdigit c = false := ht c (by simp)
      simp [strtol_digits, hc]
  | cons c d ih =>
    have hc : isdigit c = true := hd c (by simp)
    simp only [List.cons_append, strtol_digits, hc, if_true, List.foldl_cons]
    exact ih (fun x hx => hd x (by simp [hx])) _

theorem strtol_literal (d tail : List Char) (hd : ∀ c ∈ d, isdigit c = true)
    (ht : ∀ c ∈ tail.head?, isdigit c = false) :
    strtol (d ++ tail) = (min (decimal_value d : Int) LONG_MAX, tail) := by
  simp only [strtol, strtol_digits_run d tail hd ht 0, decimal_value]

/-- One iteration of the loop of `tokenize` at a whitespace character. -/
theorem tokenize_loop_space (user_input : List Char) (c : Char) (rest : List Char)
    (hc : isspace c = true) (fuel : Nat) :
    tokenize_loop user_input (fuel + 1) (c :: rest) = tokenize_loop user_input fuel rest := by
  simp only [tokenize_loop, hc, if_true]

/-- One iteration of the loop of `tokenize` at a `+` or a `-`. -/
theorem tokenize_loop_sign (user_input : List Char) (c : Char) (rest : List Char)
    (hc : c = '+' ∨ c = '-') (fuel : Nat) :
    tokenize_loop user_input (fuel + 1) (c :: rest) =
      (tokenize_loop user_input fuel rest).map
        (fun ts => ⟨.TK_RESERVED, 0, c :: rest⟩ :: ts) := by
  have hsp : isspace c = false := by
    rcases hc with h | h <;> subst h <;> decide
  have hpm : (decide (c = '+') || decide (c = '-')) = true := by
    rcases hc with h | h <;> subst h <;> decide
  simp only [tokenize_loop, hsp, hpm, if_true]
  simp

/-- One iteration of the loop of `tokenize` at any other character. -/
theorem tokenize_loop_other (user_input : List Char) (c : Char) (rest : List Char)
    (hs : isspace c = false) (hp : c ≠ '+') (hm : c ≠ '-') (hd : isdigit c = false)
    (fuel : Nat) :
    tokenize_loop user_input (fuel + 1) (c :: rest) =
      .error (.error_at (user_input.length - (c :: rest).length) "expected a number") := by
  simp [tokenize_loop, hs, hp, hm, hd, error_at]

/-- One iteration of the loop of `tokenize` at a digit. -/
theorem tokenize_loop_digit (user_input : List Char) (c : Char) (rest : List Char)
    (hc : isdigit c = true) (fuel : Nat) :
    tokenize_loop user_input (fuel + 1) (c :: rest) =
      (tokenize_loop user_input fuel (strtol (c :: rest)).2).map
        (fun ts => ⟨.TK_NUM, to_int (strtol (c :: rest)).1, c :: rest⟩ :: ts) := by
  simp only [tokenize_loop, isdigit_not_isspace hc, isdigit_ne_plus hc, isdigit_ne_minus hc, hc]
  simp

/-- One iteration of the loop of `tokenize` at a literal. -/
theorem tokenize_loop_literal (user_input d tail : List Char) (hd : is_literal d)
    (ht : ∀ c ∈ tail.head?, isdigit c = false) (fuel : Nat) :
    tokenize_loop user_input (fuel + 1) (d ++ tail) =
      (tokenize_loop user_input fuel tail).map
        (fun ts => ⟨.TK_NUM, int_of_literal d, d ++ tail⟩ :: ts) := by
  obtain ⟨hne, hdig⟩ := hd
  cases d with
  | nil => exact absurd rfl hne
  | cons c d =>
    have hc : isdigit c = true := hdig c (by simp)
    have hsl := strtol_literal (c :: d) tail hdig ht
    simp only [List.cons_append] at hsl
    rw [List.cons_append, tokenize_loop_digit user_input c (d ++ tail) hc fuel, hsl]
    rfl

/-- The rest left by the digit loop of `strtol` is not longer than its input. -/
theorem strtol_digits_length (p : List Char) :
    ∀ acc, (strtol_digits acc p).2.length ≤ p.length := by
  induction p with
  | nil => intro acc; simp [strtol_digits]
  | cons c rest ih =>
    intro acc
    simp only [strtol_digits]
    split
    · exact Nat.le_succ_of_le (ih _)
    · exact Nat.le_refl _

theorem strtol_length (c : Char) (rest : List Char) (hc : isdigit c = true) :
    (strtol (c :: rest)).2.length ≤ rest.length := by
  simp only [strtol, strtol_digits, hc, if_true]
  exact strtol_digits_length rest _

/-- The loop of `tokenize` ends within as many iterations as characters
are left, plus the one that finds the end of the string. -/
theorem tokenize_loop_fuel (user_input : List Char) :
    ∀ (fuel : Nat) (p : List Char), p.length < fuel →
      tokenize_loop user_input fuel p ≠ .error .out_of_fuel := by
  intro fuel
  induction fuel with
  | zero => intro p hp; omega
  | succ fuel ih =>
    intro p hp
    cases p with
    | nil => simp [tokenize_loop]
    | cons c rest =>
      simp only [List.length_cons] at hp
      simp only [tokenize_loop]
      split
      · exact ih rest (by omega)
      · split
        · have h := ih rest (by omega)
          cases hr : tokenize_loop user_input fuel rest with
          | error e =>
            rw [hr] at h
            intro heq
            apply h
            simpa [Except.map] using heq
          | ok ts => simp [Except.map]
        · split
          · rename_i hc
            have hlen := strtol_length c rest hc
            have h := ih (strtol (c :: rest)).2 (by omega)
            cases hr : tokenize_loop user_input fuel (strtol (c :: rest)).2 with
            | error e =>
              rw [hr] at h
              intro heq
              apply h
              simpa [Except.map] using heq
            | ok ts => simp [Except.map]
          · simp [error_at]

/-- The function `tokenize` always ends: with tokens or with a diagnostic. -/
theorem tokenize_terminates (user_input : List Char) :
    tokenize user_input ≠ .error .out_of_fuel :=
  tokenize_loop_fuel user_input _ user_input (Nat.lt_succ_self _)

/-- The digit loop of `strtol` stops at the first character that is not a digit. -/
theorem strtol_digits_stop (l : List Char) (c : Char) (post : List Char)
    (hc : isdigit c = false) :
    ∀ acc, (strtol_digits acc (l ++ c :: post)).2 = l.dropWhile isdigit ++ c :: post := by
  induction l with
  | nil => intro acc; simp [strtol_digits, hc]
  | cons x l ih =>
    intro acc
    by_cases hx : isdigit x = true
    · simp only [List.cons_append, strtol_digits, hx, if_true, List.dropWhile_cons]
      exact ih _
    · simp [strtol_digits, hx, List.dropWhile_cons]

/-- What the loop of `tokenize` does at the first character that is not
whitespace, `+`, `-` or a digit: it reports `expected a number` there. -/
theorem tokenize_loop_unrecognised (user_input : List Char) (c : Char) (post : List Char)
    (hs : isspace c = false) (hp : c ≠ '+') (hm : c ≠ '-') (hd : isdigit c = false) :
    ∀ (fuel : Nat) (pre : List Char), pre.length < fuel →
      (∀ x ∈ pre, isspace x = true ∨ x = '+' ∨ x = '-' ∨ isdigit x = true) →
      tokenize_loop user_input fuel (pre ++ c :: post) =
        .error (.error_at (user_input.length - (c :: post).length) "expected a number") := by
  intro fuel
  induction fuel with
  | zero => intro pre h; omega
  | succ fuel ih =>
    intro pre hlen hpre
    cases pre with
    | nil => exact tokenize_loop_other user_input c post hs hp hm hd fuel
    | cons x pre =>
      simp only [List.length_cons] at hlen
      have hrest : ∀ y ∈ pre, isspace y = true ∨ y = '+' ∨ y = '-' ∨ isdigit y = true :=
        fun y hy => hpre y (by simp [hy])
      have ih1 := ih pre (by omega) hrest
      by_cases hxs : isspace x = true
      · rw [List.cons_append, tokenize_loop_space user_input x _ hxs fuel]
        exact ih1
      · by_cases hxo : x = '+' ∨ x = '-'
        · rw [List.cons_append, tokenize_loop_sign user_input x _ hxo fuel, ih1]
          rfl
        · have hxd : isdigit x = true := by
            rcases hpre x (by simp) with h | h | h | h
            · exact absurd h hxs
            · exact absurd (Or.inl h) hxo
            · exact absurd (Or.inr h) hxo
            · exact h
          have hstop : (strtol (x :: (pre ++ c :: post))).2 =
              pre.dropWhile isdigit ++ c :: post := by
            simp only [strtol, strtol_digits, hxd, if_true]
            exact strtol_digits_stop pre c post hd _
          have hdl : (pre.dropWhile isdigit).length ≤ pre.length :=
            (List.dropWhile_sublist _).length_le
          have ih2 := ih (pre.dropWhile isdigit) (by omega)
            (fun y hy => hrest y ((List.dropWhile_sublist _).subset hy))
          rw [List.cons_append, tokenize_loop_digit user_input x _ hxd fuel, hstop, ih2]
          rfl

/-- The function `tokenize` stops with `expected a number` under the first
character that is not whitespace, `+`, `-` or a digit. -/
theorem tokenize_unrecognised (pre : List Char) (c : Char) (post : List Char)
    (hpre : ∀ x ∈ pre, isspace x = true ∨ x = '+' ∨ x = '-' ∨ isdigit x = true)
    (hs : isspace c = false) (hp : c ≠ '+') (hm : c ≠ '-') (hd : isdigit c = false) :
    tokenize (pre ++ c :: post) = .error (.error_at pre.length "expected a number") := by
  unfold tokenize
  rw [tokenize_loop_unrecognised _ c post hs hp hm hd _ pre
    (by simp only [List.length_append, List.length_cons]; omega) hpre]
  simp only [List.length_append, List.length_cons]
  congr 2
  omega

theorem recognised_false {c : Char} (h : recognised c = false) :
    isspace c = false ∧ c ≠ '+' ∧ c ≠ '-' ∧ isdigit c = false := by
  simpa [recognised, and_assoc] using h

theorem recognised_true {c : Char} (h : recognised c = true) :
    isspace c = true ∨ c = '+' ∨ c = '-' ∨ isdigit c = true := by
  simpa [recognised, or_assoc] using h

/-- A list with an element that fails `p` splits at the first such element. -/
theorem split_at_first {p : Char → Bool} :
    ∀ l : List Char, (∃ c ∈ l, p c = false) →
      ∃ pre c post, l = pre ++ c :: post ∧ (∀ x ∈ pre, p x = true) ∧ p c = false := by
  intro l
  induction l with
  | nil => rintro ⟨c, hc, _⟩; simp at hc
  | cons x l ih =>
    intro h
    by_cases hx : p x = true
    · have h2 : ∃ c ∈ l, p c = false := by
        obtain ⟨c, hc, hpc⟩ := h
        rcases List.mem_cons.mp hc with rfl | hc
        · rw [hx] at hpc
          cases hpc
        · exact ⟨c, hc, hpc⟩
      obtain ⟨pre, c, post, hl, hpre, hc⟩ := ih h2
      refine ⟨x :: pre, c, post, by rw [hl]; rfl, ?_, hc⟩
      intro y hy
      rcases List.mem_cons.mp hy with rfl | hy
      · exact hx
      · exact hpre y hy
    · exact ⟨[], x, l, rfl, by simp, by simpa using hx⟩

/-- The function `tokenize` fails on every input with a character it has no
case for, under the first such character. -/
theorem tokenize_fails (user_input : List Char)
    (h : ∃ c ∈ user_input, recognised c = false) :
    ∃ pre c post, user_input = pre ++ c :: post ∧ (∀ x ∈ pre, recognised x = true) ∧
      recognised c = false ∧
      tokenize user_input = .error (.error_at pre.length "expected a number") := by
  obtain ⟨pre, c, post, hl, hpre, hc⟩ := split_at_first user_input h
  obtain ⟨hs, hp, hm, hd⟩ := recognised_false hc
  refine ⟨pre, c, post, hl, hpre, hc, ?_⟩
  rw [hl]
  exact tokenize_unrecognised pre c post (fun x hx => recognised_true (hpre x hx)) hs hp hm hd

/-- The loop of `tokenize` returns tokens when it has a case for every
character. -/
theorem tokenize_loop_succeeds (user_input : List Char) :
    ∀ (fuel : Nat) (p : List Char), p.length < fuel → (∀ c ∈ p, recognised c = true) →
      ∃ ts, tokenize_loop user_input fuel p = .ok ts := by
  intro fuel
  induction fuel with
  | zero => intro p hp; omega
  | succ fuel ih =>
    intro p hp hrec
    cases p with
    | nil => exact ⟨_, rfl⟩
    | cons c rest =>
      simp only [List.length_cons] at hp
      have hrest : ∀ x ∈ rest, recognised x = true := fun x hx => hrec x (by simp [hx])
      by_cases hcs : isspace c = true
      · rw [tokenize_loop_space user_input c rest hcs fuel]
        exact ih rest (by omega) hrest
      · by_cases hco : c = '+' ∨ c = '-'
        · obtain ⟨ts, hts⟩ := ih rest (by omega) hrest
          rw [tokenize_loop_sign user_input c rest hco fuel, hts]
          exact ⟨_, rfl⟩
        · have hcd : isdigit c = true := by
            rcases recognised_true (hrec c (by simp)) with h | h | h | h
            · exact absurd h hcs
            · exact absurd (Or.inl h) hco
            · exact absurd (Or.inr h) hco
            · exact h
          have hlen := strtol_length c rest hcd
          have hsub : ∀ x ∈ (strtol (c :: rest)).2, recognised x = true := by
            intro x hx
            apply hrest
            simp only [strtol, strtol_digits, hcd, if_true] at hx
            have hsuf : ∀ (l : List Char) (acc : Nat), ∀ y ∈ (strtol_digits acc l).2, y ∈ l := by
              intro l
              induction l with
              | nil => intro acc y hy; simp [strtol_digits] at hy
              | cons z l ihl =>
                intro acc y hy
                simp only [strtol_digits] at hy
                split at hy
                · exact List.mem_cons_of_mem _ (ihl _ y hy)
                · exact hy
            exact hsuf rest _ x hx
          obtain ⟨ts, hts⟩ := ih (strtol (c :: rest)).2 (by omega) hsub
          rw [tokenize_loop_digit user_input c rest hcd fuel, hts]
          exact ⟨_, rfl⟩

/-- The function `tokenize` returns tokens exactly on the inputs made of
whitespace, digits, `+` and `-`. -/
theorem tokenize_succeeds_iff (user_input : List Char) :
    (∃ ts, tokenize user_input = .ok ts) ↔ ∀ c ∈ user_input, recognised c = true := by
  constructor
  · rintro ⟨ts, hts⟩ c hc
    by_contra hrec
    obtain ⟨pre, c2, post, _, _, _, herr⟩ :=
      tokenize_fails user_input ⟨c, hc, by simpa using hrec⟩
    rw [herr] at hts
    cases hts
  · intro h
    exact tokenize_loop_succeeds user_input _ user_input (Nat.lt_succ_self _) h

/-- The text after a literal of an additive input does not start with a digit. -/
theorem additive_text_head (rest : List (Char × List Char))
    (hrest : ∀ p ∈ rest, (p.1 = '+' ∨ p.1 = '-') ∧ is_literal p.2) :
    ∀ c ∈ (additive_text rest).head?, isdigit c = false := by
  cases rest with
  | nil => intro c hc; simp [additive_text] at hc
  | cons p rest =>
    obtain ⟨op, d⟩ := p
    intro c hc
    simp only [additive_text, List.head?_cons, Option.mem_def, Option.some.injEq] at hc
    subst hc
    rcases (hrest (op, d) (by simp)).1 with h | h <;> simp only at h <;> subst h <;> decide

theorem additive_text_length (rest : List (Char × List Char))
    (hrest : ∀ p ∈ rest, (p.1 = '+' ∨ p.1 = '-') ∧ is_literal p.2) :
    2 * rest.length ≤ (additive_text rest).length := by
  induction rest with
  | nil => simp
  | cons p rest ih =>
    obtain ⟨op, d⟩ := p
    have hd : is_literal d := (hrest (op, d) (by simp)).2
    have hpos : 0 < d.length := List.length_pos.mpr hd.1
    have := ih (fun q hq => hrest q (by simp [hq]))
    simp only [additive_text, List.length_cons, List.length_append]
    omega

theorem additive_tokens_length (rest : List (Char × List Char)) :
    (additive_tokens rest).length = 2 * rest.length + 1 := by
  induction rest with
  | nil => rfl
  | cons p rest ih =>
    obtain ⟨op, d⟩ := p
    simp only [additive_tokens, List.length_cons, ih]
    omega

/-- The loop of `tokenize` on the text of operator and literal pairs. -/
theorem tokenize_loop_additive (user_input : List Char) (rest : List (Char × List Char))
    (hrest : ∀ p ∈ rest, (p.1 = '+' ∨ p.1 = '-') ∧ is_literal p.2) :
    ∀ fuel, (additive_text rest).length < fuel →
      tokenize_loop user_input fuel (additive_text rest) = .ok (additive_tokens rest) := by
  induction rest with
  | nil =>
    intro fuel hf
    cases fuel with
    | zero => omega
    | succ fuel => rfl
  | cons p rest ih =>
    obtain ⟨op, d⟩ := p
    have hrest1 : ∀ q ∈ rest, (q.1 = '+' ∨ q.1 = '-') ∧ is_literal q.2 :=
      fun q hq => hrest q (by simp [hq])
    have hd : is_literal d := (hrest (op, d) (by simp)).2
    have hpos : 0 < d.length := List.length_pos.mpr hd.1
    have hop : op = '+' ∨ op = '-' := (hrest (op, d) (by simp)).1
    intro fuel hf
    simp only [additive_text, List.length_cons, List.length_append] at hf
    obtain ⟨f2, rfl⟩ : ∃ f2, fuel = f2 + 2 := ⟨fuel - 2, by omega⟩
    have hstep := tokenize_loop_sign user_input op (d ++ additive_text rest) hop (f2 + 1)
    show tokenize_loop user_input (f2 + 1 + 1) (op :: (d ++ additive_text rest)) = _
    rw [hstep, tokenize_loop_literal user_input d _ hd (additive_text_head rest hrest1) f2,
      ih hrest1 f2 (by omega)]
    rfl

/-- The whole of `tokenize` on a literal followed by operator and literal pairs. -/
theorem tokenize_additive (d0 : List Char) (rest : List (Char × List Char))
    (h0 : is_literal d0) (hrest : ∀ p ∈ rest, (p.1 = '+' ∨ p.1 = '-') ∧ is_literal p.2) :
    tokenize (d0 ++ additive_text rest) =
      .ok (⟨.TK_NUM, int_of_literal d0, d0 ++ additive_text rest⟩ :: additive_tokens rest) := by
  have hpos : 0 < d0.length := List.length_pos.mpr h0.1
  unfold tokenize
  rw [tokenize_loop_literal _ d0 _ h0 (additive_text_head rest hrest) _,
    tokenize_loop_additive _ rest hrest _ (by simp only [List.length_append]; omega)]
  rfl

/-! ## Parser facts -/

theorem consume_num (op : Char) (t : Token) (next : List Token) (h : t.kind = .TK_NUM) :
    consume op (t :: next) = .ok (false, t :: next) := by
  simp [consume, h]

theorem consume_eof (op : Char) (t : Token) (next : List Token) (h : t.kind = .TK_EOF) :
    consume op (t :: next) = .ok (false, t :: next) := by
  simp [consume, h]

theorem consume_reserved (op : Char) (t : Token) (next : List Token)
    (h : t.kind = .TK_RESERVED) :
    consume op (t :: next) = .ok (decide (deref t.str = op), if deref t.str = op then next else t :: next) := by
  by_cases hc : deref t.str = op <;> simp [consume, h, hc]

theorem expr_loop_plus (user_input : List Char) (fuel : Nat) (node rhs : Node)
    (token t1 t2 : List Token) (h1 : consume '+' token = .ok (true, t1))
    (h2 : mul_fuel user_input fuel t1 = .ok (rhs, t2)) :
    expr_loop user_input (fuel + 1) node token =
      expr_loop user_input fuel (.ND_ADD node rhs) t2 := by
  simp only [expr_loop, h1, h2]

theorem expr_loop_minus (user_input : List Char) (fuel : Nat) (node rhs : Node)
    (token t0 t1 t2 : List Token) (h0 : consume '+' token = .ok (false, t0))
    (h1 : consume '-' t0 = .ok (true, t1))
    (h2 : mul_fuel user_input fuel t1 = .ok (rhs, t2)) :
    expr_loop user_input (fuel + 1) node token =
      expr_loop user_input fuel (.ND_SUB node rhs) t2 := by
  simp only [expr_loop, h0, h1, h2]

theorem expr_loop_stop (user_input : List Char) (fuel : Nat) (node : Node)
    (token t0 t1 : List Token) (h0 : consume '+' token = .ok (false, t0))
    (h1 : consume '-' t0 = .ok (false, t1)) :
    expr_loop user_input (fuel + 1) node token = .ok (node, t1) := by
  simp only [expr_loop, h0, h1]

theorem mul_loop_star (user_input : List Char) (fuel : Nat) (node rhs : Node)
    (token t1 t2 : List Token) (h1 : consume '*' token = .ok (true, t1))
    (h2 : primary_fuel user_input fuel t1 = .ok (rhs, t2)) :
    mul_loop user_input (fuel + 1) node token =
      mul_loop user_input fuel (.ND_MUL node rhs) t2 := by
  simp only [mul_loop, h1, h2]

theorem mul_loop_slash (user_input : List Char) (fuel : Nat) (node rhs : Node)
    (token t0 t1 t2 : List Token) (h0 : consume '*' token = .ok (false, t0))
    (h1 : consume '/' t0 = .ok (true, t1))
    (h2 : primary_fuel user_input fuel t1 = .ok (rhs, t2)) :
    mul_loop user_input (fuel + 1) node token =
      mul_loop user_input fuel (.ND_DIV node rhs) t2 := by
  simp only [mul_loop, h0, h1, h2]

theorem mul_loop_stop (user_input : List Char) (fuel : Nat) (node : Node)
    (token t0 t1 : List Token) (h0 : consume '*' token = .ok (false, t0))
    (h1 : consume '/' t0 = .ok (false, t1)) :
    mul_loop user_input (fuel + 1) node token = .ok (node, t1) := by
  simp only [mul_loop, h0, h1]

/-- What a call of `consume` that returns can have done. -/
theorem consume_ok {op : Char} {token t1 : List Token} {b : Bool}
    (h : consume op token = .ok (b, t1)) :
    (b = false ∧ t1 = token) ∨
      (b = true ∧ ∃ t, token = t :: t1 ∧ t.kind = .TK_RESERVED ∧ deref t.str = op) := by
  cases token with
  | nil => simp [consume] at h
  | cons t next =>
    simp only [consume] at h
    split at h
    · simp only [Except.ok.injEq, Prod.mk.injEq] at h
      exact Or.inl ⟨h.1.symm, h.2.symm⟩
    · rename_i hc
      simp only [Except.ok.injEq, Prod.mk.injEq] at h
      simp only [ne_eq, Bool.or_eq_true, decide_eq_true_eq, not_or, not_not] at hc
      exact Or.inr ⟨h.1.symm, t, by rw [h.2], hc.1, hc.2⟩

/-- The function `consume` never writes a diagnostic. -/
theorem consume_error {op : Char} {token : List Token} {e : Abort}
    (h : consume op token = .error e) : token = [] ∧ e = .null_deref := by
  cases token with
  | nil =>
    simp only [consume, Except.error.injEq] at h
    exact ⟨rfl, h.symm⟩
  | cons t next =>
    simp only [consume] at h
    split at h <;> cases h

/-- What a call of `expect` that returns has done. -/
theorem expect_ok {user_input : List Char} {op : Char} {token t1 : List Token}
    (h : expect user_input op token = .ok t1) :
    ∃ t, token = t :: t1 ∧ t.kind = .TK_RESERVED ∧ deref t.str = op := by
  cases token with
  | nil => simp [expect] at h
  | cons t next =>
    simp only [expect] at h
    split at h
    · simp [error_at] at h
    · rename_i hc
      simp only [Except.ok.injEq] at h
      simp only [ne_eq, Bool.or_eq_true, decide_eq_true_eq, not_or, not_not] at hc
      exact ⟨t, by rw [h], hc.1, hc.2⟩

/-- What a call of `expect_number` that returns has done. -/
theorem expect_number_ok {user_input : List Char} {token t1 : List Token} {val : Int}
    (h : expect_number user_input token = .ok (val, t1)) :
    ∃ t, token = t :: t1 ∧ t.kind = .TK_NUM ∧ val = t.val := by
  cases token with
  | nil => simp [expect_number] at h
  | cons t next =>
    simp only [expect_number] at h
    split at h
    · simp [error_at] at h
    · rename_i hc
      simp only [Except.ok.injEq, Prod.mk.injEq] at h
      simp only [ne_eq, not_not] at hc
      exact ⟨t, by rw [h.2], hc, h.1.symm⟩

theorem expect_ne_fuel (user_input : List Char) (op : Char) (token : List Token) :
    expect user_input op token ≠ .error .out_of_fuel := by
  cases token with
  | nil => simp [expect]
  | cons t next =>
    simp only [expect]
    split <;> simp [error_at]

theorem expect_number_ne_fuel (user_input : List Char) (token : List Token) :
    expect_number user_input token ≠ .error .out_of_fuel := by
  cases token with
  | nil => simp [expect_number]
  | cons t next =>
    simp only [expect_number]
    split <;> simp [error_at]

theorem consume_ne_fuel (op : Char) (token : List Token) :
    consume op token ≠ .error .out_of_fuel := by
  intro h
  have := (consume_error h).2
  cases this

/-- The token pointer only moves forward: what a parsing function leaves
is a suffix of what it was given, a proper one for `primary`, `mul` and
`expr`. -/
theorem parser_progress (user_input : List Char) : ∀ fuel : Nat,
    (∀ token node t1, primary_fuel user_input fuel token = .ok (node, t1) →
      ∃ pre, pre ≠ [] ∧ token = pre ++ t1) ∧
    (∀ token node t1, mul_fuel user_input fuel token = .ok (node, t1) →
      ∃ pre, pre ≠ [] ∧ token = pre ++ t1) ∧
    (∀ node0 token node t1, mul_loop user_input fuel node0 token = .ok (node, t1) →
      ∃ pre, token = pre ++ t1) ∧
    (∀ token node t1, expr_fuel user_input fuel token = .ok (node, t1) →
      ∃ pre, pre ≠ [] ∧ token = pre ++ t1) ∧
    (∀ node0 token node t1, expr_loop user_input fuel node0 token = .ok (node, t1) →
      ∃ pre, token = pre ++ t1) := by
  intro fuel
  induction fuel with
  | zero =>
    refine ⟨?_, ?_, ?_, ?_, ?_⟩
    · intro token node t1 h
      simp [primary_fuel] at h
    · intro token node t1 h
      simp [mul_fuel] at h
    · intro node0 token node t1 h
      simp [mul_loop] at h
    · intro token node t1 h
      simp [expr_fuel] at h
    · intro node0 token node t1 h
      simp [expr_loop] at h
  | succ fuel ih =>
    obtain ⟨ihp, ihm, ihml, ihe, ihel⟩ := ih
    refine ⟨?_, ?_, ?_, ?_, ?_⟩
    · intro token node t1 h
      rw [primary_fuel] at h
      cases hc : consume '(' token with
      | error e => simp [hc] at h
      | ok bt =>
        obtain ⟨b, t2⟩ := bt
        cases b with
        | true =>
          simp only [hc] at h
          rcases consume_ok hc with ⟨hb, _⟩ | ⟨_, t, ht, _⟩
          · cases hb
          · cases he : expr_fuel user_input fuel t2 with
            | error e => simp [he] at h
            | ok nt =>
              obtain ⟨n, t3⟩ := nt
              simp only [he] at h
              obtain ⟨pre, _, hpre⟩ := ihe t2 n t3 he
              cases hx : expect user_input ')' t3 with
              | error e => simp [hx] at h
              | ok t4 =>
                simp only [hx, Except.ok.injEq, Prod.mk.injEq] at h
                obtain ⟨tc, htc, _⟩ := expect_ok hx
                refine ⟨t :: (pre ++ [tc]), by simp, ?_⟩
                rw [ht, hpre, htc, ← h.2]
                simp
        | false =>
          simp only [hc] at h
          rcases consume_ok hc with ⟨_, ht2⟩ | ⟨hb, _⟩
          · subst ht2
            cases hn : expect_number user_input t2 with
            | error e => simp [hn] at h
            | ok vt =>
              obtain ⟨v, t3⟩ := vt
              simp only [hn, Except.ok.injEq, Prod.mk.injEq] at h
              obtain ⟨t, ht, _⟩ := expect_number_ok hn
              refine ⟨[t], by simp, ?_⟩
              rw [ht, ← h.2]
              rfl
          · cases hb
    · intro token node t1 h
      rw [mul_fuel] at h
      cases hp : primary_fuel user_input fuel token with
      | error e => simp [hp] at h
      | ok nt =>
        obtain ⟨n, t2⟩ := nt
        simp only [hp] at h
        obtain ⟨pre, hne, hpre⟩ := ihp token n t2 hp
        obtain ⟨pre2, hpre2⟩ := ihml n t2 node t1 h
        refine ⟨pre ++ pre2, by simp [hne], ?_⟩
        rw [hpre, hpre2]
        simp
    · intro node0 token node t1 h
      rw [mul_loop] at h
      cases hc : consume '*' token with
      | error e => simp [hc] at h
      | ok bt =>
        obtain ⟨b, t2⟩ := bt
        cases b with
        | true =>
          simp only [hc] at h
          rcases consume_ok hc with ⟨hb, _⟩ | ⟨_, t, ht, _⟩
          · cases hb
          · cases hp : primary_fuel user_input fuel t2 with
            | error e => simp [hp] at h
            | ok nt =>
              obtain ⟨n, t3⟩ := nt
              simp only [hp] at h
              obtain ⟨pre, _, hpre⟩ := ihp t2 n t3 hp
              obtain ⟨pre2, hpre2⟩ := ihml _ t3 node t1 h
              refine ⟨t :: (pre ++ pre2), ?_⟩
              rw [ht, hpre, hpre2]
              simp
        | false =>
          simp only [hc] at h
          rcases consume_ok hc with ⟨_, ht2⟩ | ⟨hb, _⟩
          · subst ht2
            cases hc2 : consume '/' t2 with
            | error e => simp [hc2] at h
            | ok bt2 =>
              obtain ⟨b2, t3⟩ := bt2
              cases b2 with
              | true =>
                simp only [hc2] at h
                rcases consume_ok hc2 with ⟨hb, _⟩ | ⟨_, t, ht, _⟩
                · cases hb
                · cases hp : primary_fuel user_input fuel t3 with
                  | error e => simp [hp] at h
                  | ok nt =>
                    obtain ⟨n, t4⟩ := nt
                    simp only [hp] at h
                    obtain ⟨pre, _, hpre⟩ := ihp t3 n t4 hp
                    obtain ⟨pre2, hpre2⟩ := ihml _ t4 node t1 h
                    refine ⟨t :: (pre ++ pre2), ?_⟩
                    rw [ht, hpre, hpre2]
                    simp
              | false =>
                simp only [hc2, Except.ok.injEq, Prod.mk.injEq] at h
                rcases consume_ok hc2 with ⟨_, ht3⟩ | ⟨hb, _⟩
                · refine ⟨[], ?_⟩
                  rw [← h.2, ht3]
                  rfl
                · cases hb
          · cases hb
    · intro token node t1 h
      rw [expr_fuel] at h
      cases hp : mul_fuel user_input fuel token with
      | error e => simp [hp] at h
      | ok nt =>
        obtain ⟨n, t2⟩ := nt
        simp only [hp] at h
        obtain ⟨pre, hne, hpre⟩ := ihm token n t2 hp
        obtain ⟨pre2, hpre2⟩ := ihel n t2 node t1 h
        refine ⟨pre ++ pre2, by simp [hne], ?_⟩
        rw [hpre, hpre2]
        simp
    · intro node0 token node t1 h
      rw [expr_loop] at h
      cases hc : consume '+' token with
      | error e => simp [hc] at h
      | ok bt =>
        obtain ⟨b, t2⟩ := bt
        cases b with
        | true =>
          simp only [hc] at h
          rcases consume_ok hc with ⟨hb, _⟩ | ⟨_, t, ht, _⟩
          · cases hb
          · cases hp : mul_fuel user_input fuel t2 with
            | error e => simp [hp] at h
            | ok nt =>
              obtain ⟨n, t3⟩ := nt
              simp only [hp] at h
              obtain ⟨pre, _, hpre⟩ := ihm t2 n t3 hp
              obtain ⟨pre2, hpre2⟩ := ihel _ t3 node t1 h
              refine ⟨t :: (pre ++ pre2), ?_⟩
              rw [ht, hpre, hpre2]
              simp
        | false =>
          simp only [hc] at h
          rcases consume_ok hc with ⟨_, ht2⟩ | ⟨hb, _⟩
          · subst ht2
            cases hc2 : consume '-' t2 with
            | error e => simp [hc2] at h
            | ok bt2 =>
              obtain ⟨b2, t3⟩ := bt2
              cases b2 with
              | true =>
                simp only [hc2] at h
                rcases consume_ok hc2 with ⟨hb, _⟩ | ⟨_, t, ht, _⟩
                · cases hb
                · cases hp : mul_fuel user_input fuel t3 with
                  | error e => simp [hp] at h
                  | ok nt =>
                    obtain ⟨n, t4⟩ := nt
                    simp only [hp] at h
                    obtain ⟨pre, _, hpre⟩ := ihm t3 n t4 hp
                    obtain ⟨pre2, hpre2⟩ := ihel _ t4 node t1 h
                    refine ⟨t :: (pre ++ pre2), ?_⟩
                    rw [ht, hpre, hpre2]
                    simp
              | false =>
                simp only [hc2, Except.ok.injEq, Prod.mk.injEq] at h
                rcases consume_ok hc2 with ⟨_, ht3⟩ | ⟨hb, _⟩
                · refine ⟨[], ?_⟩
                  rw [← h.2, ht3]
                  rfl
                · cases hb
          · cases hb

theorem suffix_length_lt {pre token t1 : List Token} (hne : pre ≠ [])
    (h : token = pre ++ t1) : t1.length < token.length := by
  have := List.length_pos.mpr hne
  rw [h, List.length_append]
  omega

theorem suffix_length_le {pre token t1 : List Token} (h : token = pre ++ t1) :
    t1.length ≤ token.length := by
  rw [h, List.length_append]
  omega

/-- More fuel does not change a result that did not run out of fuel. -/
theorem parser_fuel_mono (user_input : List Char) : ∀ fuel : Nat,
    (∀ token, primary_fuel user_input fuel token ≠ .error .out_of_fuel →
      primary_fuel user_input (fuel + 1) token = primary_fuel user_input fuel token) ∧
    (∀ token, mul_fuel user_input fuel token ≠ .error .out_of_fuel →
      mul_fuel user_input (fuel + 1) token = mul_fuel user_input fuel token) ∧
    (∀ node0 token, mul_loop user_input fuel node0 token ≠ .error .out_of_fuel →
      mul_loop user_input (fuel + 1) node0 token = mul_loop user_input fuel node0 token) ∧
    (∀ token, expr_fuel user_input fuel token ≠ .error .out_of_fuel →
      expr_fuel user_input (fuel + 1) token = expr_fuel user_input fuel token) ∧
    (∀ node0 token, expr_loop user_input fuel node0 token ≠ .error .out_of_fuel →
      expr_loop user_input (fuel + 1) node0 token = expr_loop user_input fuel node0 token) := by
  intro fuel
  induction fuel with
  | zero =>
    refine ⟨?_, ?_, ?_, ?_, ?_⟩
    · intro token h
      exact absurd rfl h
    · intro token h
      exact absurd rfl h
    · intro node0 token h
      exact absurd rfl h
    · intro token h
      exact absurd rfl h
    · intro node0 token h
      exact absurd rfl h
  | succ fuel ih =>
    obtain ⟨ihp, ihm, ihml, ihe, ihel⟩ := ih
    refine ⟨?_, ?_, ?_, ?_, ?_⟩
    · intro token h
      simp only [primary_fuel] at h ⊢
      cases hc : consume '(' token with
      | error e => rfl
      | ok bt =>
        obtain ⟨b, t2⟩ := bt
        cases b with
        | true =>
          simp only [hc] at h ⊢
          cases he : expr_fuel user_input fuel t2 with
          | error e =>
            rw [he] at h
            rw [ihe t2 (by rw [he]; exact h), he]
          | ok nt => rw [ihe t2 (by rw [he]; simp), he]
        | false => rfl
    · intro token h
      simp only [mul_fuel] at h ⊢
      cases hp : primary_fuel user_input fuel token with
      | error e =>
        rw [hp] at h
        rw [ihp token (by rw [hp]; exact h), hp]
      | ok nt =>
        obtain ⟨n, t2⟩ := nt
        rw [hp] at h
        rw [ihp token (by rw [hp]; simp), hp]
        exact ihml n t2 h
    · intro node0 token h
      simp only [mul_loop] at h ⊢
      cases hc : consume '*' token with
      | error e => rfl
      | ok bt =>
        obtain ⟨b, t2⟩ := bt
        cases b with
        | true =>
          simp only [hc] at h ⊢
          cases hp : primary_fuel user_input fuel t2 with
          | error e =>
            rw [hp] at h
            rw [ihp t2 (by rw [hp]; exact h), hp]
          | ok nt =>
            obtain ⟨n, t3⟩ := nt
            rw [hp] at h
            rw [ihp t2 (by rw [hp]; simp), hp]
            exact ihml _ t3 h
        | false =>
          simp only [hc] at h ⊢
          cases hc2 : consume '/' t2 with
          | error e => rfl
          | ok bt2 =>
            obtain ⟨b2, t3⟩ := bt2
            cases b2 with
            | true =>
              simp only [hc2] at h ⊢
              cases hp : primary_fuel user_input fuel t3 with
              | error e =>
                rw [hp] at h
                rw [ihp t3 (by rw [hp]; exact h), hp]
              | ok nt =>
                obtain ⟨n, t4⟩ := nt
                rw [hp] at h
                rw [ihp t3 (by rw [hp]; simp), hp]
                exact ihml _ t4 h
            | false => rfl
    · intro token h
      simp only [expr_fuel] at h ⊢
      cases hp : mul_fuel user_input fuel token with
      | error e =>
        rw [hp] at h
        rw [ihm token (by rw [hp]; exact h), hp]
      | ok nt =>
        obtain ⟨n, t2⟩ := nt
        rw [hp] at h
        rw [ihm token (by rw [hp]; simp), hp]
        exact ihel n t2 h
    · intro node0 token h
      simp only [expr_loop] at h ⊢
      cases hc : consume '+' token with
      | error e => rfl
      | ok bt =>
        obtain ⟨b, t2⟩ := bt
        cases b with
        | true =>
          simp only [hc] at h ⊢
          cases hp : mul_fuel user_input fuel t2 with
          | error e =>
            rw [hp] at h
            rw [ihm t2 (by rw [hp]; exact h), hp]
          | ok nt =>
            obtain ⟨n, t3⟩ := nt
            rw [hp] at h
            rw [ihm t2 (by rw [hp]; simp), hp]
            exact ihel _ t3 h
        | false =>
          simp only [hc] at h ⊢
          cases hc2 : consume '-' t2 with
          | error e => rfl
          | ok bt2 =>
            obtain ⟨b2, t3⟩ := bt2
            cases b2 with
            | true =>
              simp only [hc2] at h ⊢
              cases hp : mul_fuel user_input fuel t3 with
              | error e =>
                rw [hp] at h
                rw [ihm t3 (by rw [hp]; exact h), hp]
              | ok nt =>
                obtain ⟨n, t4⟩ := nt
                rw [hp] at h
                rw [ihm t3 (by rw [hp]; simp), hp]
                exact ihel _ t4 h
            | false => rfl

theorem consume_true_length {op : Char} {token t1 : List Token}
    (h : consume op token = .ok (true, t1)) : t1.length + 1 = token.length := by
  rcases consume_ok h with ⟨hb, _⟩ | ⟨_, t, ht, _⟩
  · cases hb
  · rw [ht, List.length_cons]

theorem consume_false_eq {op : Char} {token t1 : List Token}
    (h : consume op token = .ok (false, t1)) : t1 = token := by
  rcases consume_ok h with ⟨_, ht⟩ | ⟨hb, _⟩
  · exact ht
  · cases hb

/-- Three units of fuel per token, and three more, take every parsing
function to its end. -/
theorem parser_fuel_enough (user_input : List Char) : ∀ fuel : Nat,
    (∀ token, 3 * token.length + 1 ≤ fuel →
      primary_fuel user_input fuel token ≠ .error .out_of_fuel) ∧
    (∀ token, 3 * token.length + 2 ≤ fuel →
      mul_fuel user_input fuel token ≠ .error .out_of_fuel) ∧
    (∀ node0 token, 3 * token.length + 1 ≤ fuel →
      mul_loop user_input fuel node0 token ≠ .error .out_of_fuel) ∧
    (∀ token, 3 * token.length + 3 ≤ fuel →
      expr_fuel user_input fuel token ≠ .error .out_of_fuel) ∧
    (∀ node0 token, 3 * token.length + 2 ≤ fuel →
      expr_loop user_input fuel node0 token ≠ .error .out_of_fuel) := by
  intro fuel
  induction fuel with
  | zero =>
    refine ⟨?_, ?_, ?_, ?_, ?_⟩ <;> intros <;> omega
  | succ fuel ih =>
    obtain ⟨ihp, ihm, ihml, ihe, ihel⟩ := ih
    have prog := parser_progress user_input fuel
    obtain ⟨pp, pm, pml, pe, pel⟩ := prog
    refine ⟨?_, ?_, ?_, ?_, ?_⟩
    · intro token hf
      simp only [primary_fuel]
      cases hc : consume '(' token with
      | error e =>
        have := (consume_error hc).2
        subst this
        simp
      | ok bt =>
        obtain ⟨b, t2⟩ := bt
        cases b with
        | true =>
          have hl := consume_true_length hc
          have h1 := ihe t2 (by omega)
          simp only
          cases he : expr_fuel user_input fuel t2 with
          | error e =>
            rw [he] at h1
            simpa using h1
          | ok nt =>
            obtain ⟨n, t3⟩ := nt
            have h2 := expect_ne_fuel user_input ')' t3
            simp only
            cases hx : expect user_input ')' t3 with
            | error e =>
              rw [hx] at h2
              simpa using h2
            | ok t4 => simp
        | false =>
          have h2 := expect_number_ne_fuel user_input t2
          simp only
          cases hn : expect_number user_input t2 with
          | error e =>
            rw [hn] at h2
            simpa using h2
          | ok vt => simp
    · intro token hf
      simp only [mul_fuel]
      have h1 := ihp token (by omega)
      cases hp : primary_fuel user_input fuel token with
      | error e =>
        rw [hp] at h1
        simpa using h1
      | ok nt =>
        obtain ⟨n, t2⟩ := nt
        obtain ⟨pre, hne, hpre⟩ := pp token n t2 hp
        have hl := suffix_length_lt hne hpre
        exact ihml n t2 (by omega)
    · intro node0 token hf
      simp only [mul_loop]
      cases hc : consume '*' token with
      | error e =>
        have := (consume_error hc).2
        subst this
        simp
      | ok bt =>
        obtain ⟨b, t2⟩ := bt
        cases b with
        | true =>
          have hl := consume_true_length hc
          have h1 := ihp t2 (by omega)
          simp only
          cases hp : primary_fuel user_input fuel t2 with
          | error e =>
            rw [hp] at h1
            simpa using h1
          | ok nt =>
            obtain ⟨n, t3⟩ := nt
            obtain ⟨pre, hne, hpre⟩ := pp t2 n t3 hp
            have hl2 := suffix_length_lt hne hpre
            exact ihml _ t3 (by omega)
        | false =>
          have ht2 := consume_false_eq hc
          subst ht2
          simp only
          cases hc2 : consume '/' t2 with
          | error e =>
            have := (consume_error hc2).2
            subst this
            simp
          | ok bt2 =>
            obtain ⟨b2, t3⟩ := bt2
            cases b2 with
            | true =>
              have hl := consume_true_length hc2
              have h1 := ihp t3 (by omega)
              simp only
              cases hp : primary_fuel user_input fuel t3 with
              | error e =>
                rw [hp] at h1
                simpa using h1
              | ok nt =>
                obtain ⟨n, t4⟩ := nt
                obtain ⟨pre, hne, hpre⟩ := pp t3 n t4 hp
                have hl2 := suffix_length_lt hne hpre
                exact ihml _ t4 (by omega)
            | false => simp
    · intro token hf
      simp only [expr_fuel]
      have h1 := ihm token (by omega)
      cases hp : mul_fuel user_input fuel token with
      | error e =>
        rw [hp] at h1
        simpa using h1
      | ok nt =>
        obtain ⟨n, t2⟩ := nt
        obtain ⟨pre, hne, hpre⟩ := pm token n t2 hp
        have hl := suffix_length_lt hne hpre
        exact ihel n t2 (by omega)
    · intro node0 token hf
      simp only [expr_loop]
      cases hc : consume '+' token with
      | error e =>
        have := (consume_error hc).2
        subst this
        simp
      | ok bt =>
        obtain ⟨b, t2⟩ := bt
        cases b with
        | true =>
          have hl := consume_true_length hc
          have h1 := ihm t2 (by omega)
          simp only
          cases hp : mul_fuel user_input fuel t2 with
          | error e =>
            rw [hp] at h1
            simpa using h1
          | ok nt =>
            obtain ⟨n, t3⟩ := nt
            obtain ⟨pre, hne, hpre⟩ := pm t2 n t3 hp
            have hl2 := suffix_length_lt hne hpre
            exact ihel _ t3 (by omega)
        | false =>
          have ht2 := consume_false_eq hc
          subst ht2
          simp only
          cases hc2 : consume '-' t2 with
          | error e =>
            have := (consume_error hc2).2
            subst this
            simp
          | ok bt2 =>
            obtain ⟨b2, t3⟩ := bt2
            cases b2 with
            | true =>
              have hl := consume_true_length hc2
              have h1 := ihm t3 (by omega)
              simp only
              cases hp : mul_fuel user_input fuel t3 with
              | error e =>
                rw [hp] at h1
                simpa using h1
              | ok nt =>
                obtain ⟨n, t4⟩ := nt
                obtain ⟨pre, hne, hpre⟩ := pm t3 n t4 hp
                have hl2 := suffix_length_lt hne hpre
                exact ihel _ t4 (by omega)
            | false => simp

/-- The function `expr` always ends: with a node, with a diagnostic, or at
a read through the `NULL` token pointer. -/
theorem expr_terminates (user_input : List Char) (token : List Token) :
    expr user_input token ≠ .error .out_of_fuel :=
  (parser_fuel_enough user_input _).2.2.2.1 token (Nat.le_refl _)

/-- Any fuel above `parse_fuel` gives the result of `expr`. -/
theorem expr_fuel_eq (user_input : List Char) (token : List Token) :
    ∀ k, expr_fuel user_input (parse_fuel token + k) token = expr user_input token := by
  intro k
  induction k with
  | zero => rfl
  | succ k ih =>
    rw [← Nat.add_assoc, (parser_fuel_mono user_input _).2.2.2.1 token
      (by rw [ih]; exact expr_terminates user_input token), ih]

/-- The function `mul` at a number that no `*` or `/` follows. -/
theorem mul_fuel_number (user_input : List Char) (fuel : Nat) (t : Token) (next : List Token)
    (ht : t.kind = .TK_NUM) (h1 : consume '*' next = .ok (false, next))
    (h2 : consume '/' next = .ok (false, next)) :
    mul_fuel user_input (fuel + 2) (t :: next) = .ok (.ND_NUM t.val, next) := by
  simp [mul_fuel, primary_fuel, mul_loop, consume_num _ t next ht, expect_number, ht, h1, h2]

theorem consume_additive_tokens (op : Char) (hop : op ≠ '+' ∧ op ≠ '-')
    (rest : List (Char × List Char))
    (hrest : ∀ p ∈ rest, (p.1 = '+' ∨ p.1 = '-') ∧ is_literal p.2) :
    consume op (additive_tokens rest) = .ok (false, additive_tokens rest) := by
  cases rest with
  | nil => rfl
  | cons p rest =>
    obtain ⟨o, d⟩ := p
    have ho : o = '+' ∨ o = '-' := (hrest (o, d) (by simp)).1
    have hne : o ≠ op := by
      rcases ho with h | h <;> subst h
      · exact fun h => hop.1 h.symm
      · exact fun h => hop.2 h.symm
    simp [additive_tokens, consume, deref, hne]

/-- The loop of `expr` on the tokens of operator and literal pairs folds
them to the left. -/
theorem expr_loop_additive (user_input : List Char) (rest : List (Char × List Char))
    (hrest : ∀ p ∈ rest, (p.1 = '+' ∨ p.1 = '-') ∧ is_literal p.2) :
    ∀ (fuel : Nat) (node : Node), rest.length + 2 ≤ fuel →
      expr_loop user_input fuel node (additive_tokens rest) =
        .ok (left_nest node rest, [⟨.TK_EOF, 0, []⟩]) := by
  induction rest with
  | nil =>
    intro fuel node hf
    obtain ⟨f, rfl⟩ : ∃ f, fuel = f + 1 := ⟨fuel - 1, by omega⟩
    rfl
  | cons p rest ih =>
    obtain ⟨op, d⟩ := p
    have hrest1 : ∀ q ∈ rest, (q.1 = '+' ∨ q.1 = '-') ∧ is_literal q.2 :=
      fun q hq => hrest q (by simp [hq])
    have hop : op = '+' ∨ op = '-' := (hrest (op, d) (by simp)).1
    intro fuel node hf
    simp only [List.length_cons] at hf
    obtain ⟨f, rfl⟩ : ∃ f, fuel = f + 3 := ⟨fuel - 3, by omega⟩
    have hmul : mul_fuel user_input (f + 2)
        (⟨.TK_NUM, int_of_literal d, d ++ additive_text rest⟩ :: additive_tokens rest) =
        .ok (.ND_NUM (int_of_literal d), additive_tokens rest) :=
      mul_fuel_number user_input f _ _ rfl
        (consume_additive_tokens '*' (by decide) rest hrest1)
        (consume_additive_tokens '/' (by decide) rest hrest1)
    rcases hop with h | h <;> subst h
    · rw [show f + 3 = (f + 2) + 1 from rfl,
        expr_loop_plus user_input (f + 2) node _ _ _ _ (by simp [additive_tokens, consume, deref])
          hmul,
        ih hrest1 (f + 2) _ (by omega)]
      simp [left_nest]
    · rw [show f + 3 = (f + 2) + 1 from rfl,
        expr_loop_minus user_input (f + 2) node _ _ _ _ _
          (by simp [additive_tokens, consume, deref]; rfl)
          (by simp [additive_tokens, consume, deref]) hmul,
        ih hrest1 (f + 2) _ (by omega)]
      simp [left_nest]

/-- A literal whose value fits in an `int` is stored with its base-10 value. -/
theorem int_of_literal_eq (d : List Char) (h : decimal_value d < 2 ^ 31) :
    int_of_literal d = decimal_value d := by
  unfold int_of_literal to_int LONG_MAX
  have h1 : ((decimal_value d : Nat) : Int) < 2 ^ 31 := by exact_mod_cast h
  have h0 : (0 : Int) ≤ (decimal_value d : Nat) := Int.ofNat_nonneg _
  rw [min_eq_left (by omega)]
  omega

/-- Tokenizing and parsing a literal followed by operator and literal pairs. -/
theorem parse_additive (d0 : List Char) (rest : List (Char × List Char))
    (h0 : is_literal d0) (hrest : ∀ p ∈ rest, (p.1 = '+' ∨ p.1 = '-') ∧ is_literal p.2) :
    parse (d0 ++ additive_text rest) =
      .ok (left_nest (.ND_NUM (int_of_literal d0)) rest, [⟨.TK_EOF, 0, []⟩]) := by
  unfold parse
  rw [tokenize_additive d0 rest h0 hrest]
  simp only [expr, parse_fuel, List.length_cons, additive_tokens_length]
  rw [show 3 * (2 * rest.length + 1 + 1) + 3 = (6 * rest.length + 6 + 2) + 1 by omega, expr_fuel,
    mul_fuel_number _ _ _ _ rfl (consume_additive_tokens '*' (by decide) rest hrest)
      (consume_additive_tokens '/' (by decide) rest hrest)]
  exact expr_loop_additive _ rest hrest _ _ (by omega)

/-- When every literal has a value below `2^31` the leaves of the parsed
tree hold the base-10 values. -/
theorem left_nest_eq_values (rest : List (Char × List Char))
    (hv : ∀ p ∈ rest, decimal_value p.2 < 2 ^ 31) :
    ∀ node, left_nest node rest = left_nest_values node rest := by
  induction rest with
  | nil => intro node; rfl
  | cons p rest ih =>
    obtain ⟨op, d⟩ := p
    intro node
    have hd : int_of_literal d = decimal_value d := int_of_literal_eq d (hv (op, d) (by simp))
    simp only [left_nest, left_nest_values, hd]
    exact ih (fun q hq => hv q (by simp [hq])) _

/-! ## The claims -/

/-- C1: the claim is that every valid expression compiles and its code leaves
the expression's value on the stack. On the valid expression `2*3` the
program stops in `tokenize` with `expected a number` under offset 1 and
prints no assembly, although `expr` on the three tokens of `2*3` returns
the product node and the code of that node leaves 6 on the stack. -/
theorem main_rejects_valid_product :
    main ["9cc".toList, "2*3".toList] = .exit 1 [] ["2*3", " ^ expected a number"] ∧
    expr "2*3".toList
        [⟨.TK_NUM, 2, "2*3".toList⟩, ⟨.TK_RESERVED, 0, "*3".toList⟩, ⟨.TK_NUM, 3, "3".toList⟩,
          ⟨.TK_EOF, 0, []⟩] =
      .ok (.ND_MUL (.ND_NUM 2) (.ND_NUM 3), [⟨.TK_EOF, 0, []⟩]) ∧
    (exec (gen_instrs (.ND_MUL (.ND_NUM 2) (.ND_NUM 3))) ⟨0, 0, 0, []⟩).map Machine.stack =
      some [6] := by
  refine ⟨by decide, rfl, by decide⟩

/-- C2 as stated fails: in the tree of `(0-1073741824*1073741824*8)/(0-1)` no
divisor is zero, the dividend is `-2^63` and the divisor `-1`, and the
code of the tree ends in the divide error of `idiv` instead of a stack. -/
theorem gen_idiv_overflow_faults :
    divisors_nonzero
      (.ND_DIV
        (.ND_SUB (.ND_NUM 0)
          (.ND_MUL (.ND_MUL (.ND_NUM 1073741824) (.ND_NUM 1073741824)) (.ND_NUM 8)))
        (.ND_SUB (.ND_NUM 0) (.ND_NUM 1))) ∧
    eval (.ND_SUB (.ND_NUM 0)
        (.ND_MUL (.ND_MUL (.ND_NUM 1073741824) (.ND_NUM 1073741824)) (.ND_NUM 8))) =
      some (-2 ^ 63) ∧
    eval (.ND_SUB (.ND_NUM 0) (.ND_NUM 1)) = some (-1) ∧
    exec
      (gen_instrs
        (.ND_DIV
          (.ND_SUB (.ND_NUM 0)
            (.ND_MUL (.ND_MUL (.ND_NUM 1073741824) (.ND_NUM 1073741824)) (.ND_NUM 8)))
          (.ND_SUB (.ND_NUM 0) (.ND_NUM 1))))
      ⟨0, 0, 0, []⟩ = none := by
  refine ⟨?_, by decide, by decide, by decide⟩
  simp only [divisors_nonzero, true_and, and_true]
  decide

/-- C2, amended: for every tree in which no divisor evaluates to zero and no
division is `-2^63 / -1`, and for every machine state, the tree has a
value and the instructions whose text `gen` prints run to the end and
leave the stack equal to that value pushed on top of the initial stack. -/
theorem gen_pushes_eval (node : Node) (h1 : divisors_nonzero node) (h2 : quotients_fit node)
    (m : Machine) :
    (gen_instrs node).map Instr.line = gen node ∧
    ∃ v, eval node = some v ∧
      ∃ m1, exec (gen_instrs node) m = some m1 ∧ m1.stack = v :: m.stack := by
  obtain ⟨v, hv⟩ := eval_defined node h1 h2
  exact ⟨gen_instrs_line node, v, hv, exec_gen_instrs node v hv m⟩

theorem gen_pushes_eval_witness :
    (divisors_nonzero (.ND_DIV (.ND_SUB (.ND_NUM 3) (.ND_NUM 10)) (.ND_NUM 2)) ∧
      quotients_fit (.ND_DIV (.ND_SUB (.ND_NUM 3) (.ND_NUM 10)) (.ND_NUM 2))) ∧
    eval (.ND_DIV (.ND_SUB (.ND_NUM 3) (.ND_NUM 10)) (.ND_NUM 2)) = some (-3) ∧
    ((gen_instrs (.ND_DIV (.ND_SUB (.ND_NUM 3) (.ND_NUM 10)) (.ND_NUM 2))).map Instr.line =
        gen (.ND_DIV (.ND_SUB (.ND_NUM 3) (.ND_NUM 10)) (.ND_NUM 2)) ∧
      ∃ v, eval (.ND_DIV (.ND_SUB (.ND_NUM 3) (.ND_NUM 10)) (.ND_NUM 2)) = some v ∧
        ∃ m1, exec (gen_instrs (.ND_DIV (.ND_SUB (.ND_NUM 3) (.ND_NUM 10)) (.ND_NUM 2)))
          ⟨0, 0, 0, [5]⟩ = some m1 ∧ m1.stack = [v, 5]) :=
  ⟨⟨by simp only [divisors_nonzero, true_and, and_true]; decide,
      by simp only [quotients_fit, true_and, and_true]; decide⟩,
    by decide,
    gen_pushes_eval _ (by simp only [divisors_nonzero, true_and, and_true]; decide)
      (by simp only [quotients_fit, true_and, and_true]; decide) ⟨0, 0, 0, [5]⟩⟩

/-- C3: the claim is that `tokenize` makes one operator token for each of the
six characters `+ - * / ( )`. On `2*3` it stops with `expected a number`
under offset 1, at the `*`; it does the same at offset 0 for an input
that starts with `*`, `/`, `(` or `)`. -/
theorem tokenize_rejects_star :
    tokenize "2*3".toList = .error (.error_at 1 "expected a number") ∧
    tokenize "*".toList = .error (.error_at 0 "expected a number") ∧
    tokenize "/".toList = .error (.error_at 0 "expected a number") ∧
    tokenize "(".toList = .error (.error_at 0 "expected a number") ∧
    tokenize ")".toList = .error (.error_at 0 "expected a number") :=
  ⟨rfl, rfl, rfl, rfl, rfl⟩

/-- C4: the claim is that `a+b*c` parses to `Add(a, Mul(b, c))` and `1+2*3`
compiles to code for 7. On `1+2*3` tokenizing stops with `expected a
number` under offset 3, at the `*`, and `main` prints no assembly; `expr`
on the five tokens of `1+2*3` does return `Add(1, Mul(2, 3))`. -/
theorem parse_rejects_sum_of_product :
    parse "1+2*3".toList = .error (.error_at 3 "expected a number") ∧
    main ["9cc".toList, "1+2*3".toList] = .exit 1 [] ["1+2*3", "   ^ expected a number"] ∧
    expr "1+2*3".toList
        [⟨.TK_NUM, 1, "1+2*3".toList⟩, ⟨.TK_RESERVED, 0, "+2*3".toList⟩,
          ⟨.TK_NUM, 2, "2*3".toList⟩, ⟨.TK_RESERVED, 0, "*3".toList⟩, ⟨.TK_NUM, 3, "3".toList⟩,
          ⟨.TK_EOF, 0, []⟩] =
      .ok (.ND_ADD (.ND_NUM 1) (.ND_MUL (.ND_NUM 2) (.ND_NUM 3)), [⟨.TK_EOF, 0, []⟩]) :=
  ⟨rfl, by decide, rfl⟩

/-- C5: the claim is that `(a+b)*c` parses to `Mul(Add(a, b), c)` and
`(1+2)*3` compiles to code for 9. On `(1+2)*3` tokenizing stops with
`expected a number` under offset 0, at the `(`, and `main` prints no
assembly; `expr` on the seven tokens of `(1+2)*3` does return
`Mul(Add(1, 2), 3)`. -/
theorem parse_rejects_parenthesis :
    parse "(1+2)*3".toList = .error (.error_at 0 "expected a number") ∧
    main ["9cc".toList, "(1+2)*3".toList] = .exit 1 [] ["(1+2)*3", "^ expected a number"] ∧
    expr "(1+2)*3".toList
        [⟨.TK_RESERVED, 0, "(1+2)*3".toList⟩, ⟨.TK_NUM, 1, "1+2)*3".toList⟩,
          ⟨.TK_RESERVED, 0, "+2)*3".toList⟩, ⟨.TK_NUM, 2, "2)*3".toList⟩,
          ⟨.TK_RESERVED, 0, ")*3".toList⟩, ⟨.TK_RESERVED, 0, "*3".toList⟩,
          ⟨.TK_NUM, 3, "3".toList⟩, ⟨.TK_EOF, 0, []⟩] =
      .ok (.ND_MUL (.ND_ADD (.ND_NUM 1) (.ND_NUM 2)) (.ND_NUM 3), [⟨.TK_EOF, 0, []⟩]) :=
  ⟨rfl, by decide, rfl⟩

/-- C6 as stated fails: the input `2147483648-1` is two literals separated by
a `-`, and the tree `expr` returns has the leaf -2147483648 where the
literal `2147483648` stands, so it is not the tree over the literals. -/
theorem additive_leaf_wraps :
    (is_literal "2147483648".toList ∧
      ∀ p ∈ [('-', "1".toList)], (p.1 = '+' ∨ p.1 = '-') ∧ is_literal p.2) ∧
    "2147483648".toList ++ additive_text [('-', "1".toList)] = "2147483648-1".toList ∧
    decimal_value "2147483648".toList = 2147483648 ∧
    parse "2147483648-1".toList =
      .ok (.ND_SUB (.ND_NUM (-2147483648)) (.ND_NUM 1), [⟨.TK_EOF, 0, []⟩]) ∧
    parse "2147483648-1".toList ≠
      .ok (left_nest_values (.ND_NUM (decimal_value "2147483648".toList)) [('-', "1".toList)],
        [⟨.TK_EOF, 0, []⟩]) := by
  refine ⟨⟨by decide, by decide⟩, by decide, by decide, rfl, ?_⟩
  intro h
  have h2 : parse "2147483648-1".toList =
      .ok (.ND_SUB (.ND_NUM (-2147483648)) (.ND_NUM 1), [⟨.TK_EOF, 0, []⟩]) := rfl
  rw [h2] at h
  simp only [Except.ok.injEq, Prod.mk.injEq] at h
  exact absurd h.1 (by decide)

/-- C6, amended: for every input made of a literal followed by any number of
pairs of a `+` or `-` and a literal, all literals with a value below
`2^31`, `tokenize` followed by `expr` returns the left-nested tree whose
leaves hold the values of the literals, and stops on the `TK_EOF` token. -/
theorem additive_left_assoc (d0 : List Char) (rest : List (Char × List Char))
    (h0 : is_literal d0) (hrest : ∀ p ∈ rest, (p.1 = '+' ∨ p.1 = '-') ∧ is_literal p.2)
    (hv0 : decimal_value d0 < 2 ^ 31) (hv : ∀ p ∈ rest, decimal_value p.2 < 2 ^ 31) :
    parse (d0 ++ additive_text rest) =
      .ok (left_nest_values (.ND_NUM (decimal_value d0)) rest, [⟨.TK_EOF, 0, []⟩]) := by
  rw [parse_additive d0 rest h0 hrest, int_of_literal_eq d0 hv0, left_nest_eq_values rest hv]

theorem additive_left_assoc_witness :
    (is_literal "10".toList ∧
      (∀ p ∈ [('-', "2".toList), ('-', "3".toList)],
        (p.1 = '+' ∨ p.1 = '-') ∧ is_literal p.2) ∧
      decimal_value "10".toList < 2 ^ 31 ∧
      ∀ p ∈ [('-', "2".toList), ('-', "3".toList)], decimal_value p.2 < 2 ^ 31) ∧
    parse "10-2-3".toList =
      .ok (.ND_SUB (.ND_SUB (.ND_NUM 10) (.ND_NUM 2)) (.ND_NUM 3), [⟨.TK_EOF, 0, []⟩]) ∧
    eval (.ND_SUB (.ND_SUB (.ND_NUM 10) (.ND_NUM 2)) (.ND_NUM 3)) = some 5 ∧
    (exec (gen_instrs (.ND_SUB (.ND_SUB (.ND_NUM 10) (.ND_NUM 2)) (.ND_NUM 3)))
      ⟨0, 0, 0, []⟩).map Machine.stack = some [5] :=
  ⟨⟨by decide, by decide, by decide, by decide⟩,
    additive_left_assoc "10".toList [('-', "2".toList), ('-', "3".toList)]
      (by decide) (by decide) (by decide) (by decide),
    by decide, by decide⟩

/-- C7: `gen` prints one `push` line for a number and, for a binary node,
the lines of the left operand, the lines of the right operand, `pop rdi`,
`pop rax`, the line or lines of the operator and `push rax`, nothing else. -/
theorem gen_post_order :
    (∀ val : Int, gen (.ND_NUM val) = ["  push " ++ toString val]) ∧
    (∀ lhs rhs : Node, gen (.ND_ADD lhs rhs) =
      gen lhs ++ gen rhs ++ ["  pop rdi", "  pop rax", "  add rax, rdi", "  push rax"]) ∧
    (∀ lhs rhs : Node, gen (.ND_SUB lhs rhs) =
      gen lhs ++ gen rhs ++ ["  pop rdi", "  pop rax", "  sub rax, rdi", "  push rax"]) ∧
    (∀ lhs rhs : Node, gen (.ND_MUL lhs rhs) =
      gen lhs ++ gen rhs ++ ["  pop rdi", "  pop rax", "  imul rax, rdi", "  push rax"]) ∧
    (∀ lhs rhs : Node, gen (.ND_DIV lhs rhs) =
      gen lhs ++ gen rhs ++ ["  pop rdi", "  pop rax", "  cqo", "  idiv rdi", "  push rax"]) := by
  refine ⟨fun _ => rfl, ?_, ?_, ?_, ?_⟩ <;> intro lhs rhs <;> simp [gen]

/-- C8: the claim is that `tokenize` fails under the first character that is
not whitespace, a digit or one of `+ - * / ( )`. On `2*a` the first such
character is the `a` at offset 2, and `tokenize` stops with `expected a
number` under offset 1, at the `*`. On `abc` it stops under offset 0. -/
theorem tokenize_stops_before_bad_char :
    tokenize "2*a".toList = .error (.error_at 1 "expected a number") ∧
    tokenize "abc".toList = .error (.error_at 0 "expected a number") :=
  ⟨rfl, rfl⟩

/-- C9: the claim is that a valid expression followed by a final `+` or `-`
fails in `expect_number` under the offset after that operator. On `2*3+`
that offset is 4 and the program stops in `tokenize` under offset 1, at
the `*`. On `1+` it stops in `expect_number` under offset 2, with status
1 and no assembly. -/
theorem main_missing_operand_after_product :
    main ["9cc".toList, "2*3+".toList] = .exit 1 [] ["2*3+", " ^ expected a number"] ∧
    tokenize "2*3+".toList = .error (.error_at 1 "expected a number") ∧
    main ["9cc".toList, "1+".toList] = .exit 1 [] ["1+", "  ^ expected a number"] :=
  ⟨by decide, rfl, by decide⟩

/-- C10: the claim is that `(` followed by a valid expression and a token
other than `)` fails with `expected ')'` under that token. On `(1+2` the
program stops in `tokenize` with `expected a number` under offset 0, at
the `(`; `expr` on the five tokens of `(1+2` does stop with `expected
')'` under offset 4, and `expect` at a `)` token moves to the next token. -/
theorem main_unmatched_parenthesis :
    main ["9cc".toList, "(1+2".toList] = .exit 1 [] ["(1+2", "^ expected a number"] ∧
    expr "(1+2".toList
        [⟨.TK_RESERVED, 0, "(1+2".toList⟩, ⟨.TK_NUM, 1, "1+2".toList⟩,
          ⟨.TK_RESERVED, 0, "+2".toList⟩, ⟨.TK_NUM, 2, "2".toList⟩, ⟨.TK_EOF, 0, []⟩] =
      .error (.error_at 4 "expected ')'") ∧
    (∀ (user_input rest : List Char) (val : Int) (next : List Token),
      expect user_input ')' (⟨.TK_RESERVED, val, ')' :: rest⟩ :: next) = .ok next) :=
  ⟨by decide, rfl, fun _ _ _ _ => rfl⟩

/-! ## The token pointer never leaves the token list -/

/-- What `consume` does on a list that ends with a `TK_EOF` token. -/
theorem consume_safe (eof : Token) (heof : eof.kind = .TK_EOF) (op : Char) (A : List Token) :
    consume op (A ++ [eof]) = .ok (false, A ++ [eof]) ∨
      ∃ a A1, A = a :: A1 ∧ consume op (A ++ [eof]) = .ok (true, A1 ++ [eof]) := by
  cases A with
  | nil =>
    left
    simp [consume, heof]
  | cons a A1 =>
    by_cases hc : a.kind = .TK_RESERVED ∧ deref a.str = op
    · right
      exact ⟨a, A1, rfl, by simp [consume, hc.1, hc.2]⟩
    · left
      simp only [not_and] at hc
      by_cases hk : a.kind = .TK_RESERVED
      · simp [consume, hk, hc hk]
      · simp [consume, hk]

/-- What `expect` does on a list that ends with a `TK_EOF` token. -/
theorem expect_safe (user_input : List Char) (eof : Token) (heof : eof.kind = .TK_EOF)
    (op : Char) (A : List Token) :
    (∃ pos, expect user_input op (A ++ [eof]) =
        .error (.error_at pos ("expected '" ++ String.singleton op ++ "'"))) ∨
      ∃ a A1, A = a :: A1 ∧ expect user_input op (A ++ [eof]) = .ok (A1 ++ [eof]) := by
  cases A with
  | nil =>
    left
    exact ⟨user_input.length - eof.str.length, by simp [expect, heof, error_at]⟩
  | cons a A1 =>
    by_cases hc : a.kind = .TK_RESERVED ∧ deref a.str = op
    · right
      exact ⟨a, A1, rfl, by simp [expect, hc.1, hc.2]⟩
    · left
      simp only [not_and] at hc
      by_cases hk : a.kind = .TK_RESERVED
      · exact ⟨user_input.length - a.str.length, by simp [expect, hk, hc hk, error_at]⟩
      · exact ⟨user_input.length - a.str.length, by simp [expect, hk, error_at]⟩

/-- What `expect_number` does on a list that ends with a `TK_EOF` token. -/
theorem expect_number_safe (user_input : List Char) (eof : Token) (heof : eof.kind = .TK_EOF)
    (A : List Token) :
    (∃ pos, expect_number user_input (A ++ [eof]) =
        .error (.error_at pos "expected a number")) ∨
      ∃ a A1, A = a :: A1 ∧ expect_number user_input (A ++ [eof]) = .ok (a.val, A1 ++ [eof]) := by
  cases A with
  | nil =>
    left
    exact ⟨user_input.length - eof.str.length, by simp [expect_number, heof, error_at]⟩
  | cons a A1 =>
    by_cases hk : a.kind = .TK_NUM
    · right
      exact ⟨a, A1, rfl, by simp [expect_number, hk]⟩
    · left
      exact ⟨user_input.length - a.str.length, by simp [expect_number, hk, error_at]⟩

theorem cursor_safe_error (A B : List Token) (eof : Token) (e : Abort)
    (h : cursor_safe A eof (.error e)) : cursor_safe B eof (.error e) := by
  cases e <;> exact h

theorem cursor_safe_weaken (pre A B : List Token) (eof : Token)
    (r : Except Abort (Node × List Token)) (hA : A = pre ++ B) (h : cursor_safe B eof r) :
    cursor_safe A eof r := by
  cases r with
  | error e => exact cursor_safe_error B A eof e h
  | ok nt =>
    obtain ⟨n, R⟩ := nt
    obtain ⟨pre2, B2, hB, hR⟩ := h
    exact ⟨pre ++ pre2, B2, by rw [hA, hB, List.append_assoc], hR⟩

/-- On a token list that ends with a `TK_EOF` token the parsing functions
never read through `NULL`: they return with `token` on a token of the
list, at or after the one they started on, or stop with a diagnostic. -/
theorem parser_safe (user_input : List Char) (eof : Token) (heof : eof.kind = .TK_EOF) :
    ∀ fuel : Nat,
    (∀ A, cursor_safe A eof (primary_fuel user_input fuel (A ++ [eof]))) ∧
    (∀ A, cursor_safe A eof (mul_fuel user_input fuel (A ++ [eof]))) ∧
    (∀ node0 A, cursor_safe A eof (mul_loop user_input fuel node0 (A ++ [eof]))) ∧
    (∀ A, cursor_safe A eof (expr_fuel user_input fuel (A ++ [eof]))) ∧
    (∀ node0 A, cursor_safe A eof (expr_loop user_input fuel node0 (A ++ [eof]))) := by
  intro fuel
  induction fuel with
  | zero =>
    refine ⟨?_, ?_, ?_, ?_, ?_⟩ <;> intros <;> trivial
  | succ fuel ih =>
    obtain ⟨ihp, ihm, ihml, ihe, ihel⟩ := ih
    refine ⟨?_, ?_, ?_, ?_, ?_⟩
    · intro A
      simp only [primary_fuel]
      rcases consume_safe eof heof '(' A with hc | ⟨a, A1, hA, hc⟩
      · simp only [hc]
        rcases expect_number_safe user_input eof heof A with ⟨pos, hn⟩ | ⟨a, A1, hA, hn⟩
        · simp only [hn]
          exact Or.inl rfl
        · simp only [hn]
          exact ⟨[a], A1, hA, rfl⟩
      · simp only [hc]
        have h1 := ihe A1
        cases he : expr_fuel user_input fuel (A1 ++ [eof]) with
        | error e =>
          rw [he] at h1
          exact cursor_safe_error A1 A eof e h1
        | ok nt =>
          obtain ⟨n, R⟩ := nt
          rw [he] at h1
          obtain ⟨pre, B, hB, hR⟩ := h1
          subst hR
          simp only
          rcases expect_safe user_input eof heof ')' B with ⟨pos, hx⟩ | ⟨b, B1, hB1, hx⟩
          · simp only [hx]
            exact Or.inr (by decide)
          · simp only [hx]
            exact ⟨a :: (pre ++ [b]), B1, by rw [hA, hB, hB1]; simp, rfl⟩
    · intro A
      simp only [mul_fuel]
      have h1 := ihp A
      cases hp : primary_fuel user_input fuel (A ++ [eof]) with
      | error e =>
        rw [hp] at h1
        exact h1
      | ok nt =>
        obtain ⟨n, R⟩ := nt
        rw [hp] at h1
        obtain ⟨pre, B, hB, hR⟩ := h1
        subst hR
        exact cursor_safe_weaken pre A B eof _ hB (ihml n B)
    · intro node0 A
      simp only [mul_loop]
      rcases consume_safe eof heof '*' A with hc | ⟨a, A1, hA, hc⟩
      · simp only [hc]
        rcases consume_safe eof heof '/' A with hc2 | ⟨a, A1, hA, hc2⟩
        · simp only [hc2]
          exact ⟨[], A, rfl, rfl⟩
        · simp only [hc2]
          have h1 := ihp A1
          cases hp : primary_fuel user_input fuel (A1 ++ [eof]) with
          | error e =>
            rw [hp] at h1
            exact cursor_safe_error A1 A eof e h1
          | ok nt =>
            obtain ⟨n, R⟩ := nt
            rw [hp] at h1
            obtain ⟨pre, B, hB, hR⟩ := h1
            subst hR
            exact cursor_safe_weaken (a :: pre) A B eof _ (by rw [hA, hB]; rfl) (ihml _ B)
      · simp only [hc]
        have h1 := ihp A1
        cases hp : primary_fuel user_input fuel (A1 ++ [eof]) with
        | error e =>
          rw [hp] at h1
          exact cursor_safe_error A1 A eof e h1
        | ok nt =>
          obtain ⟨n, R⟩ := nt
          rw [hp] at h1
          obtain ⟨pre, B, hB, hR⟩ := h1
          subst hR
          exact cursor_safe_weaken (a :: pre) A B eof _ (by rw [hA, hB]; rfl) (ihml _ B)
    · intro A
      simp only [expr_fuel]
      have h1 := ihm A
      cases hp : mul_fuel user_input fuel (A ++ [eof]) with
      | error e =>
        rw [hp] at h1
        exact h1
      | ok nt =>
        obtain ⟨n, R⟩ := nt
        rw [hp] at h1
        obtain ⟨pre, B, hB, hR⟩ := h1
        subst hR
        exact cursor_safe_weaken pre A B eof _ hB (ihel n B)
    · intro node0 A
      simp only [expr_loop]
      rcases consume_safe eof heof '+' A with hc | ⟨a, A1, hA, hc⟩
      · simp only [hc]
        rcases consume_safe eof heof '-' A with hc2 | ⟨a, A1, hA, hc2⟩
        · simp only [hc2]
          exact ⟨[], A, rfl, rfl⟩
        · simp only [hc2]
          have h1 := ihm A1
          cases hp : mul_fuel user_input fuel (A1 ++ [eof]) with
          | error e =>
            rw [hp] at h1
            exact cursor_safe_error A1 A eof e h1
          | ok nt =>
            obtain ⟨n, R⟩ := nt
            rw [hp] at h1
            obtain ⟨pre, B, hB, hR⟩ := h1
            subst hR
            exact cursor_safe_weaken (a :: pre) A B eof _ (by rw [hA, hB]; rfl) (ihel _ B)
      · simp only [hc]
        have h1 := ihm A1
        cases hp : mul_fuel user_input fuel (A1 ++ [eof]) with
        | error e =>
          rw [hp] at h1
          exact cursor_safe_error A1 A eof e h1
        | ok nt =>
          obtain ⟨n, R⟩ := nt
          rw [hp] at h1
          obtain ⟨pre, B, hB, hR⟩ := h1
          subst hR
          exact cursor_safe_weaken (a :: pre) A B eof _ (by rw [hA, hB]; rfl) (ihel _ B)

/-- The three outcomes of `expr` on a token list that ends with a `TK_EOF`
token: a node with `token` on a later token of the list, or one of the two
diagnostics of the parser. -/
theorem expr_outcome (user_input : List Char) (A : List Token) (eof : Token)
    (heof : eof.kind = .TK_EOF) :
    (∃ node pre B, pre ≠ [] ∧ A = pre ++ B ∧
        expr user_input (A ++ [eof]) = .ok (node, B ++ [eof])) ∨
      (∃ pos, expr user_input (A ++ [eof]) = .error (.error_at pos "expected a number")) ∨
      (∃ pos, expr user_input (A ++ [eof]) = .error (.error_at pos "expected ')'")) := by
  have hs := (parser_safe user_input eof heof (parse_fuel (A ++ [eof]))).2.2.2.1 A
  have ht := expr_terminates user_input (A ++ [eof])
  unfold expr at ht ⊢
  cases hr : expr_fuel user_input (parse_fuel (A ++ [eof])) (A ++ [eof]) with
  | error e =>
    rw [hr] at hs ht
    cases e with
    | error_at pos msg =>
      rcases hs with h | h
      · exact Or.inr (Or.inl ⟨pos, by rw [h]⟩)
      · exact Or.inr (Or.inr ⟨pos, by rw [h]⟩)
    | error msg => exact absurd hs (by simp [cursor_safe])
    | null_deref => exact absurd hs (by simp [cursor_safe])
    | out_of_fuel => exact absurd rfl ht
  | ok nt =>
    obtain ⟨n, R⟩ := nt
    rw [hr] at hs
    obtain ⟨pre, B, hB, hR⟩ := hs
    obtain ⟨pre2, hne, hpre2⟩ :=
      (parser_progress user_input (parse_fuel (A ++ [eof]))).2.2.2.1 _ n R hr
    left
    refine ⟨n, pre, B, ?_, hB, by rw [hR]⟩
    rintro rfl
    have hlen := congrArg List.length hpre2
    have hpos := List.length_pos.mpr hne
    rw [hR, hB] at hlen
    simp only [List.length_append, List.nil_append] at hlen
    omega

/-! ## The loop of `tokenize` without its fuel -/

/-- One more unit of fuel does not change the loop of `tokenize` once it has
more fuel than characters. -/
theorem tokenize_loop_succ (user_input : List Char) :
    ∀ (fuel : Nat) (p : List Char), p.length < fuel →
      tokenize_loop user_input (fuel + 1) p = tokenize_loop user_input fuel p := by
  intro fuel
  induction fuel with
  | zero => intro p hp; omega
  | succ fuel ih =>
    intro p hp
    cases p with
    | nil => rfl
    | cons c rest =>
      simp only [List.length_cons] at hp
      by_cases hcs : isspace c = true
      · rw [tokenize_loop_space user_input c rest hcs (fuel + 1),
          tokenize_loop_space user_input c rest hcs fuel]
        exact ih rest (by omega)
      · by_cases hco : c = '+' ∨ c = '-'
        · rw [tokenize_loop_sign user_input c rest hco (fuel + 1),
            tokenize_loop_sign user_input c rest hco fuel, ih rest (by omega)]
        · by_cases hcd : isdigit c = true
          · have hlen := strtol_length c rest hcd
            rw [tokenize_loop_digit user_input c rest hcd (fuel + 1),
              tokenize_loop_digit user_input c rest hcd fuel, ih _ (by omega)]
          · have hs : isspace c = false := by simpa using hcs
            have hd : isdigit c = false := by simpa using hcd
            rw [tokenize_loop_other user_input c rest hs (fun h => hco (Or.inl h))
                (fun h => hco (Or.inr h)) hd (fuel + 1),
              tokenize_loop_other user_input c rest hs (fun h => hco (Or.inl h))
                (fun h => hco (Or.inr h)) hd fuel]

/-- With more fuel than characters the loop of `tokenize` is `scan`. -/
theorem tokenize_loop_eq_scan (user_input : List Char) (p : List Char) :
    ∀ k, tokenize_loop user_input (p.length + 1 + k) p = scan user_input p := by
  intro k
  induction k with
  | zero => rfl
  | succ k ih =>
    rw [← Nat.add_assoc, tokenize_loop_succ user_input _ p (by omega), ih]

theorem tokenize_eq_scan (user_input : List Char) :
    tokenize user_input = scan user_input user_input := rfl

theorem scan_nil (user_input : List Char) :
    scan user_input [] = .ok [⟨.TK_EOF, 0, []⟩] := rfl

theorem scan_space (user_input : List Char) (c : Char) (rest : List Char)
    (hc : isspace c = true) : scan user_input (c :: rest) = scan user_input rest := by
  unfold scan
  rw [List.length_cons, tokenize_loop_space user_input c rest hc]

theorem scan_sign (user_input : List Char) (c : Char) (rest : List Char)
    (hc : c = '+' ∨ c = '-') :
    scan user_input (c :: rest) =
      (scan user_input rest).map (fun ts => ⟨.TK_RESERVED, 0, c :: rest⟩ :: ts) := by
  unfold scan
  rw [List.length_cons, tokenize_loop_sign user_input c rest hc]

theorem scan_digit (user_input : List Char) (c : Char) (rest : List Char)
    (hc : isdigit c = true) :
    scan user_input (c :: rest) =
      (scan user_input (strtol (c :: rest)).2).map
        (fun ts => ⟨.TK_NUM, to_int (strtol (c :: rest)).1, c :: rest⟩ :: ts) := by
  have hlen := strtol_length c rest hc
  obtain ⟨k, hk⟩ : ∃ k, rest.length = (strtol (c :: rest)).2.length + k :=
    ⟨rest.length - (strtol (c :: rest)).2.length, by omega⟩
  have h2 := tokenize_loop_eq_scan user_input (strtol (c :: rest)).2 k
  unfold scan at h2 ⊢
  rw [List.length_cons, tokenize_loop_digit user_input c rest hc,
    show rest.length + 1 = (strtol (c :: rest)).2.length + 1 + k by omega, h2]

theorem scan_other (user_input : List Char) (c : Char) (rest : List Char)
    (hs : isspace c = false) (hp : c ≠ '+') (hm : c ≠ '-') (hd : isdigit c = false) :
    scan user_input (c :: rest) =
      .error (.error_at (user_input.length - (c :: rest).length) "expected a number") := by
  unfold scan
  rw [tokenize_loop_other user_input c rest hs hp hm hd]

/-- The digit loop of `strtol` reads the longest run of digits. -/
theorem strtol_digits_eq (l : List Char) :
    ∀ acc, strtol_digits acc l =
      ((l.takeWhile isdigit).foldl (fun a c => a * 10 + (c.toNat - '0'.toNat)) acc,
        l.dropWhile isdigit) := by
  induction l with
  | nil => intro acc; rfl
  | cons x l ih =>
    intro acc
    by_cases hx : isdigit x = true
    · simp only [strtol_digits, hx, if_true, List.takeWhile_cons, List.dropWhile_cons,
        List.foldl_cons]
      exact ih _
    · simp [strtol_digits, hx, List.takeWhile_cons, List.dropWhile_cons]

/-- The call of `strtol` at a digit: the value of the longest run of digits,
clamped, and the text after the run. -/
theorem strtol_eq (c : Char) (rest : List Char) (hc : isdigit c = true) :
    strtol (c :: rest) =
      (min (decimal_value (c :: rest.takeWhile isdigit) : Int) LONG_MAX,
        rest.dropWhile isdigit) := by
  simp only [strtol, strtol_digits_eq, List.takeWhile_cons, List.dropWhile_cons, hc, if_true,
    decimal_value]

/-- The step of `scan` at a digit, with the run of digits made explicit. -/
theorem scan_run (user_input : List Char) (c : Char) (rest : List Char)
    (hc : isdigit c = true) :
    scan user_input (c :: rest) =
      (scan user_input (rest.dropWhile isdigit)).map
        (fun ts => ⟨.TK_NUM, int_of_literal (c :: rest.takeWhile isdigit), c :: rest⟩ :: ts) := by
  rw [scan_digit user_input c rest hc, strtol_eq c rest hc]
  rfl

/-- Induction along the iterations of the loop of `tokenize`. -/
theorem scan_induction (user_input : List Char)
    (P : List Char → Except Abort (List Token) → Prop)
    (hnil : P [] (.ok [⟨.TK_EOF, 0, []⟩]))
    (hspace : ∀ c rest, isspace c = true → P rest (scan user_input rest) →
      P (c :: rest) (scan user_input rest))
    (hsign : ∀ c rest, c = '+' ∨ c = '-' → P rest (scan user_input rest) →
      P (c :: rest)
        ((scan user_input rest).map (fun ts => ⟨.TK_RESERVED, 0, c :: rest⟩ :: ts)))
    (hdigit : ∀ c rest, isdigit c = true →
      P (rest.dropWhile isdigit) (scan user_input (rest.dropWhile isdigit)) →
      P (c :: rest)
        ((scan user_input (rest.dropWhile isdigit)).map
          (fun ts =>
            ⟨.TK_NUM, int_of_literal (c :: rest.takeWhile isdigit), c :: rest⟩ :: ts)))
    (hother : ∀ c rest, isspace c = false → c ≠ '+' → c ≠ '-' → isdigit c = false →
      P (c :: rest)
        (.error (.error_at (user_input.length - (c :: rest).length) "expected a number"))) :
    ∀ p, P p (scan user_input p) := by
  have key : ∀ n, ∀ p : List Char, p.length ≤ n → P p (scan user_input p) := by
    intro n
    induction n with
    | zero =>
      intro p hp
      cases p with
      | nil => exact hnil
      | cons c rest => simp at hp
    | succ n ih =>
      intro p hp
      cases p with
      | nil => exact hnil
      | cons c rest =>
        simp only [List.length_cons, Nat.add_le_add_iff_right] at hp
        by_cases hcs : isspace c = true
        · rw [scan_space user_input c rest hcs]
          exact hspace c rest hcs (ih rest hp)
        · by_cases hco : c = '+' ∨ c = '-'
          · rw [scan_sign user_input c rest hco]
            exact hsign c rest hco (ih rest hp)
          · by_cases hcd : isdigit c = true
            · rw [scan_run user_input c rest hcd]
              have hl : (rest.dropWhile isdigit).length ≤ rest.length :=
                (List.dropWhile_sublist _).length_le
              exact hdigit c rest hcd (ih _ (by omega))
            · have hs : isspace c = false := by simpa using hcs
              have hd : isdigit c = false := by simpa using hcd
              rw [scan_other user_input c rest hs (fun h => hco (Or.inl h))
                (fun h => hco (Or.inr h)) hd]
              exact hother c rest hs (fun h => hco (Or.inl h)) (fun h => hco (Or.inr h)) hd
  intro p
  exact key p.length p (Nat.le_refl _)

theorem except_map_ok {α β : Type} {f : α → β} {r : Except Abort α} {b : β}
    (h : r.map f = .ok b) : ∃ a, r = .ok a ∧ f a = b := by
  cases r with
  | error e => cases h
  | ok a =>
    simp only [Except.map, Except.ok.injEq] at h
    exact ⟨a, rfl, h⟩

/-- The tokens `scan` returns: tokens that are not `TK_EOF`, each starting at
a non-empty suffix of the scanned text, each suffix shorter than the one
before, and then the `TK_EOF` token at the end of the text. -/
theorem scan_shape (user_input : List Char) :
    ∀ p ts, scan user_input p = .ok ts →
      ∃ body, ts = body ++ [⟨.TK_EOF, 0, []⟩] ∧
        (∀ t ∈ body, t.kind ≠ .TK_EOF ∧ t.str ≠ [] ∧ t.str <:+ p) ∧
        List.Pairwise (fun a b => b.str.length < a.str.length) ts := by
  intro p
  refine scan_induction user_input
    (fun p r => ∀ ts, r = .ok ts →
      ∃ body, ts = body ++ [⟨.TK_EOF, 0, []⟩] ∧
        (∀ t ∈ body, t.kind ≠ .TK_EOF ∧ t.str ≠ [] ∧ t.str <:+ p) ∧
        List.Pairwise (fun a b => b.str.length < a.str.length) ts) ?_ ?_ ?_ ?_ ?_ p
  · intro ts h
    simp only [Except.ok.injEq] at h
    subst h
    exact ⟨[], rfl, by simp, by simp⟩
  · intro c rest _ ih ts h
    obtain ⟨body, hts, hb, hp⟩ := ih ts h
    refine ⟨body, hts, ?_, hp⟩
    intro t ht
    obtain ⟨h1, h2, h3⟩ := hb t ht
    exact ⟨h1, h2, h3.trans (List.suffix_cons c rest)⟩
  · intro c rest _ ih ts h
    obtain ⟨ts1, h1, h2⟩ := except_map_ok h
    obtain ⟨body, hts, hb, hp⟩ := ih ts1 h1
    subst h2
    refine ⟨⟨.TK_RESERVED, 0, c :: rest⟩ :: body, by rw [hts]; rfl, ?_, ?_⟩
    · intro t ht
      rcases List.mem_cons.mp ht with rfl | ht
      · exact ⟨by simp, by simp, List.suffix_refl _⟩
      · obtain ⟨h1, h2, h3⟩ := hb t ht
        exact ⟨h1, h2, h3.trans (List.suffix_cons c rest)⟩
    · refine List.Pairwise.cons ?_ hp
      intro b hb2
      rw [hts] at hb2
      rcases List.mem_append.mp hb2 with hb3 | hb3
      · have := (hb b hb3).2.2.length_le
        simp only [List.length_cons]
        omega
      · simp only [List.mem_singleton] at hb3
        subst hb3
        simp
  · intro c rest _ ih ts h
    obtain ⟨ts1, h1, h2⟩ := except_map_ok h
    obtain ⟨body, hts, hb, hp⟩ := ih ts1 h1
    subst h2
    have hsuf : rest.dropWhile isdigit <:+ rest := List.dropWhile_suffix _
    refine ⟨⟨.TK_NUM, int_of_literal (c :: rest.takeWhile isdigit), c :: rest⟩ :: body,
      by rw [hts]; rfl, ?_, ?_⟩
    · intro t ht
      rcases List.mem_cons.mp ht with rfl | ht
      · exact ⟨by simp, by simp, List.suffix_refl _⟩
      · obtain ⟨h1, h2, h3⟩ := hb t ht
        exact ⟨h1, h2, (h3.trans hsuf).trans (List.suffix_cons c rest)⟩
    · refine List.Pairwise.cons ?_ hp
      intro b hb2
      rw [hts] at hb2
      rcases List.mem_append.mp hb2 with hb3 | hb3
      · have := ((hb b hb3).2.2.trans hsuf).length_le
        simp only [List.length_cons]
        omega
      · simp only [List.mem_singleton] at hb3
        subst hb3
        simp
  · intro c rest _ _ _ _ ts h
    cases h

/-! ## The three primitives of the parser at a token -/

theorem consume_cons (op : Char) (t : Token) (next : List Token) :
    consume op (t :: next) =
      if t.kind = .TK_RESERVED ∧ deref t.str = op then .ok (true, next)
      else .ok (false, t :: next) := by
  by_cases hk : t.kind = .TK_RESERVED <;> by_cases hc : deref t.str = op <;>
    simp [consume, hk, hc]

theorem expect_cons (user_input : List Char) (op : Char) (t : Token) (next : List Token) :
    expect user_input op (t :: next) =
      if t.kind = .TK_RESERVED ∧ deref t.str = op then .ok next
      else .error (.error_at (user_input.length - t.str.length)
        ("expected '" ++ String.singleton op ++ "'")) := by
  by_cases hk : t.kind = .TK_RESERVED <;> by_cases hc : deref t.str = op <;>
    simp [expect, hk, hc, error_at]

theorem expect_number_cons (user_input : List Char) (t : Token) (next : List Token) :
    expect_number user_input (t :: next) =
      if t.kind = .TK_NUM then .ok (t.val, next)
      else .error (.error_at (user_input.length - t.str.length) "expected a number") := by
  by_cases hk : t.kind = .TK_NUM <;> simp [expect_number, hk, error_at]

/-! ## Results do not depend on the amount of fuel -/

/-- A result that did not run out of fuel is the result for any larger fuel. -/
theorem parser_fuel_lift (user_input : List Char) (fuel : Nat) : ∀ k : Nat,
    (∀ token, primary_fuel user_input fuel token ≠ .error .out_of_fuel →
      primary_fuel user_input (fuel + k) token = primary_fuel user_input fuel token) ∧
    (∀ token, mul_fuel user_input fuel token ≠ .error .out_of_fuel →
      mul_fuel user_input (fuel + k) token = mul_fuel user_input fuel token) ∧
    (∀ node0 token, mul_loop user_input fuel node0 token ≠ .error .out_of_fuel →
      mul_loop user_input (fuel + k) node0 token = mul_loop user_input fuel node0 token) ∧
    (∀ token, expr_fuel user_input fuel token ≠ .error .out_of_fuel →
      expr_fuel user_input (fuel + k) token = expr_fuel user_input fuel token) ∧
    (∀ node0 token, expr_loop user_input fuel node0 token ≠ .error .out_of_fuel →
      expr_loop user_input (fuel + k) node0 token = expr_loop user_input fuel node0 token) := by
  intro k
  induction k with
  | zero => exact ⟨fun _ _ => rfl, fun _ _ => rfl, fun _ _ _ => rfl, fun _ _ => rfl,
      fun _ _ _ => rfl⟩
  | succ k ih =>
    obtain ⟨ihp, ihm, ihml, ihe, ihel⟩ := ih
    obtain ⟨mp, mm, mml, me, mel⟩ := parser_fuel_mono user_input (fuel + k)
    refine ⟨?_, ?_, ?_, ?_, ?_⟩
    · intro token h
      rw [← Nat.add_assoc, mp token (by rw [ihp token h]; exact h), ihp token h]
    · intro token h
      rw [← Nat.add_assoc, mm token (by rw [ihm token h]; exact h), ihm token h]
    · intro node0 token h
      rw [← Nat.add_assoc, mml node0 token (by rw [ihml node0 token h]; exact h),
        ihml node0 token h]
    · intro token h
      rw [← Nat.add_assoc, me token (by rw [ihe token h]; exact h), ihe token h]
    · intro node0 token h
      rw [← Nat.add_assoc, mel node0 token (by rw [ihel node0 token h]; exact h),
        ihel node0 token h]

theorem primary_fuel_le (user_input : List Char) {f g : Nat} (hfg : f ≤ g)
    {token : List Token} {res : Node × List Token}
    (h : primary_fuel user_input f token = .ok res) :
    primary_fuel user_input g token = .ok res := by
  obtain ⟨k, rfl⟩ : ∃ k, g = f + k := ⟨g - f, by omega⟩
  rw [(parser_fuel_lift user_input f k).1 token (by rw [h]; simp), h]

theorem mul_fuel_le (user_input : List Char) {f g : Nat} (hfg : f ≤ g)
    {token : List Token} {res : Node × List Token}
    (h : mul_fuel user_input f token = .ok res) :
    mul_fuel user_input g token = .ok res := by
  obtain ⟨k, rfl⟩ : ∃ k, g = f + k := ⟨g - f, by omega⟩
  rw [(parser_fuel_lift user_input f k).2.1 token (by rw [h]; simp), h]

theorem mul_loop_le (user_input : List Char) {f g : Nat} (hfg : f ≤ g) {node0 : Node}
    {token : List Token} {res : Node × List Token}
    (h : mul_loop user_input f node0 token = .ok res) :
    mul_loop user_input g node0 token = .ok res := by
  obtain ⟨k, rfl⟩ : ∃ k, g = f + k := ⟨g - f, by omega⟩
  rw [(parser_fuel_lift user_input f k).2.2.1 node0 token (by rw [h]; simp), h]

theorem expr_fuel_le (user_input : List Char) {f g : Nat} (hfg : f ≤ g)
    {token : List Token} {res : Node × List Token}
    (h : expr_fuel user_input f token = .ok res) :
    expr_fuel user_input g token = .ok res := by
  obtain ⟨k, rfl⟩ : ∃ k, g = f + k := ⟨g - f, by omega⟩
  rw [(parser_fuel_lift user_input f k).2.2.2.1 token (by rw [h]; simp), h]

theorem expr_loop_le (user_input : List Char) {f g : Nat} (hfg : f ≤ g) {node0 : Node}
    {token : List Token} {res : Node × List Token}
    (h : expr_loop user_input f node0 token = .ok res) :
    expr_loop user_input g node0 token = .ok res := by
  obtain ⟨k, rfl⟩ : ∃ k, g = f + k := ⟨g - f, by omega⟩
  rw [(parser_fuel_lift user_input f k).2.2.2.2 node0 token (by rw [h]; simp), h]

/-- A node returned with some fuel is the node `expr` returns. -/
theorem expr_of_fuel (user_input : List Char) {f : Nat} {token : List Token}
    {res : Node × List Token} (h : expr_fuel user_input f token = .ok res) :
    expr user_input token = .ok res := by
  unfold expr
  by_cases hf : f ≤ parse_fuel token
  · exact expr_fuel_le user_input hf h
  · have ht := expr_terminates user_input token
    unfold expr at ht
    obtain ⟨k, hk⟩ : ∃ k, f = parse_fuel token + k := ⟨f - parse_fuel token, by omega⟩
    have hl := (parser_fuel_lift user_input (parse_fuel token) k).2.2.2.1 token ht
    rw [← hl, ← hk, h]

/-- The node `expr` returns is returned with any fuel from `parse_fuel` on. -/
theorem expr_to_fuel (user_input : List Char) {f : Nat} {token : List Token}
    {res : Node × List Token} (h : expr user_input token = .ok res)
    (hf : parse_fuel token ≤ f) : expr_fuel user_input f token = .ok res :=
  expr_fuel_le user_input hf h

/-- The first character of the tokens `scan` returns: `+` or `-` for a
`TK_RESERVED` token, a digit for a `TK_NUM` token. -/
theorem scan_first_char (user_input : List Char) :
    ∀ p ts, scan user_input p = .ok ts →
      ∀ t ∈ ts, (t.kind = .TK_RESERVED → deref t.str = '+' ∨ deref t.str = '-') ∧
        (t.kind = .TK_NUM → isdigit (deref t.str) = true) := by
  intro p
  refine scan_induction user_input
    (fun _ r => ∀ ts, r = .ok ts →
      ∀ t ∈ ts, (t.kind = .TK_RESERVED → deref t.str = '+' ∨ deref t.str = '-') ∧
        (t.kind = .TK_NUM → isdigit (deref t.str) = true)) ?_ ?_ ?_ ?_ ?_ p
  · intro ts h t ht
    simp only [Except.ok.injEq] at h
    subst h
    simp only [List.mem_singleton] at ht
    subst ht
    exact ⟨fun h => (by cases h), fun h => (by cases h)⟩
  · intro c rest _ ih ts h
    exact ih ts h
  · intro c rest hc ih ts h
    obtain ⟨ts1, h1, h2⟩ := except_map_ok h
    subst h2
    intro t ht
    rcases List.mem_cons.mp ht with rfl | ht
    · exact ⟨fun _ => hc, fun h => by cases h⟩
    · exact ih ts1 h1 t ht
  · intro c rest hc ih ts h
    obtain ⟨ts1, h1, h2⟩ := except_map_ok h
    subst h2
    intro t ht
    rcases List.mem_cons.mp ht with rfl | ht
    · exact ⟨fun h => (by cases h), fun _ => hc⟩
    · exact ih ts1 h1 t ht
  · intro c rest _ _ _ _ ts h
    cases h

/-! ## Outcomes of `tokenize` and of `main` -/

/-- The only way `tokenize` stops without tokens is its diagnostic. -/
theorem tokenize_error (user_input : List Char) (e : Abort)
    (h : tokenize user_input = .error e) : ∃ pos, e = .error_at pos "expected a number" := by
  by_cases hall : ∀ c ∈ user_input, recognised c = true
  · obtain ⟨ts, hts⟩ := (tokenize_succeeds_iff user_input).mpr hall
    rw [hts] at h
    cases h
  · have hex : ∃ c ∈ user_input, recognised c = false := by
      by_contra hno
      apply hall
      intro c hc
      by_contra hrc
      exact hno ⟨c, hc, by simpa using hrc⟩
    obtain ⟨pre, c, post, _, _, _, herr⟩ := tokenize_fails user_input hex
    rw [herr] at h
    simp only [Except.error.injEq] at h
    exact ⟨pre.length, h.symm⟩

/-- The tokens of `tokenize` end with the `TK_EOF` token. -/
theorem tokenize_ends_eof (user_input : List Char) (ts : List Token)
    (h : tokenize user_input = .ok ts) : ∃ A, ts = A ++ [⟨.TK_EOF, 0, []⟩] := by
  obtain ⟨body, hts, _, _⟩ := scan_shape user_input user_input ts h
  exact ⟨body, hts⟩

/-- The two ways a run of `main` on one argument ends. -/
theorem main_outcome (prog user_input : List Char) :
    (∃ node rest, parse user_input = .ok (node, rest) ∧
        main [prog, user_input] = .exit 0 (assembly node) []) ∨
      (∃ pos msg, parse user_input = .error (.error_at pos msg) ∧
        main [prog, user_input] = .exit 1 [] (error_at_lines user_input pos msg)) := by
  cases ht : tokenize user_input with
  | error e =>
    obtain ⟨pos, rfl⟩ := tokenize_error user_input e ht
    right
    exact ⟨pos, "expected a number", by simp only [parse, ht],
      by simp only [main, ht, report]⟩
  | ok ts =>
    obtain ⟨A, rfl⟩ := tokenize_ends_eof user_input ts ht
    rcases expr_outcome user_input A ⟨.TK_EOF, 0, []⟩ rfl with
      ⟨node, pre, B, _, _, he⟩ | ⟨pos, he⟩ | ⟨pos, he⟩
    · left
      exact ⟨node, B ++ [⟨.TK_EOF, 0, []⟩], by simp only [parse, ht, he],
        by simp only [main, ht, he, assembly]⟩
    · right
      exact ⟨pos, "expected a number", by simp only [parse, ht, he],
        by simp only [main, ht, he, report]⟩
    · right
      exact ⟨pos, "expected ')'", by simp only [parse, ht, he],
        by simp only [main, ht, he, report]⟩

/-! ## Claims C11, C12, C15, C18, C20 -/

/-- C11: for every input string, `main` either exits with status 0 after
printing the whole assembly text of the parsed node and nothing on stderr,
or exits with status 1 after printing the two lines of one `error_at`
diagnostic on stderr and nothing on stdout; a run with another number of
arguments prints one message on stderr and nothing on stdout. -/
theorem main_all_or_nothing (prog user_input : List Char) :
    ((∃ node rest, parse user_input = .ok (node, rest) ∧
        main [prog, user_input] = .exit 0 (assembly node) []) ∨
      (∃ pos msg, parse user_input = .error (.error_at pos msg) ∧
        main [prog, user_input] = .exit 1 [] (error_at_lines user_input pos msg))) ∧
    (∀ node, assembly node =
      [".intel_syntax noprefix", ".globl main", "main:"] ++ gen node ++ ["  pop rax", "  ret"]) ∧
    (∀ pos msg, error_at_lines user_input pos msg =
      [String.mk user_input, String.mk (List.replicate pos ' ') ++ "^ " ++ msg]) ∧
    main [prog] = .exit 1 [] ["引数の個数が正しくありません"] :=
  ⟨main_outcome prog user_input, fun _ => rfl, fun _ _ => rfl, rfl⟩

/-- C12: when `tokenize` succeeds its tokens are a list of tokens that are
not `TK_EOF` followed by one `TK_EOF` token whose offset is the length of
the input; every other token starts inside the input, the input from its
offset on is the token's text, the character at its offset is its first
character (`+` or `-` for an operator, a digit for a number), and the
offsets increase strictly along the list. -/
theorem tokenize_offsets (user_input : List Char) (ts : List Token)
    (h : tokenize user_input = .ok ts) :
    ∃ body, ts = body ++ [⟨.TK_EOF, 0, []⟩] ∧
      token_offset user_input ⟨.TK_EOF, 0, []⟩ = user_input.length ∧
      (∀ t ∈ body, t.kind ≠ .TK_EOF ∧ token_offset user_input t < user_input.length ∧
        user_input.drop (token_offset user_input t) = t.str ∧
        user_input.get? (token_offset user_input t) = some (deref t.str) ∧
        (t.kind = .TK_RESERVED → deref t.str = '+' ∨ deref t.str = '-') ∧
        (t.kind = .TK_NUM → isdigit (deref t.str) = true)) ∧
      List.Pairwise (fun a b => token_offset user_input a < token_offset user_input b) ts := by
  obtain ⟨body, hts, hb, hp⟩ := scan_shape user_input user_input ts h
  have hfc := scan_first_char user_input user_input ts h
  have hlen : ∀ t ∈ ts, t.str.length ≤ user_input.length := by
    intro t ht
    rw [hts] at ht
    rcases List.mem_append.mp ht with h1 | h1
    · exact (hb t h1).2.2.length_le
    · simp only [List.mem_singleton] at h1
      subst h1
      simp
  refine ⟨body, hts, by simp [token_offset], ?_, ?_⟩
  · intro t ht
    obtain ⟨hk, hne, hsuf⟩ := hb t ht
    obtain ⟨pre, hpre⟩ := hsuf
    have hpos : 0 < t.str.length := List.length_pos.mpr hne
    have hoff : token_offset user_input t = pre.length := by
      unfold token_offset
      rw [← hpre, List.length_append]
      omega
    have hmem : t ∈ ts := by
      rw [hts]
      exact List.mem_append_left _ ht
    refine ⟨hk, ?_, ?_, ?_, (hfc t hmem).1, (hfc t hmem).2⟩
    · rw [hoff, ← hpre, List.length_append]
      omega
    · rw [hoff, ← hpre, List.drop_left]
    · rw [hoff, ← hpre]
      cases hs : t.str with
      | nil => exact absurd hs hne
      | cons c rest =>
        rw [List.get?_eq_getElem?, List.getElem?_append_right (Nat.le_refl _)]
        simp [deref]
  · refine List.Pairwise.imp_of_mem ?_ hp
    intro a b ha hb2 hab
    have h1 := hlen a ha
    have h2 := hlen b hb2
    unfold token_offset
    omega

theorem tokenize_offsets_witness :
    tokenize "1 +2".toList =
      .ok [⟨.TK_NUM, 1, "1 +2".toList⟩, ⟨.TK_RESERVED, 0, "+2".toList⟩, ⟨.TK_NUM, 2, "2".toList⟩,
        ⟨.TK_EOF, 0, []⟩] ∧
    ∃ body,
      [⟨.TK_NUM, 1, "1 +2".toList⟩, ⟨.TK_RESERVED, 0, "+2".toList⟩, ⟨.TK_NUM, 2, "2".toList⟩,
        (⟨.TK_EOF, 0, []⟩ : Token)] = body ++ [⟨.TK_EOF, 0, []⟩] ∧
      token_offset "1 +2".toList ⟨.TK_EOF, 0, []⟩ = "1 +2".toList.length ∧
      (∀ t ∈ body, t.kind ≠ .TK_EOF ∧ token_offset "1 +2".toList t < "1 +2".toList.length ∧
        "1 +2".toList.drop (token_offset "1 +2".toList t) = t.str ∧
        "1 +2".toList.get? (token_offset "1 +2".toList t) = some (deref t.str) ∧
        (t.kind = .TK_RESERVED → deref t.str = '+' ∨ deref t.str = '-') ∧
        (t.kind = .TK_NUM → isdigit (deref t.str) = true)) ∧
      List.Pairwise
        (fun a b => token_offset "1 +2".toList a < token_offset "1 +2".toList b)
        [⟨.TK_NUM, 1, "1 +2".toList⟩, ⟨.TK_RESERVED, 0, "+2".toList⟩,
          ⟨.TK_NUM, 2, "2".toList⟩, ⟨.TK_EOF, 0, []⟩] :=
  ⟨rfl, tokenize_offsets "1 +2".toList _ rfl⟩

/-- C15: at every token, `consume(op)` returns without a diagnostic; it
returns true and moves `token` to the next token when the current token is
a `TK_RESERVED` token whose character is `op`, and otherwise returns false
and leaves `token` where it was. -/
theorem consume_spec (op : Char) (t : Token) (next : List Token) :
    (consume op (t :: next) =
      if t.kind = .TK_RESERVED ∧ deref t.str = op then .ok (true, next)
      else .ok (false, t :: next)) ∧
    ∀ e, consume op (t :: next) ≠ .error e := by
  refine ⟨consume_cons op t next, ?_⟩
  intro e h
  have := (consume_error h).1
  cases this

/-- The quotient of two signed 64-bit integers fits exactly when the
division is not `-2^63 / -1`. -/
theorem tdiv_in_range_iff {a b : Int} (ha : in_range64 a) (hb0 : b ≠ 0) :
    in_range64 (a.tdiv b) ↔ ¬(a = -2 ^ 63 ∧ b = -1) := by
  constructor
  · rintro h ⟨rfl, rfl⟩
    revert h
    decide
  · exact tdiv_in_range ha hb0

/-- After `cqo` and `idiv rdi` the register `rax` holds the quotient of
`rax` by `rdi`, when it is defined. -/
theorem exec_cqo_idiv (m : Machine) (ha : in_range64 m.rax) :
    (exec [.cqo, .idiv .rdi] m).map Machine.rax = sdiv64 m.rax m.rdi := by
  simp only [exec, step, Machine.get]
  rw [cqo_dividend ha]
  unfold sdiv64
  by_cases hb0 : m.rdi = 0
  · simp [hb0]
  · by_cases hov : m.rax = -2 ^ 63 ∧ m.rdi = -1
    · have hq : ¬in_range64 (m.rax.tdiv m.rdi) := fun h => (tdiv_in_range_iff ha hb0).mp h hov
      simp only [hb0, hq, hov, if_false, and_self, if_true]
      rfl
    · have hq : in_range64 (m.rax.tdiv m.rdi) := (tdiv_in_range_iff ha hb0).mpr hov
      simp only [hb0, hq, hov, if_false, if_true]
      rfl

/-- C18 as stated fails: in the code of `10-3` the first pop fills `rdi` with
3, the value of the right operand, and the second pop fills `rax` with 10,
the value of the left operand. -/
theorem second_pop_loads_lhs :
    gen_instrs (.ND_SUB (.ND_NUM 10) (.ND_NUM 3)) =
      [.push_imm 10, .push_imm 3, .pop .rdi, .pop .rax, .sub .rax .rdi, .push .rax] ∧
    gen (.ND_SUB (.ND_NUM 10) (.ND_NUM 3)) =
      ["  push 10", "  push 3", "  pop rdi", "  pop rax", "  sub rax, rdi", "  push rax"] ∧
    eval (.ND_NUM 10) = some 10 ∧ eval (.ND_NUM 3) = some 3 ∧
    exec [.push_imm 10, .push_imm 3, .pop .rdi] ⟨0, 0, 0, []⟩ = some ⟨0, 3, 0, [10]⟩ ∧
    exec [.push_imm 10, .push_imm 3, .pop .rdi, .pop .rax] ⟨0, 0, 0, []⟩ =
      some ⟨10, 3, 0, []⟩ := by
  refine ⟨rfl, by decide, by decide, by decide, by decide, by decide⟩

/-- C18, amended: in the code of every binary node whose operands have
values, the first pop fills `rdi` with the value of the right operand and
the second pop fills `rax` with the value of the left operand; `rdi` is
what `sub rax, rdi` subtracts and what `idiv rdi` divides by, so the
result is left operand minus right operand, left operand divided by
right operand. -/
theorem pops_load_rhs_then_lhs (lhs rhs : Node) (a b : Int) (hl : eval lhs = some a)
    (hr : eval rhs = some b) (m : Machine) :
    gen_instrs (.ND_SUB lhs rhs) =
      (gen_instrs lhs ++ gen_instrs rhs ++ [.pop .rdi, .pop .rax]) ++
        [.sub .rax .rdi] ++ [.push .rax] ∧
    gen_instrs (.ND_DIV lhs rhs) =
      (gen_instrs lhs ++ gen_instrs rhs ++ [.pop .rdi, .pop .rax]) ++
        [.cqo, .idiv .rdi] ++ [.push .rax] ∧
    ∃ m1 m2, exec (gen_instrs lhs ++ gen_instrs rhs ++ [.pop .rdi]) m = some m1 ∧
      m1.rdi = b ∧ m1.stack = a :: m.stack ∧
      exec (gen_instrs lhs ++ gen_instrs rhs ++ [.pop .rdi, .pop .rax]) m = some m2 ∧
      m2.rdi = b ∧ m2.rax = a ∧ m2.stack = m.stack ∧
      (exec [.sub .rax .rdi] m2).map Machine.rax = some (wrap64 (a - b)) ∧
      (exec [.cqo, .idiv .rdi] m2).map Machine.rax = sdiv64 a b := by
  obtain ⟨ma, h1, s1⟩ := exec_gen_instrs lhs a hl m
  obtain ⟨mb, h2, s2⟩ := exec_gen_instrs rhs b hr ma
  have hra : in_range64 a := eval_in_range lhs a hl
  refine ⟨by simp [gen_instrs], by simp [gen_instrs], ?_⟩
  refine ⟨{ mb with rdi := b, stack := a :: m.stack },
    { mb with rdi := b, rax := a, stack := m.stack }, ?_, rfl, rfl, ?_, rfl, rfl, rfl, ?_, ?_⟩
  · simp only [List.append_assoc, exec_append, h1, h2, Option.bind]
    simp [exec, step, s2, s1, Machine.set]
  · simp only [List.append_assoc, exec_append, h1, h2, Option.bind]
    simp [exec, step, s2, s1, Machine.set]
  · simp [exec, step, Machine.set, Machine.get]
  · exact exec_cqo_idiv _ hra

theorem pops_load_rhs_then_lhs_witness :
    (eval (.ND_NUM 10) = some 10 ∧ eval (.ND_NUM 3) = some 3) ∧
    (gen_instrs (.ND_SUB (.ND_NUM 10) (.ND_NUM 3)) =
      (gen_instrs (.ND_NUM 10) ++ gen_instrs (.ND_NUM 3) ++ [.pop .rdi, .pop .rax]) ++
        [.sub .rax .rdi] ++ [.push .rax] ∧
    gen_instrs (.ND_DIV (.ND_NUM 10) (.ND_NUM 3)) =
      (gen_instrs (.ND_NUM 10) ++ gen_instrs (.ND_NUM 3) ++ [.pop .rdi, .pop .rax]) ++
        [.cqo, .idiv .rdi] ++ [.push .rax] ∧
    ∃ m1 m2,
      exec (gen_instrs (.ND_NUM 10) ++ gen_instrs (.ND_NUM 3) ++ [.pop .rdi]) ⟨0, 0, 0, []⟩ =
        some m1 ∧
      m1.rdi = 3 ∧ m1.stack = 10 :: [] ∧
      exec (gen_instrs (.ND_NUM 10) ++ gen_instrs (.ND_NUM 3) ++ [.pop .rdi, .pop .rax])
        ⟨0, 0, 0, []⟩ = some m2 ∧
      m2.rdi = 3 ∧ m2.rax = 10 ∧ m2.stack = [] ∧
      (exec [.sub .rax .rdi] m2).map Machine.rax = some (wrap64 (10 - 3)) ∧
      (exec [.cqo, .idiv .rdi] m2).map Machine.rax = sdiv64 10 3) :=
  ⟨⟨by decide, by decide⟩,
    pops_load_rhs_then_lhs (.ND_NUM 10) (.ND_NUM 3) 10 3 (by decide) (by decide) ⟨0, 0, 0, []⟩⟩

/-- C20: on every token list that ends with a `TK_EOF` token, `expr` ends:
it returns a node with `token` on a token of the list later than the one
it started on, or it stops with one of the two diagnostics of the parser.
It never reads through `NULL`, because `consume`, `expect` and
`expect_number` do not move `token` past a `TK_EOF` token. -/
theorem expr_cursor_stays (user_input : List Char) (A : List Token) (eof : Token)
    (heof : eof.kind = .TK_EOF) :
    ((∃ node pre B, pre ≠ [] ∧ A = pre ++ B ∧
        expr user_input (A ++ [eof]) = .ok (node, B ++ [eof])) ∨
      (∃ pos, expr user_input (A ++ [eof]) = .error (.error_at pos "expected a number")) ∨
      (∃ pos, expr user_input (A ++ [eof]) = .error (.error_at pos "expected ')'"))) ∧
    (∀ op next, consume op (eof :: next) = .ok (false, eof :: next)) ∧
    (∀ op next, expect user_input op (eof :: next) =
      .error (.error_at (user_input.length - eof.str.length)
        ("expected '" ++ String.singleton op ++ "'"))) ∧
    (∀ next, expect_number user_input (eof :: next) =
      .error (.error_at (user_input.length - eof.str.length) "expected a number")) := by
  refine ⟨expr_outcome user_input A eof heof, ?_, ?_, ?_⟩
  · intro op next
    simp [consume_cons, heof]
  · intro op next
    simp [expect_cons, heof]
  · intro next
    simp [expect_number_cons, heof]

theorem expr_cursor_stays_witness :
    (⟨.TK_EOF, 0, []⟩ : Token).kind = .TK_EOF ∧
    expr "1+2".toList
        ([⟨.TK_NUM, 1, "1+2".toList⟩, ⟨.TK_RESERVED, 0, "+2".toList⟩, ⟨.TK_NUM, 2, "2".toList⟩] ++
          [⟨.TK_EOF, 0, []⟩]) =
      .ok (.ND_ADD (.ND_NUM 1) (.ND_NUM 2), [] ++ [⟨.TK_EOF, 0, []⟩]) ∧
    ((∃ node pre B, pre ≠ [] ∧
        [⟨.TK_NUM, 1, "1+2".toList⟩, ⟨.TK_RESERVED, 0, "+2".toList⟩,
          (⟨.TK_NUM, 2, "2".toList⟩ : Token)] = pre ++ B ∧
        expr "1+2".toList
            ([⟨.TK_NUM, 1, "1+2".toList⟩, ⟨.TK_RESERVED, 0, "+2".toList⟩,
              ⟨.TK_NUM, 2, "2".toList⟩] ++ [⟨.TK_EOF, 0, []⟩]) =
          .ok (node, B ++ [⟨.TK_EOF, 0, []⟩])) ∨
      (∃ pos, expr "1+2".toList
            ([⟨.TK_NUM, 1, "1+2".toList⟩, ⟨.TK_RESERVED, 0, "+2".toList⟩,
              ⟨.TK_NUM, 2, "2".toList⟩] ++ [⟨.TK_EOF, 0, []⟩]) =
          .error (.error_at pos "expected a number")) ∨
      (∃ pos, expr "1+2".toList
            ([⟨.TK_NUM, 1, "1+2".toList⟩, ⟨.TK_RESERVED, 0, "+2".toList⟩,
              ⟨.TK_NUM, 2, "2".toList⟩] ++ [⟨.TK_EOF, 0, []⟩]) =
          .error (.error_at pos "expected ')'"))) :=
  ⟨rfl, rfl, (expr_cursor_stays "1+2".toList _ ⟨.TK_EOF, 0, []⟩ rfl).1⟩

/-! ## Number tokens and runs of digits -/

theorem isspace_not_isdigit {c : Char} (h : isspace c = true) : isdigit c = false := by
  cases hd : isdigit c with
  | false => rfl
  | true =>
    rw [isdigit_not_isspace hd] at h
    cases h

/-- What `main` prints when tokenizing and parsing succeed. -/
theorem main_of_parse (prog user_input : List Char) (node : Node) (rest : List Token)
    (h : parse user_input = .ok (node, rest)) :
    main [prog, user_input] = .exit 0 (assembly node) [] := by
  unfold parse at h
  cases ht : tokenize user_input with
  | error e => rw [ht] at h; cases h
  | ok ts =>
    rw [ht] at h
    simp only at h
    simp only [main, ht, h, assembly]

/-- The runs of `main` that exit with status 0 are those where tokenizing
and parsing succeed. -/
theorem parse_of_main (prog user_input : List Char) (out err : List String)
    (h : main [prog, user_input] = .exit 0 out err) :
    ∃ node rest, parse user_input = .ok (node, rest) ∧ out = assembly node ∧ err = [] := by
  rcases main_outcome prog user_input with ⟨node, rest, hp, hm⟩ | ⟨pos, msg, hp, hm⟩
  · rw [hm] at h
    simp only [Outcome.exit.injEq, true_and] at h
    exact ⟨node, rest, hp, h.1.symm, h.2.symm⟩
  · rw [hm] at h
    simp at h

theorem sigs_of_map_cons (t : Token) (r : Except Abort (List Token)) :
    sigs_of (r.map (fun ts => t :: ts)) = (sigs_of r).map (fun l => token_sig t :: l) := by
  cases r <;> rfl

/-- The tokens do not depend on the global `user_input`, only the offset in
the diagnostic does. -/
theorem scan_sigs_input (ui1 ui2 : List Char) :
    ∀ p, sigs_of (scan ui1 p) = sigs_of (scan ui2 p) := by
  intro p
  refine scan_induction ui1 (fun p r => sigs_of r = sigs_of (scan ui2 p)) ?_ ?_ ?_ ?_ ?_ p
  · rfl
  · intro c rest hc ih
    rw [scan_space ui2 c rest hc]
    exact ih
  · intro c rest hc ih
    rw [scan_sign ui2 c rest hc, sigs_of_map_cons, sigs_of_map_cons, ih]
  · intro c rest hc ih
    rw [scan_run ui2 c rest hc, sigs_of_map_cons, sigs_of_map_cons, ih]
  · intro c rest hs hp hm hd
    rw [scan_other ui2 c rest hs hp hm hd]
    rfl

theorem not_splits_nil (post : List Char) : ¬splits_number [] post := by
  rintro ⟨⟨a, ha, _⟩, _⟩
  simp at ha

theorem not_splits_cons (x y : Char) (pre post : List Char)
    (h : ¬splits_number (x :: y :: pre) post) : ¬splits_number (y :: pre) post := by
  intro hs
  apply h
  unfold splits_number at hs ⊢
  rw [List.getLast?_cons_cons]
  exact hs

theorem not_splits_dropWhile (post : List Char) :
    ∀ (pre : List Char) (x : Char), ¬splits_number (x :: pre) post →
      ¬splits_number (pre.dropWhile isdigit) post := by
  intro pre
  induction pre with
  | nil => intro x _; exact not_splits_nil post
  | cons y pre ih =>
    intro x h
    have h2 := not_splits_cons x y pre post h
    by_cases hy : isdigit y = true
    · rw [List.dropWhile_cons, if_pos hy]
      exact ih y h2
    · rw [List.dropWhile_cons, if_neg hy]
      exact h2

/-- A run of digits that ends before a character that is not a digit. -/
theorem run_before_stop (c : Char) (post : List Char) (hc : isdigit c = false) :
    ∀ pre : List Char,
      (pre ++ c :: post).takeWhile isdigit = pre.takeWhile isdigit ∧
      (pre ++ c :: post).dropWhile isdigit = pre.dropWhile isdigit ++ c :: post := by
  intro pre
  induction pre with
  | nil => simp [List.takeWhile_cons, List.dropWhile_cons, hc]
  | cons y pre ih =>
    by_cases hy : isdigit y = true
    · simp [List.takeWhile_cons, List.dropWhile_cons, hy, ih.1, ih.2]
    · simp [List.takeWhile_cons, List.dropWhile_cons, hy]

/-- A run of digits is not changed by what follows a place that is not
between two digits. -/
theorem run_before_gap (post : List Char) :
    ∀ (pre : List Char) (x : Char), isdigit x = true → ¬splits_number (x :: pre) post →
      (pre ++ post).takeWhile isdigit = pre.takeWhile isdigit ∧
      (pre ++ post).dropWhile isdigit = pre.dropWhile isdigit ++ post := by
  intro pre
  induction pre with
  | nil =>
    intro x hx h
    cases post with
    | nil => simp
    | cons b post =>
      have hb : isdigit b = false := by
        cases hb : isdigit b with
        | false => rfl
        | true => exact absurd ⟨⟨x, rfl, hx⟩, ⟨b, rfl, hb⟩⟩ h
      simp [List.takeWhile_cons, List.dropWhile_cons, hb]
  | cons y pre ih =>
    intro x _ h
    have h2 := not_splits_cons x y pre post h
    by_cases hy : isdigit y = true
    · obtain ⟨i1, i2⟩ := ih y hy h2
      simp [List.takeWhile_cons, List.dropWhile_cons, hy, i1, i2]
    · simp [List.takeWhile_cons, List.dropWhile_cons, hy]

/-- A whitespace character at a place that is not between two digits does
not change the signatures of the tokens. -/
theorem scan_skip_space (ui1 ui2 : List Char) (c : Char) (post : List Char)
    (hc : isspace c = true) :
    ∀ (n : Nat) (pre : List Char), pre.length ≤ n → ¬splits_number pre post →
      sigs_of (scan ui1 (pre ++ c :: post)) = sigs_of (scan ui2 (pre ++ post)) := by
  have hcd : isdigit c = false := isspace_not_isdigit hc
  intro n
  induction n with
  | zero =>
    intro pre hlen _
    have : pre = [] := List.eq_nil_of_length_eq_zero (by omega)
    subst this
    rw [List.nil_append, List.nil_append, scan_space ui1 c post hc]
    exact scan_sigs_input ui1 ui2 post
  | succ n ih =>
    intro pre hlen hgap
    cases pre with
    | nil =>
      rw [List.nil_append, List.nil_append, scan_space ui1 c post hc]
      exact scan_sigs_input ui1 ui2 post
    | cons x pre =>
      simp only [List.length_cons, Nat.add_le_add_iff_right] at hlen
      have hgap1 : ¬splits_number pre post := by
        cases pre with
        | nil => exact not_splits_nil post
        | cons y pre => exact not_splits_cons x y pre post hgap
      rw [List.cons_append, List.cons_append]
      by_cases hxs : isspace x = true
      · rw [scan_space ui1 x _ hxs, scan_space ui2 x _ hxs]
        exact ih pre hlen hgap1
      · by_cases hxo : x = '+' ∨ x = '-'
        · rw [scan_sign ui1 x _ hxo, scan_sign ui2 x _ hxo, sigs_of_map_cons,
            sigs_of_map_cons, ih pre hlen hgap1]
          rfl
        · by_cases hxd : isdigit x = true
          · obtain ⟨a1, a2⟩ := run_before_stop c post hcd pre
            obtain ⟨b1, b2⟩ := run_before_gap post pre x hxd hgap
            have hl : (pre.dropWhile isdigit).length ≤ pre.length :=
              (List.dropWhile_sublist _).length_le
            rw [scan_run ui1 x _ hxd, scan_run ui2 x _ hxd, sigs_of_map_cons,
              sigs_of_map_cons, a1, a2, b1, b2,
              ih (pre.dropWhile isdigit) (by omega) (not_splits_dropWhile post pre x hgap)]
            rfl
          · have hs : isspace x = false := by simpa using hxs
            have hd : isdigit x = false := by simpa using hxd
            rw [scan_other ui1 x _ hs (fun h => hxo (Or.inl h)) (fun h => hxo (Or.inr h)) hd,
              scan_other ui2 x _ hs (fun h => hxo (Or.inl h)) (fun h => hxo (Or.inr h)) hd]
            rfl

/-- Inserting a whitespace character at a place that is not between two
digits does not change the signatures of the tokens of `tokenize`. -/
theorem tokenize_skip_space (pre post : List Char) (c : Char) (hc : isspace c = true)
    (hgap : ¬splits_number pre post) :
    sigs_of (tokenize (pre ++ c :: post)) = sigs_of (tokenize (pre ++ post)) :=
  scan_skip_space _ _ c post hc pre.length pre (Nat.le_refl _) hgap

/-- Texts related by whitespace have tokens with the same signatures. -/
theorem ws_related_sigs (a b : List Char) (h : ws_related a b) :
    sigs_of (tokenize a) = sigs_of (tokenize b) := by
  induction h with
  | refl s => rfl
  | insert pre post c hc hgap => exact (tokenize_skip_space pre post c hc hgap).symm
  | delete pre post c hc hgap => exact tokenize_skip_space pre post c hc hgap
  | trans a b c _ _ ih1 ih2 => exact ih1.trans ih2

/-! ## The parser reads only signatures, and nothing after the expression -/

theorem token_sig_eq {a b : Token} (h : token_sig a = token_sig b) :
    a.kind = b.kind ∧ (a.kind = .TK_RESERVED → deref a.str = deref b.str) ∧ a.val = b.val := by
  simp only [token_sig, Prod.mk.injEq] at h
  obtain ⟨hk, hc, hv⟩ := h
  refine ⟨hk, ?_, hv⟩
  intro hr
  rw [← hk] at hc
  simpa [hr] using hc

/-- Tokens with the same signature pass the same test of `consume` and
`expect`. -/
theorem token_sig_test {a b : Token} (h : token_sig a = token_sig b) (op : Char) :
    (a.kind = .TK_RESERVED ∧ deref a.str = op) ↔ (b.kind = .TK_RESERVED ∧ deref b.str = op) := by
  obtain ⟨hk, hd, _⟩ := token_sig_eq h
  constructor
  · rintro ⟨h1, h2⟩
    exact ⟨hk ▸ h1, (hd h1) ▸ h2⟩
  · rintro ⟨h1, h2⟩
    have h3 : a.kind = .TK_RESERVED := hk.symm ▸ h1
    exact ⟨h3, (hd h3).symm ▸ h2⟩

theorem map_sig_cons {a : Token} {A1 A2 : List Token}
    (h : (a :: A1).map token_sig = A2.map token_sig) :
    ∃ a2 A12, A2 = a2 :: A12 ∧ token_sig a = token_sig a2 ∧
      A1.map token_sig = A12.map token_sig := by
  cases A2 with
  | nil => simp at h
  | cons a2 A12 =>
    simp only [List.map_cons, List.cons.injEq] at h
    exact ⟨a2, A12, rfl, h.1, h.2⟩

theorem map_sig_nil {A2 : List Token} (h : ([] : List Token).map token_sig = A2.map token_sig) :
    A2 = [] := by
  cases A2 with
  | nil => rfl
  | cons a2 A12 => simp at h

/-- The function `consume` on two token lists with the same signatures up
to the end of the first, where the second goes on with a token `consume`
does not take. -/
theorem consume_sim (ea t : Token) (T : List Token) (hea : ea.kind = .TK_EOF) (op : Char)
    (A A2 : List Token) (hsig : A.map token_sig = A2.map token_sig)
    (hop : A ≠ [] ∨ ¬(t.kind = .TK_RESERVED ∧ deref t.str = op)) :
    (consume op (A ++ [ea]) = .ok (false, A ++ [ea]) ∧
        consume op (A2 ++ t :: T) = .ok (false, A2 ++ t :: T)) ∨
      ∃ a A1 a2 A12, A = a :: A1 ∧ A2 = a2 :: A12 ∧ A1.map token_sig = A12.map token_sig ∧
        consume op (A ++ [ea]) = .ok (true, A1 ++ [ea]) ∧
        consume op (A2 ++ t :: T) = .ok (true, A12 ++ t :: T) := by
  cases A with
  | nil =>
    have hA2 := map_sig_nil hsig
    subst hA2
    rcases hop with h | h
    · exact absurd rfl h
    · left
      simp only [List.nil_append, consume_cons, hea, h, if_false]
      simp
  | cons a A1 =>
    obtain ⟨a2, A12, rfl, hs, hs1⟩ := map_sig_cons hsig
    have htest := token_sig_test hs op
    by_cases hc : a.kind = .TK_RESERVED ∧ deref a.str = op
    · right
      refine ⟨a, A1, a2, A12, rfl, rfl, hs1, ?_, ?_⟩
      · simp only [List.cons_append, consume_cons, hc, and_self, if_true]
      · have hc2 : a2.kind = .TK_RESERVED ∧ deref a2.str = op := htest.mp hc
        simp only [List.cons_append, consume_cons, hc2, and_self, if_true]
    · left
      have hc2 : ¬(a2.kind = .TK_RESERVED ∧ deref a2.str = op) := fun h => hc (htest.mpr h)
      simp only [List.cons_append, consume_cons, hc, hc2, if_false, and_self]

/-- The function `expect`, when it returns, on two token lists with the same
signatures up to the end of the first. -/
theorem expect_sim (ui ui2 : List Char) (ea t : Token) (T : List Token)
    (hea : ea.kind = .TK_EOF) (op : Char) (A A2 : List Token)
    (hsig : A.map token_sig = A2.map token_sig) (R : List Token)
    (h : expect ui op (A ++ [ea]) = .ok R) :
    ∃ a A1 a2 A12, A = a :: A1 ∧ A2 = a2 :: A12 ∧ A1.map token_sig = A12.map token_sig ∧
      R = A1 ++ [ea] ∧ expect ui2 op (A2 ++ t :: T) = .ok (A12 ++ t :: T) := by
  cases A with
  | nil =>
    simp [expect_cons, hea] at h
  | cons a A1 =>
    obtain ⟨a2, A12, rfl, hs, hs1⟩ := map_sig_cons hsig
    have htest := token_sig_test hs op
    by_cases hc : a.kind = .TK_RESERVED ∧ deref a.str = op
    · have hc2 : a2.kind = .TK_RESERVED ∧ deref a2.str = op := htest.mp hc
      simp only [List.cons_append, expect_cons, hc, and_self, if_true, Except.ok.injEq] at h
      refine ⟨a, A1, a2, A12, rfl, rfl, hs1, h.symm, ?_⟩
      simp only [List.cons_append, expect_cons, hc2, and_self, if_true]
    · simp only [List.cons_append, expect_cons, hc, if_false] at h
      cases h

/-- The function `expect_number`, when it returns, on two token lists with
the same signatures up to the end of the first. -/
theorem expect_number_sim (ui ui2 : List Char) (ea t : Token) (T : List Token)
    (hea : ea.kind = .TK_EOF) (A A2 : List Token)
    (hsig : A.map token_sig = A2.map token_sig) (val : Int) (R : List Token)
    (h : expect_number ui (A ++ [ea]) = .ok (val, R)) :
    ∃ a A1 a2 A12, A = a :: A1 ∧ A2 = a2 :: A12 ∧ A1.map token_sig = A12.map token_sig ∧
      R = A1 ++ [ea] ∧ expect_number ui2 (A2 ++ t :: T) = .ok (val, A12 ++ t :: T) := by
  cases A with
  | nil =>
    simp [expect_number_cons, hea] at h
  | cons a A1 =>
    obtain ⟨a2, A12, rfl, hs, hs1⟩ := map_sig_cons hsig
    obtain ⟨hk, _, hv⟩ := token_sig_eq hs
    by_cases hc : a.kind = .TK_NUM
    · have hc2 : a2.kind = .TK_NUM := by rw [← hk]; exact hc
      simp only [List.cons_append, expect_number_cons, hc, if_true, Except.ok.injEq,
        Prod.mk.injEq] at h
      refine ⟨a, A1, a2, A12, rfl, rfl, hs1, h.2.symm, ?_⟩
      simp only [List.cons_append, expect_number_cons, hc2, if_true, ← hv, h.1]
    · simp only [List.cons_append, expect_number_cons, hc, if_false] at h
      cases h

/-- A successful run of a parsing function on `A ++ [ea]` is repeated, with
the same node, on every token list that has the signatures of `A` and then
goes on with a token that continues no loop of the parser. -/
theorem parser_sim (ui ui2 : List Char) (ea t : Token) (T : List Token)
    (hea : ea.kind = .TK_EOF) (ht : ¬continues t) : ∀ fuel : Nat,
    (∀ A A2 node R, A.map token_sig = A2.map token_sig →
      primary_fuel ui fuel (A ++ [ea]) = .ok (node, R) →
      ∃ B B2, R = B ++ [ea] ∧ B.map token_sig = B2.map token_sig ∧
        primary_fuel ui2 fuel (A2 ++ t :: T) = .ok (node, B2 ++ t :: T)) ∧
    (∀ A A2 node R, A.map token_sig = A2.map token_sig →
      mul_fuel ui fuel (A ++ [ea]) = .ok (node, R) →
      ∃ B B2, R = B ++ [ea] ∧ B.map token_sig = B2.map token_sig ∧
        mul_fuel ui2 fuel (A2 ++ t :: T) = .ok (node, B2 ++ t :: T)) ∧
    (∀ node0 A A2 node R, A.map token_sig = A2.map token_sig →
      mul_loop ui fuel node0 (A ++ [ea]) = .ok (node, R) →
      ∃ B B2, R = B ++ [ea] ∧ B.map token_sig = B2.map token_sig ∧
        mul_loop ui2 fuel node0 (A2 ++ t :: T) = .ok (node, B2 ++ t :: T)) ∧
    (∀ A A2 node R, A.map token_sig = A2.map token_sig →
      expr_fuel ui fuel (A ++ [ea]) = .ok (node, R) →
      ∃ B B2, R = B ++ [ea] ∧ B.map token_sig = B2.map token_sig ∧
        expr_fuel ui2 fuel (A2 ++ t :: T) = .ok (node, B2 ++ t :: T)) ∧
    (∀ node0 A A2 node R, A.map token_sig = A2.map token_sig →
      expr_loop ui fuel node0 (A ++ [ea]) = .ok (node, R) →
      ∃ B B2, R = B ++ [ea] ∧ B.map token_sig = B2.map token_sig ∧
        expr_loop ui2 fuel node0 (A2 ++ t :: T) = .ok (node, B2 ++ t :: T)) := by
  have hplus : ¬(t.kind = .TK_RESERVED ∧ deref t.str = '+') :=
    fun h => ht ⟨h.1, Or.inl h.2⟩
  have hminus : ¬(t.kind = .TK_RESERVED ∧ deref t.str = '-') :=
    fun h => ht ⟨h.1, Or.inr (Or.inl h.2)⟩
  have hstar : ¬(t.kind = .TK_RESERVED ∧ deref t.str = '*') :=
    fun h => ht ⟨h.1, Or.inr (Or.inr (Or.inl h.2))⟩
  have hslash : ¬(t.kind = .TK_RESERVED ∧ deref t.str = '/') :=
    fun h => ht ⟨h.1, Or.inr (Or.inr (Or.inr h.2))⟩
  intro fuel
  induction fuel with
  | zero =>
    refine ⟨?_, ?_, ?_, ?_, ?_⟩
    · intro A A2 node R _ h
      simp [primary_fuel] at h
    · intro A A2 node R _ h
      simp [mul_fuel] at h
    · intro node0 A A2 node R _ h
      simp [mul_loop] at h
    · intro A A2 node R _ h
      simp [expr_fuel] at h
    · intro node0 A A2 node R _ h
      simp [expr_loop] at h
  | succ fuel ih =>
    obtain ⟨ihp, ihm, ihml, ihe, ihel⟩ := ih
    refine ⟨?_, ?_, ?_, ?_, ?_⟩
    · intro A A2 node R hsig h
      rw [primary_fuel] at h
      by_cases hnil : A = []
      · subst hnil
        simp [consume_cons, expect_number_cons, hea] at h
      · rcases consume_sim ea t T hea '(' A A2 hsig (Or.inl hnil) with
          ⟨c1, c2⟩ | ⟨a', A1', a2, A12, hA, hA2, hs1, c1, c2⟩
        · simp only [c1] at h
          cases hn : expect_number ui (A ++ [ea]) with
          | error e => simp [hn] at h
          | ok vr =>
            obtain ⟨v, R1⟩ := vr
            simp only [hn, Except.ok.injEq, Prod.mk.injEq] at h
            obtain ⟨b, B1, b2, B12, _, hB2, hsb, hR1, n2⟩ :=
              expect_number_sim ui ui2 ea t T hea A A2 hsig v R1 hn
            refine ⟨B1, B12, by rw [← h.2, hR1], hsb, ?_⟩
            simp only [primary_fuel, c2, n2, h.1]
        · simp only [c1] at h
          cases he : expr_fuel ui fuel (A1' ++ [ea]) with
          | error e => simp [he] at h
          | ok nr =>
            obtain ⟨n, R1⟩ := nr
            simp only [he] at h
            obtain ⟨B, B2, hR1, hsB, e2⟩ := ihe A1' A12 n R1 hs1 he
            subst hR1
            cases hx : expect ui ')' (B ++ [ea]) with
            | error e => simp [hx] at h
            | ok R2 =>
              simp only [hx, Except.ok.injEq, Prod.mk.injEq] at h
              obtain ⟨b, B1, b2, B12, _, hB2, hsb, hR2, x2⟩ :=
                expect_sim ui ui2 ea t T hea ')' B B2 hsB R2 hx
              refine ⟨B1, B12, by rw [← h.2, hR2], hsb, ?_⟩
              simp only [primary_fuel, c2, e2, x2, h.1]
    · intro A A2 node R hsig h
      rw [mul_fuel] at h
      cases hp : primary_fuel ui fuel (A ++ [ea]) with
      | error e => simp [hp] at h
      | ok nr =>
        obtain ⟨n, R1⟩ := nr
        simp only [hp] at h
        obtain ⟨B, B2, hR1, hsB, p2⟩ := ihp A A2 n R1 hsig hp
        subst hR1
        obtain ⟨C, C2, hR, hsC, l2⟩ := ihml n B B2 node R hsB h
        exact ⟨C, C2, hR, hsC, by simp only [mul_fuel, p2, l2]⟩
    · intro node0 A A2 node R hsig h
      rw [mul_loop] at h
      rcases consume_sim ea t T hea '*' A A2 hsig (Or.inr hstar) with
        ⟨c1, c2⟩ | ⟨a', A1', a2, A12, hA, hA2, hs1, c1, c2⟩
      · simp only [c1] at h
        rcases consume_sim ea t T hea '/' A A2 hsig (Or.inr hslash) with
          ⟨d1, d2⟩ | ⟨a', A1', a2, A12, hA, hA2, hs1, d1, d2⟩
        · simp only [d1, Except.ok.injEq, Prod.mk.injEq] at h
          exact ⟨A, A2, h.2.symm, hsig, by simp only [mul_loop, c2, d2, h.1]⟩
        · simp only [d1] at h
          cases hp : primary_fuel ui fuel (A1' ++ [ea]) with
          | error e => simp [hp] at h
          | ok nr =>
            obtain ⟨n, R1⟩ := nr
            simp only [hp] at h
            obtain ⟨B, B2, hR1, hsB, p2⟩ := ihp A1' A12 n R1 hs1 hp
            subst hR1
            obtain ⟨C, C2, hR, hsC, l2⟩ := ihml _ B B2 node R hsB h
            exact ⟨C, C2, hR, hsC, by simp only [mul_loop, c2, d2, p2, l2]⟩
      · simp only [c1] at h
        cases hp : primary_fuel ui fuel (A1' ++ [ea]) with
        | error e => simp [hp] at h
        | ok nr =>
          obtain ⟨n, R1⟩ := nr
          simp only [hp] at h
          obtain ⟨B, B2, hR1, hsB, p2⟩ := ihp A1' A12 n R1 hs1 hp
          subst hR1
          obtain ⟨C, C2, hR, hsC, l2⟩ := ihml _ B B2 node R hsB h
          exact ⟨C, C2, hR, hsC, by simp only [mul_loop, c2, p2, l2]⟩
    · intro A A2 node R hsig h
      rw [expr_fuel] at h
      cases hp : mul_fuel ui fuel (A ++ [ea]) with
      | error e => simp [hp] at h
      | ok nr =>
        obtain ⟨n, R1⟩ := nr
        simp only [hp] at h
        obtain ⟨B, B2, hR1, hsB, p2⟩ := ihm A A2 n R1 hsig hp
        subst hR1
        obtain ⟨C, C2, hR, hsC, l2⟩ := ihel n B B2 node R hsB h
        exact ⟨C, C2, hR, hsC, by simp only [expr_fuel, p2, l2]⟩
    · intro node0 A A2 node R hsig h
      rw [expr_loop] at h
      rcases consume_sim ea t T hea '+' A A2 hsig (Or.inr hplus) with
        ⟨c1, c2⟩ | ⟨a', A1', a2, A12, hA, hA2, hs1, c1, c2⟩
      · simp only [c1] at h
        rcases consume_sim ea t T hea '-' A A2 hsig (Or.inr hminus) with
          ⟨d1, d2⟩ | ⟨a', A1', a2, A12, hA, hA2, hs1, d1, d2⟩
        · simp only [d1, Except.ok.injEq, Prod.mk.injEq] at h
          exact ⟨A, A2, h.2.symm, hsig, by simp only [expr_loop, c2, d2, h.1]⟩
        · simp only [d1] at h
          cases hp : mul_fuel ui fuel (A1' ++ [ea]) with
          | error e => simp [hp] at h
          | ok nr =>
            obtain ⟨n, R1⟩ := nr
            simp only [hp] at h
            obtain ⟨B, B2, hR1, hsB, p2⟩ := ihm A1' A12 n R1 hs1 hp
            subst hR1
            obtain ⟨C, C2, hR, hsC, l2⟩ := ihel _ B B2 node R hsB h
            exact ⟨C, C2, hR, hsC, by simp only [expr_loop, c2, d2, p2, l2]⟩
      · simp only [c1] at h
        cases hp : mul_fuel ui fuel (A1' ++ [ea]) with
        | error e => simp [hp] at h
        | ok nr =>
          obtain ⟨n, R1⟩ := nr
          simp only [hp] at h
          obtain ⟨B, B2, hR1, hsB, p2⟩ := ihm A1' A12 n R1 hs1 hp
          subst hR1
          obtain ⟨C, C2, hR, hsC, l2⟩ := ihel _ B B2 node R hsB h
          exact ⟨C, C2, hR, hsC, by simp only [expr_loop, c2, p2, l2]⟩

/-- The function `expr` returns the same node on a token list with the same
signatures that goes on, after the expression, with a token that continues
no loop. -/
theorem expr_sim (ui ui2 : List Char) (ea t : Token) (T : List Token)
    (hea : ea.kind = .TK_EOF) (ht : ¬continues t) (A A2 : List Token) (node : Node)
    (R : List Token) (hsig : A.map token_sig = A2.map token_sig)
    (h : expr ui (A ++ [ea]) = .ok (node, R)) :
    ∃ B B2, R = B ++ [ea] ∧ B.map token_sig = B2.map token_sig ∧
      expr ui2 (A2 ++ t :: T) = .ok (node, B2 ++ t :: T) := by
  obtain ⟨B, B2, hR, hs, h2⟩ :=
    (parser_sim ui ui2 ea t T hea ht (parse_fuel (A ++ [ea]))).2.2.2.1 A A2 node R hsig h
  exact ⟨B, B2, hR, hs, expr_of_fuel ui2 h2⟩

theorem not_continues_eof (t : Token) (h : t.kind = .TK_EOF) : ¬continues t := by
  rintro ⟨hk, _⟩
  rw [h] at hk
  cases hk

theorem map_sig_append_eof {A A2 : List Token} {e1 e2 : Token}
    (h : (A ++ [e1]).map token_sig = (A2 ++ [e2]).map token_sig) :
    A.map token_sig = A2.map token_sig := by
  simp only [List.map_append, List.map_cons, List.map_nil] at h
  have hl : (A.map token_sig).length = (A2.map token_sig).length := by
    have := congrArg List.length h
    simp only [List.length_append, List.length_cons, List.length_nil] at this
    omega
  exact (List.append_inj h hl).1

/-- Token lists of `tokenize` with the same signatures parse to the same
node, or both fail to parse. -/
theorem node_of_expr_sigs (ui1 ui2 : List Char) (A A2 : List Token)
    (hsig : (A ++ [(⟨.TK_EOF, 0, []⟩ : Token)]).map token_sig =
      (A2 ++ [(⟨.TK_EOF, 0, []⟩ : Token)]).map token_sig) :
    node_of (expr ui1 (A ++ [⟨.TK_EOF, 0, []⟩])) =
      node_of (expr ui2 (A2 ++ [⟨.TK_EOF, 0, []⟩])) := by
  have hs := map_sig_append_eof hsig
  have hne := not_continues_eof ⟨.TK_EOF, 0, []⟩ rfl
  cases h1 : expr ui1 (A ++ [⟨.TK_EOF, 0, []⟩]) with
  | ok nr =>
    obtain ⟨n, R⟩ := nr
    obtain ⟨B, B2, _, _, h2⟩ := expr_sim ui1 ui2 ⟨.TK_EOF, 0, []⟩ ⟨.TK_EOF, 0, []⟩ [] rfl hne
      A A2 n R hs h1
    rw [h2]
    rfl
  | error e =>
    cases h2 : expr ui2 (A2 ++ [⟨.TK_EOF, 0, []⟩]) with
    | error e2 => rfl
    | ok nr =>
      obtain ⟨n, R⟩ := nr
      obtain ⟨B, B2, _, _, h3⟩ := expr_sim ui2 ui1 ⟨.TK_EOF, 0, []⟩ ⟨.TK_EOF, 0, []⟩ [] rfl hne
        A2 A n R hs.symm h2
      rw [h3] at h1
      cases h1

/-- Inputs whose tokens have the same signatures parse to the same node, or
both fail. -/
theorem node_of_parse_sigs (a b : List Char)
    (h : sigs_of (tokenize a) = sigs_of (tokenize b)) :
    node_of (parse a) = node_of (parse b) := by
  unfold parse
  cases ha : tokenize a with
  | error e1 =>
    cases hb : tokenize b with
    | error e2 => rfl
    | ok ts2 =>
      rw [ha, hb] at h
      cases h
  | ok ts1 =>
    cases hb : tokenize b with
    | error e2 =>
      rw [ha, hb] at h
      cases h
    | ok ts2 =>
      rw [ha, hb] at h
      simp only [sigs_of, Option.some.injEq] at h
      obtain ⟨A, rfl⟩ := tokenize_ends_eof a ts1 ha
      obtain ⟨A2, rfl⟩ := tokenize_ends_eof b ts2 hb
      exact node_of_expr_sigs a b A A2 h

/-! ## Claims C13, C14, C17 -/

/-- C14: for texts obtained from one another by inserting or deleting
whitespace characters at places that are not between two decimal digits,
`tokenize` succeeds on both or on neither, the tokens have the same kinds,
operator characters and values, and `expr` returns the same node on both
or fails on both. -/
theorem whitespace_insensitive (a b : List Char) (h : ws_related a b) :
    sigs_of (tokenize a) = sigs_of (tokenize b) ∧ node_of (parse a) = node_of (parse b) :=
  ⟨ws_related_sigs a b h, node_of_parse_sigs a b (ws_related_sigs a b h)⟩

theorem whitespace_insensitive_witness :
    ws_related "1+2".toList "1 + 2".toList ∧
    parse "1+2".toList = .ok (.ND_ADD (.ND_NUM 1) (.ND_NUM 2), [⟨.TK_EOF, 0, []⟩]) ∧
    parse "1 + 2".toList = .ok (.ND_ADD (.ND_NUM 1) (.ND_NUM 2), [⟨.TK_EOF, 0, []⟩]) ∧
    sigs_of (tokenize "1+2".toList) = sigs_of (tokenize "1 + 2".toList) ∧
    node_of (parse "1+2".toList) = node_of (parse "1 + 2".toList) :=
  have hrel : ws_related "1+2".toList "1 + 2".toList :=
    ws_related.trans _ "1 +2".toList _
      (ws_related.insert "1".toList "+2".toList ' ' (by decide)
        (by rintro ⟨_, b, hb, hd⟩; simp at hb; subst hb; revert hd; decide))
      (ws_related.insert "1 +".toList "2".toList ' ' (by decide)
        (by rintro ⟨⟨a, ha, hd⟩, _⟩; simp at ha; subst ha; revert hd; decide))
  ⟨hrel, rfl, rfl, whitespace_insensitive _ _ hrel⟩

/-- C17: `main` does not look at the token `expr` stops on. When the tokens
of an input are those of a complete expression, up to their offsets,
followed by a token that is not one of `+ - * /`, `expr` returns the node
of that expression with `token` on the first token after it, and `main`
prints the same assembly as for the expression alone. -/
theorem trailing_tokens_ignored (prog ui ui1 : List Char) (A A2 T : List Token)
    (ea t : Token) (node : Node) (hea : ea.kind = .TK_EOF)
    (h1 : tokenize ui1 = .ok (A ++ [ea])) (hp : expr ui1 (A ++ [ea]) = .ok (node, [ea]))
    (h2 : tokenize ui = .ok (A2 ++ t :: T)) (hsig : A.map token_sig = A2.map token_sig)
    (ht : ¬continues t) :
    expr ui (A2 ++ t :: T) = .ok (node, t :: T) ∧
    main [prog, ui] = .exit 0 (assembly node) [] ∧
    main [prog, ui] = main [prog, ui1] := by
  obtain ⟨B, B2, hB, hs, he⟩ := expr_sim ui1 ui ea t T hea ht A A2 node [ea] hsig hp
  have hBnil : B = [] := by
    have := congrArg List.length hB
    simp only [List.length_cons, List.length_nil, List.length_append] at this
    exact List.eq_nil_of_length_eq_zero (by omega)
  subst hBnil
  have hB2 : B2 = [] := map_sig_nil hs
  subst hB2
  rw [List.nil_append] at he
  have hm : main [prog, ui] = .exit 0 (assembly node) [] :=
    main_of_parse prog ui node (t :: T) (by simp only [parse, h2, he])
  have hm1 : main [prog, ui1] = .exit 0 (assembly node) [] :=
    main_of_parse prog ui1 node [ea] (by simp only [parse, h1, hp])
  exact ⟨he, hm, by rw [hm, hm1]⟩

theorem trailing_tokens_ignored_witness :
    main ["9cc".toList, "1 2".toList] =
      .exit 0 [".intel_syntax noprefix", ".globl main", "main:", "  push 1", "  pop rax",
        "  ret"] [] ∧
    (expr "1 2".toList ([⟨.TK_NUM, 1, "1 2".toList⟩] ++ ⟨.TK_NUM, 2, "2".toList⟩ ::
        [⟨.TK_EOF, 0, []⟩]) =
      .ok (.ND_NUM 1, ⟨.TK_NUM, 2, "2".toList⟩ :: [⟨.TK_EOF, 0, []⟩]) ∧
    main ["9cc".toList, "1 2".toList] = .exit 0 (assembly (.ND_NUM 1)) [] ∧
    main ["9cc".toList, "1 2".toList] = main ["9cc".toList, "1".toList]) :=
  ⟨by decide,
    trailing_tokens_ignored "9cc".toList "1 2".toList "1".toList [⟨.TK_NUM, 1, "1".toList⟩]
      [⟨.TK_NUM, 1, "1 2".toList⟩] [⟨.TK_EOF, 0, []⟩] ⟨.TK_EOF, 0, []⟩ ⟨.TK_NUM, 2, "2".toList⟩
      (.ND_NUM 1) rfl rfl rfl rfl rfl (by decide)⟩

/-! ## The lines of the assembly text -/

theorem push_line_ok (val : Int) : is_instr_line ("  push " ++ toString val) := by
  refine ⟨"push", by decide, ' ' :: (toString val).data, ?_, Or.inr rfl, ?_⟩
  · rw [String.data_append]
    rfl
  · rw [String.data_append]
    simp

theorem fixed_line_ok (m : String) (args : List Char) (hm : m ∈ mnemonics)
    (ha : args = [] ∨ args.head? = some ' ')
    (h2 : (' ' :: ' ' :: (m.data ++ args)).get? 2 ≠ some ' ') :
    is_instr_line (String.mk (' ' :: ' ' :: (m.data ++ args))) :=
  ⟨m, hm, args, rfl, ha, h2⟩

theorem gen_lines_ok : ∀ (node : Node) (line : String), line ∈ gen node → is_instr_line line := by
  have hpop_rdi : is_instr_line "  pop rdi" :=
    fixed_line_ok "pop" " rdi".data (by decide) (Or.inr rfl) (by decide)
  have hpop_rax : is_instr_line "  pop rax" :=
    fixed_line_ok "pop" " rax".data (by decide) (Or.inr rfl) (by decide)
  have hpush_rax : is_instr_line "  push rax" :=
    fixed_line_ok "push" " rax".data (by decide) (Or.inr rfl) (by decide)
  have hadd : is_instr_line "  add rax, rdi" :=
    fixed_line_ok "add" " rax, rdi".data (by decide) (Or.inr rfl) (by decide)
  have hsub : is_instr_line "  sub rax, rdi" :=
    fixed_line_ok "sub" " rax, rdi".data (by decide) (Or.inr rfl) (by decide)
  have himul : is_instr_line "  imul rax, rdi" :=
    fixed_line_ok "imul" " rax, rdi".data (by decide) (Or.inr rfl) (by decide)
  have hcqo : is_instr_line "  cqo" :=
    fixed_line_ok "cqo" [] (by decide) (Or.inl rfl) (by decide)
  have hidiv : is_instr_line "  idiv rdi" :=
    fixed_line_ok "idiv" " rdi".data (by decide) (Or.inr rfl) (by decide)
  intro node
  induction node with
  | ND_NUM val =>
    intro line h
    simp only [gen, List.mem_singleton] at h
    subst h
    exact push_line_ok val
  | ND_ADD lhs rhs ihl ihr =>
    intro line h
    simp only [gen, List.mem_append, List.mem_cons, List.mem_singleton, List.not_mem_nil,
      or_false] at h
    rcases h with (((h | h) | (h | h)) | h) | h
    · exact ihl line h
    · exact ihr line h
    · subst h; exact hpop_rdi
    · subst h; exact hpop_rax
    · subst h; exact hadd
    · subst h; exact hpush_rax
  | ND_SUB lhs rhs ihl ihr =>
    intro line h
    simp only [gen, List.mem_append, List.mem_cons, List.mem_singleton, List.not_mem_nil,
      or_false] at h
    rcases h with (((h | h) | (h | h)) | h) | h
    · exact ihl line h
    · exact ihr line h
    · subst h; exact hpop_rdi
    · subst h; exact hpop_rax
    · subst h; exact hsub
    · subst h; exact hpush_rax
  | ND_MUL lhs rhs ihl ihr =>
    intro line h
    simp only [gen, List.mem_append, List.mem_cons, List.mem_singleton, List.not_mem_nil,
      or_false] at h
    rcases h with (((h | h) | (h | h)) | h) | h
    · exact ihl line h
    · exact ihr line h
    · subst h; exact hpop_rdi
    · subst h; exact hpop_rax
    · subst h; exact himul
    · subst h; exact hpush_rax
  | ND_DIV lhs rhs ihl ihr =>
    intro line h
    simp only [gen, List.mem_append, List.mem_cons, List.mem_singleton, List.not_mem_nil,
      or_false] at h
    rcases h with (((h | h) | (h | h)) | (h | h)) | h
    · exact ihl line h
    · exact ihr line h
    · subst h; exact hpop_rdi
    · subst h; exact hpop_rax
    · subst h; exact hcqo
    · subst h; exact hidiv
    · subst h; exact hpush_rax

/-- C16: when `main` exits with status 0, tokenizing and parsing have
succeeded and the text on stdout is the two header lines, the label, the
lines of `gen` for the parsed node, `pop rax` and `ret`; every line after
the label is two blanks, one of the mnemonics push, pop, add, sub, imul,
cqo, idiv, ret, and then nothing or a blank and operands. -/
theorem emitted_text (prog user_input : List Char) (out err : List String)
    (h : main [prog, user_input] = .exit 0 out err) :
    ∃ node rest, parse user_input = .ok (node, rest) ∧
      out = [".intel_syntax noprefix", ".globl main", "main:"] ++ gen node ++
        ["  pop rax", "  ret"] ∧
      err = [] ∧
      ∀ line ∈ gen node ++ ["  pop rax", "  ret"], is_instr_line line := by
  obtain ⟨node, rest, hp, ho, he⟩ := parse_of_main prog user_input out err h
  refine ⟨node, rest, hp, ho, he, ?_⟩
  intro line hl
  simp only [List.mem_append, List.mem_cons, List.mem_singleton, List.not_mem_nil,
    or_false] at hl
  rcases hl with hl | hl | hl
  · exact gen_lines_ok node line hl
  · subst hl
    exact fixed_line_ok "pop" " rax".data (by decide) (Or.inr rfl) (by decide)
  · subst hl
    exact fixed_line_ok "ret" [] (by decide) (Or.inl rfl) (by decide)

theorem emitted_text_witness :
    main ["9cc".toList, "1+2".toList] =
      .exit 0
        [".intel_syntax noprefix", ".globl main", "main:", "  push 1", "  push 2", "  pop rdi",
          "  pop rax", "  add rax, rdi", "  push rax", "  pop rax", "  ret"] [] ∧
    ∃ node rest, parse "1+2".toList = .ok (node, rest) ∧
      [".intel_syntax noprefix", ".globl main", "main:", "  push 1", "  push 2", "  pop rdi",
          "  pop rax", "  add rax, rdi", "  push rax", "  pop rax", "  ret"] =
        [".intel_syntax noprefix", ".globl main", "main:"] ++ gen node ++
          ["  pop rax", "  ret"] ∧
      ([] : List String) = [] ∧
      ∀ line ∈ gen node ++ ["  pop rax", "  ret"], is_instr_line line :=
  ⟨by decide, emitted_text "9cc".toList "1+2".toList _ _ (by decide)⟩

/-! ## Parsing the canonical tokens of a tree -/

theorem consume_op_token (op c : Char) (rest : List Token) :
    consume op (op_token c :: rest) =
      if c = op then .ok (true, rest) else .ok (false, op_token c :: rest) := by
  simp [consume_cons, op_token, deref]

theorem primary_num_token (ui : List Char) (val : Int) (rest : List Token) :
    primary_fuel ui 1 (num_token val :: rest) = .ok (.ND_NUM val, rest) := by
  simp [primary_fuel, consume_cons, expect_number_cons, num_token]

theorem expect_op_token (ui : List Char) (op : Char) (rest : List Token) :
    expect ui op (op_token op :: rest) = .ok rest := by
  simp [expect_cons, op_token, deref]

theorem primary_paren (ui : List Char) (f : Nat) (toks rest : List Token) (n : Node)
    (h : expr_fuel ui f toks = .ok (n, op_token ')' :: rest)) :
    primary_fuel ui (f + 1) (op_token '(' :: toks) = .ok (n, rest) := by
  simp only [primary_fuel, consume_op_token, if_true, h, expect_op_token]

theorem mul_of_parts (ui : List Char) (f1 f2 : Nat) (toks r1 : List Token) (n : Node)
    (res : Node × List Token) (h1 : primary_fuel ui f1 toks = .ok (n, r1))
    (h2 : mul_loop ui f2 n r1 = .ok res) :
    mul_fuel ui (max f1 f2 + 1) toks = .ok res := by
  simp only [mul_fuel, primary_fuel_le ui (Nat.le_max_left f1 f2) h1,
    mul_loop_le ui (Nat.le_max_right f1 f2) h2]

theorem expr_of_parts (ui : List Char) (f1 f2 : Nat) (toks r1 : List Token) (n : Node)
    (res : Node × List Token) (h1 : mul_fuel ui f1 toks = .ok (n, r1))
    (h2 : expr_loop ui f2 n r1 = .ok res) :
    expr_fuel ui (max f1 f2 + 1) toks = .ok res := by
  simp only [expr_fuel, mul_fuel_le ui (Nat.le_max_left f1 f2) h1,
    expr_loop_le ui (Nat.le_max_right f1 f2) h2]

theorem mul_loop_at_star (ui : List Char) (f1 f2 : Nat) (toks r1 : List Token) (n0 n : Node)
    (res : Node × List Token) (h1 : primary_fuel ui f1 toks = .ok (n, r1))
    (h2 : mul_loop ui f2 (.ND_MUL n0 n) r1 = .ok res) :
    mul_loop ui (max f1 f2 + 1) n0 (op_token '*' :: toks) = .ok res := by
  simp only [mul_loop, consume_op_token, if_true,
    primary_fuel_le ui (Nat.le_max_left f1 f2) h1, mul_loop_le ui (Nat.le_max_right f1 f2) h2]

theorem mul_loop_at_slash (ui : List Char) (f1 f2 : Nat) (toks r1 : List Token) (n0 n : Node)
    (res : Node × List Token) (h1 : primary_fuel ui f1 toks = .ok (n, r1))
    (h2 : mul_loop ui f2 (.ND_DIV n0 n) r1 = .ok res) :
    mul_loop ui (max f1 f2 + 1) n0 (op_token '/' :: toks) = .ok res := by
  have hne : ¬('/' = '*') := by decide
  simp only [mul_loop, consume_op_token, hne, if_false, if_true,
    primary_fuel_le ui (Nat.le_max_left f1 f2) h1, mul_loop_le ui (Nat.le_max_right f1 f2) h2]

theorem expr_loop_at_plus (ui : List Char) (f1 f2 : Nat) (toks r1 : List Token) (n0 n : Node)
    (res : Node × List Token) (h1 : mul_fuel ui f1 toks = .ok (n, r1))
    (h2 : expr_loop ui f2 (.ND_ADD n0 n) r1 = .ok res) :
    expr_loop ui (max f1 f2 + 1) n0 (op_token '+' :: toks) = .ok res := by
  simp only [expr_loop, consume_op_token, if_true,
    mul_fuel_le ui (Nat.le_max_left f1 f2) h1, expr_loop_le ui (Nat.le_max_right f1 f2) h2]

theorem expr_loop_at_minus (ui : List Char) (f1 f2 : Nat) (toks r1 : List Token) (n0 n : Node)
    (res : Node × List Token) (h1 : mul_fuel ui f1 toks = .ok (n, r1))
    (h2 : expr_loop ui f2 (.ND_SUB n0 n) r1 = .ok res) :
    expr_loop ui (max f1 f2 + 1) n0 (op_token '-' :: toks) = .ok res := by
  have hne : ¬('-' = '+') := by decide
  simp only [expr_loop, consume_op_token, hne, if_false, if_true,
    mul_fuel_le ui (Nat.le_max_left f1 f2) h1, expr_loop_le ui (Nat.le_max_right f1 f2) h2]

/-- What `mul` reads as a primary it reads as a whole operand of `mul`. -/
theorem parses_mul_of_primary (ui : List Char) (toks : List Token) (t : Node)
    (h : parses_primary ui toks t) : parses_mul ui toks t := by
  intro rest res ⟨f2, h2⟩
  obtain ⟨f1, h1⟩ := h rest
  exact ⟨_, mul_of_parts ui f1 f2 _ _ t res h1 h2⟩

/-- What `expr` reads as an operand of `mul` it reads as a whole operand of
`expr`. -/
theorem parses_add_of_mul (ui : List Char) (toks : List Token) (t : Node)
    (h : parses_mul ui toks t) : parses_add ui toks t := by
  intro rest res hs hd ⟨f2, h2⟩
  obtain ⟨f1, h1⟩ := h rest (t, rest) ⟨1, mul_loop_stop ui 0 t rest rest rest hs hd⟩
  exact ⟨_, expr_of_parts ui f1 f2 _ _ t res h1 h2⟩

/-- An expression between parentheses is read by `primary`. -/
theorem parses_primary_paren (ui : List Char) (toks : List Token) (t : Node)
    (h : parses_add ui toks t) :
    parses_primary ui (op_token '(' :: (toks ++ [op_token ')'])) t := by
  intro rest
  have hstop : expr_loop ui 1 t (op_token ')' :: rest) = .ok (t, op_token ')' :: rest) := by
    simp [expr_loop, consume_op_token]
  obtain ⟨f, hf⟩ := h (op_token ')' :: rest) (t, op_token ')' :: rest)
    (by simp [consume_op_token]) (by simp [consume_op_token]) ⟨1, hstop⟩
  refine ⟨f + 1, ?_⟩
  have := primary_paren ui f (toks ++ op_token ')' :: rest) rest t hf
  simpa using this

theorem parses_mul_star (ui : List Char) (L R : List Token) (l r : Node)
    (hl : parses_mul ui L l) (hr : parses_primary ui R r) :
    parses_mul ui (L ++ op_token '*' :: R) (.ND_MUL l r) := by
  intro rest res ⟨f2, h2⟩
  obtain ⟨f1, h1⟩ := hr rest
  have := hl (op_token '*' :: (R ++ rest)) res ⟨_, mul_loop_at_star ui f1 f2 _ _ l r res h1 h2⟩
  simpa using this

theorem parses_mul_slash (ui : List Char) (L R : List Token) (l r : Node)
    (hl : parses_mul ui L l) (hr : parses_primary ui R r) :
    parses_mul ui (L ++ op_token '/' :: R) (.ND_DIV l r) := by
  intro rest res ⟨f2, h2⟩
  obtain ⟨f1, h1⟩ := hr rest
  have := hl (op_token '/' :: (R ++ rest)) res ⟨_, mul_loop_at_slash ui f1 f2 _ _ l r res h1 h2⟩
  simpa using this

theorem parses_add_plus (ui : List Char) (L R : List Token) (l r : Node)
    (hl : parses_add ui L l) (hr : parses_mul ui R r) :
    parses_add ui (L ++ op_token '+' :: R) (.ND_ADD l r) := by
  intro rest res hs hd ⟨f2, h2⟩
  obtain ⟨f1, h1⟩ := hr rest (r, rest) ⟨1, mul_loop_stop ui 0 r rest rest rest hs hd⟩
  have := hl (op_token '+' :: (R ++ rest)) res (by simp [consume_op_token])
    (by simp [consume_op_token]) ⟨_, expr_loop_at_plus ui f1 f2 _ _ l r res h1 h2⟩
  simpa using this

theorem parses_add_minus (ui : List Char) (L R : List Token) (l r : Node)
    (hl : parses_add ui L l) (hr : parses_mul ui R r) :
    parses_add ui (L ++ op_token '-' :: R) (.ND_SUB l r) := by
  intro rest res hs hd ⟨f2, h2⟩
  obtain ⟨f1, h1⟩ := hr rest (r, rest) ⟨1, mul_loop_stop ui 0 r rest rest rest hs hd⟩
  have := hl (op_token '-' :: (R ++ rest)) res (by simp [consume_op_token])
    (by simp [consume_op_token]) ⟨_, expr_loop_at_minus ui f1 f2 _ _ l r res h1 h2⟩
  simpa using this

/-- The canonical tokens of a tree are read back as the tree at each of the
three levels. -/
theorem render_parses (ui : List Char) : ∀ t : Node,
    parses_add ui (render 0 t) t ∧ parses_mul ui (render 1 t) t ∧
      parses_primary ui (render 2 t) t := by
  intro t
  induction t with
  | ND_NUM val =>
    have hp : parses_primary ui [num_token val] (.ND_NUM val) :=
      fun rest => ⟨1, primary_num_token ui val rest⟩
    have hm := parses_mul_of_primary ui _ _ hp
    exact ⟨parses_add_of_mul ui _ _ hm, hm, hp⟩
  | ND_ADD lhs rhs ihl ihr =>
    have ha : parses_add ui (render 0 lhs ++ op_token '+' :: render 1 rhs) (.ND_ADD lhs rhs) :=
      parses_add_plus ui _ _ lhs rhs ihl.1 ihr.2.1
    have hp := parses_primary_paren ui _ _ ha
    have hm := parses_mul_of_primary ui _ _ hp
    refine ⟨?_, ?_, ?_⟩
    · simpa [render, paren_if] using ha
    · simpa [render, paren_if] using hm
    · simpa [render, paren_if] using hp
  | ND_SUB lhs rhs ihl ihr =>
    have ha : parses_add ui (render 0 lhs ++ op_token '-' :: render 1 rhs) (.ND_SUB lhs rhs) :=
      parses_add_minus ui _ _ lhs rhs ihl.1 ihr.2.1
    have hp := parses_primary_paren ui _ _ ha
    have hm := parses_mul_of_primary ui _ _ hp
    refine ⟨?_, ?_, ?_⟩
    · simpa [render, paren_if] using ha
    · simpa [render, paren_if] using hm
    · simpa [render, paren_if] using hp
  | ND_MUL lhs rhs ihl ihr =>
    have hm : parses_mul ui (render 1 lhs ++ op_token '*' :: render 2 rhs) (.ND_MUL lhs rhs) :=
      parses_mul_star ui _ _ lhs rhs ihl.2.1 ihr.2.2
    have ha := parses_add_of_mul ui _ _ hm
    have hp := parses_primary_paren ui _ _ ha
    refine ⟨?_, ?_, ?_⟩
    · simpa [render, paren_if] using ha
    · simpa [render, paren_if] using hm
    · simpa [render, paren_if] using hp
  | ND_DIV lhs rhs ihl ihr =>
    have hm : parses_mul ui (render 1 lhs ++ op_token '/' :: render 2 rhs) (.ND_DIV lhs rhs) :=
      parses_mul_slash ui _ _ lhs rhs ihl.2.1 ihr.2.2
    have ha := parses_add_of_mul ui _ _ hm
    have hp := parses_primary_paren ui _ _ ha
    refine ⟨?_, ?_, ?_⟩
    · simpa [render, paren_if] using ha
    · simpa [render, paren_if] using hm
    · simpa [render, paren_if] using hp

/-- The function `expr` on the canonical tokens of a tree. -/
theorem expr_render (ui : List Char) (t : Node) :
    expr ui (render 0 t ++ [eof_token]) = .ok (t, [eof_token]) := by
  have hstop : expr_loop ui 1 t [eof_token] = .ok (t, [eof_token]) := by
    simp [expr_loop, consume_cons, eof_token]
  obtain ⟨f, hf⟩ := (render_parses ui t).1 [eof_token] (t, [eof_token])
    (by simp [consume_cons, eof_token]) (by simp [consume_cons, eof_token]) ⟨1, hstop⟩
  exact expr_of_fuel ui hf

/-- Two trees and their canonical tokens: parentheses around a sum that is
an operand of a product, and around a difference that is the right
operand of a difference. -/
theorem render_examples :
    render 0 (.ND_MUL (.ND_ADD (.ND_NUM 1) (.ND_NUM 2)) (.ND_NUM 3)) =
      [op_token '(', num_token 1, op_token '+', num_token 2, op_token ')', op_token '*',
        num_token 3] ∧
    render 0 (.ND_SUB (.ND_NUM 1) (.ND_SUB (.ND_NUM 2) (.ND_NUM 3))) =
      [num_token 1, op_token '-', op_token '(', num_token 2, op_token '-', num_token 3,
        op_token ')'] ∧
    render 0 (.ND_ADD (.ND_NUM 1) (.ND_MUL (.ND_NUM 2) (.ND_NUM 3))) =
      [num_token 1, op_token '+', num_token 2, op_token '*', num_token 3] := by
  refine ⟨by decide, by decide, by decide⟩

/-- C19: for every tree, with any literal values, `expr` run on tokens that
have the kinds, characters and values of the canonical tokens of the tree,
followed by an end-of-input token, returns that tree and leaves `token` on
the end-of-input token. -/
theorem expr_inverts_render (ui : List Char) (t : Node) (A : List Token) (eof : Token)
    (heof : eof.kind = .TK_EOF) (hA : A.map token_sig = (render 0 t).map token_sig) :
    expr ui (A ++ [eof]) = .ok (t, [eof]) := by
  obtain ⟨B, B2, hB, hs, he⟩ := expr_sim ui ui eof_token eof [] rfl
    (not_continues_eof eof heof) (render 0 t) A t [eof_token] hA.symm (expr_render ui t)
  have hBnil : B = [] := by
    have := congrArg List.length hB
    simp only [List.length_cons, List.length_nil, List.length_append] at this
    exact List.eq_nil_of_length_eq_zero (by omega)
  subst hBnil
  have hB2 : B2 = [] := map_sig_nil hs
  subst hB2
  exact he

theorem expr_inverts_render_witness :
    render 0 (.ND_MUL (.ND_ADD (.ND_NUM 1) (.ND_NUM 2)) (.ND_NUM 3)) =
      [op_token '(', num_token 1, op_token '+', num_token 2, op_token ')', op_token '*',
        num_token 3] ∧
    expr "(1+2)*3".toList
        ([⟨.TK_RESERVED, 0, "(1+2)*3".toList⟩, ⟨.TK_NUM, 1, "1+2)*3".toList⟩,
          ⟨.TK_RESERVED, 0, "+2)*3".toList⟩, ⟨.TK_NUM, 2, "2)*3".toList⟩,
          ⟨.TK_RESERVED, 0, ")*3".toList⟩, ⟨.TK_RESERVED, 0, "*3".toList⟩,
          ⟨.TK_NUM, 3, "3".toList⟩] ++ [⟨.TK_EOF, 0, []⟩]) =
      .ok (.ND_MUL (.ND_ADD (.ND_NUM 1) (.ND_NUM 2)) (.ND_NUM 3), [⟨.TK_EOF, 0, []⟩]) :=
  ⟨by decide,
    expr_inverts_render "(1+2)*3".toList (.ND_MUL (.ND_ADD (.ND_NUM 1) (.ND_NUM 2)) (.ND_NUM 3))
      _ ⟨.TK_EOF, 0, []⟩ rfl (by decide)⟩

end NineCC
